import Mathlib

/-!
# SudokuSolver (`sudoku.cpp`): a shallow embedding

The C program keeps a Sudoku as `int sdk[LIN][COL]` with `LIN = COL = 9`; every cell is a bit
pattern of candidate digits (bit `k` stands for digit `k + 1`).  Cells are modelled as natural
numbers, a matrix as nine rows of nine cells, the global variables as a `State` record that is
passed explicitly, and what a run prints as a list of `Event`s.

The counters `numAttempts` and `numCurrentSol` are 32-bit `int`s in the source: their
increments go through `wrapInt`, so that `2147483647 + 1` is `-2147483648` as in the compiled
program, and `numSolRequested` is what `atoi` gave.  The level `recLevel` starts at 0 in `main`
and stays between 0 and 82 in a run (`solveSdk_depth`), so its increments are left as they are.
Loops that the source leaves by `return` or `break` are recursive functions over the index
pairs still to visit;
recursion and the two `while` loops of `solveSdk` take a budget, and a used-up budget is the
result `Fault.fuel` (shown not to occur with the budgets that `solveSdk` and `main` use).
-/

namespace Sudoku

/-! ## Constants of the source -/

/-- The constant `LIN`: lines in a Sudoku. -/
def LIN : Nat := 9
/-- The constant `COL`: columns in a Sudoku. -/
def COL : Nat := 9
/-- The constant `MAXDIGITS`. -/
def MAXDIGITS : Nat := 9
/-- The constant `NOTSET`: the value of `minOptions` when no cell was unset. -/
def NOTSET : Nat := 10

/-! ## The matrix -/

/-- One line of a Sudoku matrix: `COL` cells. -/
abbrev Line := Mathlib.Vector Nat 9

/-- The matrix `int sdk[LIN][COL]`. -/
abbrev Grid := Mathlib.Vector Line 9

/-- The read `sdk[i][j]`. -/
def Grid.cell (g : Grid) (i j : Fin 9) : Nat := (g.get i).get j

/-- The write `sdk[i][j] = v`. -/
def Grid.put (g : Grid) (i j : Fin 9) (v : Nat) : Grid := g.set i ((g.get i).set j v)

/-- A matrix given by its rows; missing entries are `0` (the initialiser `= {0}` of `main`). -/
def Grid.ofRows (rows : List (List Nat)) : Grid :=
  Mathlib.Vector.ofFn fun i => Mathlib.Vector.ofFn fun j => (rows.getD i.val []).getD j.val 0

/-- The all-zero matrix `int sdkToSolve[LIN][COL] = {0}`. -/
def Grid.zero : Grid := Mathlib.Vector.replicate 9 (Mathlib.Vector.replicate 9 0)

/-- The index pairs `(i, j)` in the order of `for (i ...) for (j ...)`: row-major. -/
def positions : List (Fin 9 × Fin 9) :=
  (List.finRange 9).flatMap fun i => (List.finRange 9).map fun j => (i, j)

/-! ## Global variables and output -/

/-- The global variables of the program. -/
structure State where
  /-- The field for `int recLevel`. -/
  recLevel : Int
  /-- The field for `int ierr`. -/
  ierr : Nat
  /-- The field for `int jerr`. -/
  jerr : Nat
  /-- The field for `int numSolRequested`. -/
  numSolRequested : Int
  /-- The field for `int numCurrentSol`. -/
  numCurrentSol : Int
  /-- The field for `int numAttempts`. -/
  numAttempts : Int
deriving DecidableEq, Repr

/-- The globals as `main` leaves them before the first call of `solveSdk`, for a requested
number of solutions `n` (`-sn`). -/
def State.init (n : Int) : State :=
  { recLevel := 0, ierr := 0, jerr := 0, numSolRequested := n, numCurrentSol := 1, numAttempts := 1 }

/-- What a run of `solveSdk` does that can be observed, in order.
`solution k a m`: the call `outputPass(1, "Solution k in a attemps:", m)`.
`trial st i j opc m`: the recursive call `solveSdk(beVerbose, m)` made from the candidate loop for
cell `[i, j]` with candidate mask `opc`, with the globals `st` at that moment. -/
inductive Event where
  /-- The output of a solution. -/
  | solution (numCurrentSol numAttempts : Int) (sudoku : Grid)
  /-- The start of a trial branch. -/
  | trial (st : State) (i j opc : Nat) (sudoku : Grid)
deriving DecidableEq

/-- Why a modelled run stops without a result. -/
inductive Fault where
  /-- The recursion or loop budget of the model was used up. -/
  | fuel
  /-- The program read `options[LIN][0]`, outside the array. -/
  | bounds
deriving DecidableEq, Repr

/-! ## `digitsInCell` -/

/-- The loop `for (digits = 0; cell != 0; cell >>= 1) if (cell & 01) digits++;`.
The first argument bounds the number of iterations. -/
def digitsLoop : Nat → Nat → Nat → Nat
  | 0, _, digits => digits
  | fuel + 1, cell, digits =>
    if cell ≠ 0 then digitsLoop fuel (cell >>> 1) (if cell &&& 1 ≠ 0 then digits + 1 else digits)
    else digits

/-- The function `digitsInCell`; `cell` itself bounds the iterations, as a non-zero cell
gets smaller with each shift. -/
def digitsInCell (cell : Nat) : Nat := digitsLoop cell cell 0

/-! ## `isCompliant` and `isSolution` -/

/-- The index `(i / NONETLIN) * NONETLIN + a` of line `a` of the nonet of `i`. -/
def nonetIdx (i : Fin 9) (a : Fin 3) : Fin 9 := ⟨(i.val / 3) * 3 + a.val, by omega⟩

/-- Line 148: `for (k ...) if ((k != i) && (cellij == sdk[k][j])) return (0);`. -/
def clashInCol (sdk : Grid) (i j : Fin 9) : Bool :=
  (List.finRange 9).any fun k => decide (k ≠ i) && decide (sdk.cell i j = sdk.cell k j)

/-- Line 149: `for (k ...) if ((k != j) && (cellij == sdk[i][k])) return (0);`. -/
def clashInLin (sdk : Grid) (i j : Fin 9) : Bool :=
  (List.finRange 9).any fun k => decide (k ≠ j) && decide (sdk.cell i j = sdk.cell i k)

/-- Lines 150-152: the two loops over the nonet of `(i, j)`. -/
def clashInNonet (sdk : Grid) (i j : Fin 9) : Bool :=
  (List.finRange 3).any fun a => (List.finRange 3).any fun b =>
    decide (sdk.cell i j = sdk.cell (nonetIdx i a) (nonetIdx j b)) &&
      (decide (nonetIdx i a ≠ i) || decide (nonetIdx j b ≠ j))

/-- The two outer loops of `isCompliant` over the index pairs still to visit; the second
argument holds `(ierr, jerr)`.  The result is the returned value and `(ierr, jerr)`. -/
def isCompliantLoop (sdk : Grid) : List (Fin 9 × Fin 9) → Nat × Nat → Bool × (Nat × Nat)
  | [], err => (true, err)
  | (i, j) :: rest, err =>
    if digitsInCell (sdk.cell i j) = 1 then
      if clashInCol sdk i j || clashInLin sdk i j || clashInNonet sdk i j then
        (false, (i.val, j.val))
      else isCompliantLoop sdk rest (i.val, j.val)
    else isCompliantLoop sdk rest err

/-- The function `isCompliant`, with the globals it writes. -/
def isCompliant (sdk : Grid) (st : State) : Bool × State :=
  let r := isCompliantLoop sdk positions (st.ierr, st.jerr)
  (r.1, { st with ierr := r.2.1, jerr := r.2.2 })

/-- The function `isSolution`: its first loops return `0` at a cell that is not fixed. -/
def isSolution (sdk : Grid) (st : State) : Bool × State :=
  if positions.any fun p => decide (digitsInCell (sdk.cell p.1 p.2) ≠ 1) then (false, st)
  else isCompliant sdk st

/-! ## `setOptions` -/

/-- The value of `sumLin[i]` after lines 186-187. -/
def sumLin (inSdk : Grid) (i : Fin 9) : Nat :=
  (List.finRange 9).foldl (fun acc j => acc ||| inSdk.cell i j) 0

/-- The value of `sumCol[j]` after lines 188-189. -/
def sumCol (inSdk : Grid) (j : Fin 9) : Nat :=
  (List.finRange 9).foldl (fun acc i => acc ||| inSdk.cell i j) 0

/-- The value of `sumNonet[a][b]` after lines 190-191: every cell `(i, j)` with
`i / NONETLIN = a` and `j / NONETCOL = b` is or-ed in. -/
def sumNonet (inSdk : Grid) (a b : Nat) : Nat :=
  positions.foldl
    (fun acc p => if p.1.val / 3 = a ∧ p.2.val / 3 = b then acc ||| inSdk.cell p.1 p.2 else acc) 0

/-- The expression `0777 & ~x` on 32-bit `int`s, for `x` not negative. -/
def maskNot (x : Nat) : Nat := 0o777 &&& (0xFFFFFFFF ^^^ x)

/-- The loops of lines 192-199 over the index pairs still to visit. -/
def setOptionsLoop (inSdk : Grid) : List (Fin 9 × Fin 9) → Grid → Nat → Nat × Grid
  | [], outSdk, minOptions => (minOptions, outSdk)
  | (i, j) :: rest, outSdk, minOptions =>
    if inSdk.cell i j ≠ 0 then
      setOptionsLoop inSdk rest (outSdk.put i j (inSdk.cell i j)) minOptions
    else
      let outSdk1 := outSdk.put i j
        (maskNot (sumLin inSdk i ||| sumCol inSdk j ||| sumNonet inSdk (i.val / 3) (j.val / 3)))
      if minOptions > digitsInCell (outSdk1.cell i j) then
        setOptionsLoop inSdk rest outSdk1 (digitsInCell (outSdk1.cell i j))
      else setOptionsLoop inSdk rest outSdk1 minOptions

/-- The function `setOptions`: the returned minimum and the filled `outSdk`. -/
def setOptions (inSdk outSdk : Grid) : Nat × Grid :=
  setOptionsLoop inSdk positions outSdk NOTSET

/-! ## `consolidateOpt` -/

/-- The loops of lines 213-218 over the index pairs still to visit. -/
def consolidateLoop (sdkOptions : Grid) : List (Fin 9 × Fin 9) → Grid → Nat → Nat × Grid
  | [], sdkSolution, numConsolidated => (numConsolidated, sdkSolution)
  | (i, j) :: rest, sdkSolution, numConsolidated =>
    if sdkSolution.cell i j = 0 ∧ digitsInCell (sdkOptions.cell i j) = 1 then
      consolidateLoop sdkOptions rest (sdkSolution.put i j (sdkOptions.cell i j))
        (numConsolidated + 1)
    else consolidateLoop sdkOptions rest sdkSolution numConsolidated

/-- The function `consolidateOpt`: the returned count, `sdkSolution` and the globals. -/
def consolidateOpt (sdkOptions sdkSolution : Grid) (st : State) : Nat × Grid × State :=
  let c := isCompliant sdkOptions st
  if c.1 then
    let r := consolidateLoop sdkOptions positions sdkSolution 0
    (r.1, r.2, c.2)
  else (0, sdkSolution, c.2)

/-! ## `solveSdk` -/

/-- The loop of lines 239-242,
`do { numOptions = setOptions(sudoku, options); if (numOptions != 1) break; }
 while (consolidateOpt(options, sudoku));`.
The first argument bounds the number of iterations; the result is `numOptions`, `options`,
`sudoku` and the globals. -/
def propagate : Nat → Grid → Grid → State → Option (Nat × Grid × Grid × State)
  | 0, _, _, _ => none
  | fuel + 1, sudoku, options, st =>
    let s := setOptions sudoku options
    if s.1 ≠ 1 then some (s.1, s.2, sudoku, st)
    else
      let c := consolidateOpt s.2 sudoku st
      if c.1 ≠ 0 then propagate fuel c.2.1 s.2 c.2.2
      else some (s.1, s.2, c.2.1, c.2.2)

/-- The loop of lines 262-270 from the indices `(i, j)`,
`while (digitsInCell(options[i][j]) < 2) { j++; if (j == COL) { i++; j = 0; } if (i == LIN) break; }`.
The first argument bounds the number of iterations; the result is the final `(i, j)`. -/
def scanLoop (options : Grid) : Nat → Nat → Nat → Option (Nat × Nat)
  | 0, _, _ => none
  | fuel + 1, i, j =>
    if h : i < 9 ∧ j < 9 then
      if digitsInCell (options.cell ⟨i, h.1⟩ ⟨j, h.2⟩) < 2 then
        let i1 := if j + 1 = COL then i + 1 else i
        let j1 := if j + 1 = COL then 0 else j + 1
        if i1 = LIN then some (i1, j1) else scanLoop options fuel i1 j1
      else some (i, j)
    else none

/-- The result of a call of `solveSdk`: the returned value, the globals and the output. -/
abbrev Outcome := Except Fault (Int × State × List Event)

/-- The loop of lines 272-284 for the cell `[i, j]` whose candidates are `cellOpt`,
`for (k = 0; k < MAXDIGITS && numSolRequested >= numCurrentSol; k++) { ... opc <<= 1; }`,
with `solve` for the recursive call.  The first argument is `MAXDIGITS - k`. -/
def trialLoop (solve : Grid → State → Outcome) (cellOpt : Nat) (i j : Fin 9) :
    Nat → Nat → Grid → Int → State → List Event → Outcome
  | 0, _, _, result, st, out => .ok (result, st, out)
  | todo + 1, opc, sudoku, result, st, out =>
    if st.numSolRequested ≥ st.numCurrentSol then
      if cellOpt &&& opc ≠ 0 then
        match solve (sudoku.put i j opc) st with
        | .error e => .error e
        | .ok (r, st1, out1) =>
          trialLoop solve cellOpt i j todo (opc <<< 1) (sudoku.put i j opc) r st1
            (out ++ Event.trial st i.val j.val opc (sudoku.put i j opc) :: out1)
      else trialLoop solve cellOpt i j todo (opc <<< 1) sudoku result st out
    else .ok (result, st, out)

/-- The value of a 32-bit `int` after an operation whose mathematical result is `x`: the
result modulo `2^32`, between `-2147483648` and `2147483647`. -/
def wrapInt (x : Int) : Int := (x + 2147483648) % 4294967296 - 2147483648

/-- The function `solveSdk`.  The first argument bounds the depth of the recursion; the local
array `options` starts as `Grid.zero` (the source leaves it uninitialised and `setOptions`
writes every cell of it).  Only the output for `beVerbose = 0` is kept, along with the
`trial` events; `numAttempts++` and `numCurrentSol++` are 32-bit increments. -/
def solveSdk : Nat → Grid → State → Outcome
  | 0, _, _ => .error Fault.fuel
  | fuel + 1, sdk, st =>
    let st1 := { st with recLevel := st.recLevel + 1, numAttempts := wrapInt (st.numAttempts + 1) }
    match propagate (LIN * COL + 1) sdk Grid.zero st1 with
    | none => .error Fault.fuel
    | some (numOptions, options, sudoku, st2) =>
      if numOptions = 0 ∨ numOptions = 1 ∨ numOptions = NOTSET then
        let s := isSolution sudoku st2
        if s.1 then
          .ok (1, { s.2 with numCurrentSol := wrapInt (s.2.numCurrentSol + 1),
                             recLevel := s.2.recLevel - 1 },
            [Event.solution s.2.numCurrentSol s.2.numAttempts sudoku])
        else .ok (0, { s.2 with recLevel := s.2.recLevel - 1 }, [])
      else
        match scanLoop options (LIN * COL) 0 0 with
        | none => .error Fault.fuel
        | some (i, j) =>
          if h : i < 9 ∧ j < 9 then
            match trialLoop (solveSdk fuel) (options.cell ⟨i, h.1⟩ ⟨j, h.2⟩) ⟨i, h.1⟩ ⟨j, h.2⟩
                MAXDIGITS 1 sudoku 0 st2 [] with
            | .error e => .error e
            | .ok (r, st3, out) => .ok (r, { st3 with recLevel := st3.recLevel - 1 }, out)
          else .error Fault.bounds

/-- The grids of the `solution` events of an output, in order. -/
def solutions : List Event → List Grid
  | [] => []
  | Event.solution _ _ g :: rest => g :: solutions rest
  | Event.trial _ _ _ _ _ :: rest => solutions rest

/-- What `main` does after `readSdk`: either the report of line 323 (the cell indices and the
cell value) or the run of `solveSdk`. -/
inductive MainResult where
  /-- The report "The initial values are not compliant: check cell [ierr, jerr] = value". -/
  | notCompliant (ierr jerr value : Nat)
  /-- The call of `solveSdk` and what it did. -/
  | solved (run : Outcome)

/-- The read `sdk[i][j]` for `int` indices; `0` stands for a read outside the matrix. -/
def Grid.read (g : Grid) (i j : Nat) : Nat :=
  if h : i < 9 ∧ j < 9 then g.cell ⟨i, h.1⟩ ⟨j, h.2⟩ else 0

/-- The last lines of `main` on the matrix read, with `n` solutions requested.  The recursion
budget is `LIN * COL + 1`. -/
def main (n : Int) (sdkToSolve : Grid) : MainResult :=
  let c := isCompliant sdkToSolve (State.init n)
  if c.1 then MainResult.solved (solveSdk (LIN * COL + 1) sdkToSolve c.2)
  else MainResult.notCompliant c.2.ierr c.2.jerr (sdkToSolve.read c.2.ierr c.2.jerr)

/-! ## Notions used to state the properties -/

/-- The nine single-digit masks `0001, 0002, 0004, ..., 0400`. -/
def masks : List Nat := [1, 2, 4, 8, 16, 32, 64, 128, 256]

/-- A cell that holds one of the nine single-digit masks. -/
def IsMask (c : Nat) : Prop := c ∈ masks

instance (c : Nat) : Decidable (IsMask c) := by unfold IsMask; infer_instance

/-- Every cell of the matrix is unset (`0`) or one of the nine single-digit masks. -/
def Cells01 (g : Grid) : Prop := ∀ i j : Fin 9, g.cell i j = 0 ∨ IsMask (g.cell i j)

instance (g : Grid) : Decidable (Cells01 g) := by unfold Cells01; infer_instance

/-- Every cell of the matrix is unset (`0`) or fixed (`digitsInCell` is 1). -/
def UnsetOrFixed (g : Grid) : Prop := ∀ i j : Fin 9, g.cell i j = 0 ∨ digitsInCell (g.cell i j) = 1

instance (g : Grid) : Decidable (UnsetOrFixed g) := by unfold UnsetOrFixed; infer_instance

/-- Two index pairs lie in the same line, the same column or the same nonet. -/
def SameUnit (p q : Fin 9 × Fin 9) : Prop :=
  p.1 = q.1 ∨ p.2 = q.2 ∨ (p.1.val / 3 = q.1.val / 3 ∧ p.2.val / 3 = q.2.val / 3)

instance (p q : Fin 9 × Fin 9) : Decidable (SameUnit p q) := by unfold SameUnit; infer_instance

/-- Two distinct positions of one line, column or nonet hold cells that are both fixed and
equal. -/
def Clash (sdk : Grid) (p q : Fin 9 × Fin 9) : Prop :=
  p ≠ q ∧ SameUnit p q ∧ digitsInCell (sdk.cell p.1 p.2) = 1 ∧
    digitsInCell (sdk.cell q.1 q.2) = 1 ∧ sdk.cell p.1 p.2 = sdk.cell q.1 q.2

/-- The cell at `p` is fixed and another cell of its line, column or nonet holds the same
value. -/
def Offends (sdk : Grid) (p : Fin 9 × Fin 9) : Prop :=
  digitsInCell (sdk.cell p.1 p.2) = 1 ∧
    ∃ q : Fin 9 × Fin 9, q ≠ p ∧ SameUnit p q ∧ sdk.cell q.1 q.2 = sdk.cell p.1 p.2

/-- Row-major order of index pairs: `p` is visited before `q`. -/
def Before (p q : Fin 9 × Fin 9) : Prop := p.1 < q.1 ∨ (p.1 = q.1 ∧ p.2 < q.2)

instance (p q : Fin 9 × Fin 9) : Decidable (Before p q) := by unfold Before; infer_instance

/-- The index `3 * a + x` of line (or column) `x` of the nonet line (or column) `a`. -/
def blockIdx (a x : Fin 3) : Fin 9 := ⟨a.val * 3 + x.val, by omega⟩

/-- Every line, every column and every nonet holds each of the digits 1..9 exactly once. -/
def EachDigitOnce (G : Grid) : Prop :=
  ∀ d : Fin 9,
    (∀ i : Fin 9, ∃! j : Fin 9, G.cell i j = 1 <<< d.val) ∧
    (∀ j : Fin 9, ∃! i : Fin 9, G.cell i j = 1 <<< d.val) ∧
    (∀ a b : Fin 3, ∃! x : Fin 3 × Fin 3, G.cell (blockIdx a x.1) (blockIdx b x.2) = 1 <<< d.val)

/-- The cell rule of `setOptions` in the words of the specification, at position `(i, j)`:
a fixed input cell is copied, and any other input cell becomes the full nine-digit set minus
the digits of the fixed cells of line `i`, column `j` and the nonet of `(i, j)`.
Digit `d + 1` is bit `d`. -/
def SetOptionsCellRule (inSdk outSdk : Grid) (i j : Fin 9) : Prop :=
  (digitsInCell (inSdk.cell i j) = 1 →
    (setOptions inSdk outSdk).2.cell i j = inSdk.cell i j) ∧
  (digitsInCell (inSdk.cell i j) ≠ 1 →
    (setOptions inSdk outSdk).2.cell i j < 512 ∧
    ∀ d : Nat, d < 9 →
      (((setOptions inSdk outSdk).2.cell i j).testBit d = true ↔
        ¬ ∃ q : Fin 9 × Fin 9, SameUnit (i, j) q ∧ digitsInCell (inSdk.cell q.1 q.2) = 1 ∧
          (inSdk.cell q.1 q.2).testBit d = true))

/-- The positions that `consolidateOpt` is said to copy: the solution does not hold a fixed
value and the options grid has exactly one candidate. -/
def toCopy (O S : Grid) (p : Fin 9 × Fin 9) : Prop :=
  digitsInCell (S.cell p.1 p.2) ≠ 1 ∧ digitsInCell (O.cell p.1 p.2) = 1

instance (O S : Grid) (p : Fin 9 × Fin 9) : Decidable (toCopy O S p) := by
  unfold toCopy; infer_instance

/-- The postcondition of `consolidateOpt` in the words of the specification. -/
def ConsolidatePost (O S : Grid) (st : State) : Prop :=
  ((isCompliant O st).1 = false →
    (consolidateOpt O S st).1 = 0 ∧ (consolidateOpt O S st).2.1 = S) ∧
  ((isCompliant O st).1 = true →
    (∀ i j : Fin 9, (consolidateOpt O S st).2.1.cell i j =
      if toCopy O S (i, j) then O.cell i j else S.cell i j) ∧
    (consolidateOpt O S st).1 = (positions.filter fun p => decide (toCopy O S p)).length)

/-- The value that the body of the loops of lines 192-199 writes to `outSdk[i][j]`. -/
def optCell (inSdk : Grid) (i j : Fin 9) : Nat :=
  if inSdk.cell i j ≠ 0 then inSdk.cell i j
  else maskNot (sumLin inSdk i ||| sumCol inSdk j ||| sumNonet inSdk (i.val / 3) (j.val / 3))

/-- The number of cells that are unset. -/
def unsetCount (g : Grid) : Nat :=
  (positions.filter fun p => decide (g.cell p.1 p.2 = 0)).length

/-- The number of cells that are not fixed. -/
def nonFixed (g : Grid) : Nat :=
  (positions.filter fun p => decide (digitsInCell (g.cell p.1 p.2) ≠ 1)).length

/-- The matrix `s` is a valid completion of `g`: every cell of `s` is one of the nine
single-digit masks, no line, column or nonet of `s` holds a digit twice, and `s` agrees with
`g` on every cell that is fixed in `g`. -/
def Completion (g s : Grid) : Prop :=
  (∀ i j : Fin 9, IsMask (s.cell i j)) ∧ (¬ ∃ p q, Clash s p q) ∧
    ∀ i j : Fin 9, digitsInCell (g.cell i j) = 1 → s.cell i j = g.cell i j

/-- The `trial` events of an output: the globals at the start of each trial branch. -/
def trialStates : List Event → List State
  | [] => []
  | Event.solution _ _ _ :: rest => trialStates rest
  | Event.trial st _ _ _ _ :: rest => st :: trialStates rest

/-- The claim on the requested count in the words of the specification, for a run that starts
with `numCurrentSol = 1`: the run writes at most `numSolRequested` solutions, and every trial
branch starts with fewer than `numSolRequested` solutions found. -/
def RequestedBound (g : Grid) (st : State) : Prop :=
  ∃ (r : Int) (st1 : State) (out : List Event),
    solveSdk (LIN * COL + 1) g st = .ok (r, st1, out) ∧
    ((solutions out).length : Int) ≤ st.numSolRequested ∧
    ∀ t ∈ trialStates out, t.numCurrentSol - 1 < st.numSolRequested

/-- The claim on the enumeration in the words of the specification, for a run that starts
with `numCurrentSol = 1` and `n = numSolRequested`: the run gives a result, the solutions it
writes are different valid completions, at most `n` of them, and all of them when fewer than
`n` are written; so when the matrix has exactly `m` valid completions (those of a list `L`
without repetition), exactly `min n m` solutions are written, and with `m <= n` every valid
completion is written. -/
def Enumerates (g : Grid) (st : State) : Prop :=
  ∃ (r : Int) (st1 : State) (out : List Event),
    solveSdk (LIN * COL + 1) g st = .ok (r, st1, out) ∧
    (solutions out).Nodup ∧ (∀ s ∈ solutions out, Completion g s) ∧
    ((solutions out).length : Int) ≤ st.numSolRequested ∧
    (((solutions out).length : Int) < st.numSolRequested →
      ∀ s, Completion g s → s ∈ solutions out) ∧
    ∀ L : List Grid, L.Nodup → (∀ s, s ∈ L ↔ Completion g s) →
      ((solutions out).length : Int) = min st.numSolRequested (L.length : Int) ∧
      ((L.length : Int) ≤ st.numSolRequested → ∀ s, Completion g s → s ∈ solutions out)

/-! ## Matrices used as examples -/

/-- The Sudoku printed by the usage message of `main`. -/
def usageSdk : Grid := Grid.ofRows
  [[0, 0, 0, 2, 0, 0, 0, 4, 0],
   [0, 0, 16, 0, 64, 0, 2, 0, 0],
   [0, 0, 256, 0, 0, 0, 0, 8, 1],
   [0, 0, 4, 0, 0, 256, 0, 0, 64],
   [0, 16, 0, 0, 0, 0, 0, 0, 8],
   [128, 0, 0, 0, 0, 0, 0, 1, 0],
   [256, 0, 0, 4, 0, 0, 0, 0, 0],
   [0, 0, 128, 32, 0, 0, 0, 0, 0],
   [0, 1, 8, 16, 0, 0, 4, 64, 0]]

/-- A solved Sudoku: lines `123456789`, `456789123`, `789123456`, `214365897`, `365897214`,
`897214365`, `531642978`, `642978531`, `978531642`. -/
def solvedSdk : Grid := Grid.ofRows
  [[1, 2, 4, 8, 16, 32, 64, 128, 256],
   [8, 16, 32, 64, 128, 256, 1, 2, 4],
   [64, 128, 256, 1, 2, 4, 8, 16, 32],
   [2, 1, 8, 4, 32, 16, 128, 256, 64],
   [4, 32, 16, 128, 256, 64, 2, 1, 8],
   [128, 256, 64, 2, 1, 8, 4, 32, 16],
   [16, 4, 1, 32, 8, 2, 256, 64, 128],
   [32, 8, 2, 256, 64, 128, 16, 4, 1],
   [256, 64, 128, 16, 4, 1, 32, 8, 2]]

/-- The solved Sudoku `solvedSdk` with 19 cells emptied: lines `123456789`, `456789123`,
`789123456`, `2.436.8..`, `3658.7.1.`, `89.2..36.`, `53.6....8`, `642978531`, `9.853.64.`. -/
def branchSdk : Grid := Grid.ofRows
  [[1, 2, 4, 8, 16, 32, 64, 128, 256],
   [8, 16, 32, 64, 128, 256, 1, 2, 4],
   [64, 128, 256, 1, 2, 4, 8, 16, 32],
   [2, 0, 8, 4, 32, 0, 128, 0, 0],
   [4, 32, 16, 128, 0, 64, 0, 1, 0],
   [128, 256, 0, 2, 0, 0, 4, 32, 0],
   [16, 4, 0, 32, 0, 0, 0, 0, 128],
   [32, 8, 2, 256, 64, 128, 16, 4, 1],
   [256, 0, 128, 16, 4, 0, 32, 8, 0]]

/-- A Sudoku with the digit 5 twice in its first line: `..5....5.` and eight empty lines. -/
def clashSdk : Grid := Grid.ofRows [[0, 0, 16, 0, 0, 0, 0, 16, 0]]

/-- A matrix whose first cell holds the two candidates 1 and 2; all other cells are unset. -/
def ambiguousSdk : Grid := Grid.ofRows [[3]]

/-- A matrix whose first cell holds the digit 1; all other cells are unset. -/
def oneSdk : Grid := Grid.ofRows [[1]]

/-! ## Text output: `outputRecuLevel`, `outputCell`, `outputPass` -/

/-- The text that `%d` prints for an `int`. -/
def decimal (n : Int) : List Char := (toString n).toList

/-- The newline character. -/
def NL : Char := Char.ofNat 10

/-- The function `outputRecuLevel`: the recurrence level between braces, when verbose. -/
def outputRecuLevel (beVerbose : Bool) (st : State) : List Char :=
  if beVerbose then Char.ofNat 123 :: decimal st.recLevel ++ [Char.ofNat 125] else []

/-- The loop of `outputCell`, lines 90-96: the first argument is `MAXDIGITS - i`, the last
one the character code of `digit`. -/
def outputCellLoop : Nat → Nat → Nat → List Char
  | 0, _, _ => []
  | todo + 1, cell, digit =>
    (if cell &&& 1 = 1 then Char.ofNat digit else '.') ::
      outputCellLoop todo (cell >>> 1) (digit + 1)

/-- The function `outputCell`: nine characters for the nine bits of the cell, then `suffix`
and `endline`. -/
def outputCell (beVerbose : Bool) (cell : Nat) (suffix endline : List Char) : List Char :=
  if beVerbose then outputCellLoop MAXDIGITS cell 49 ++ suffix ++ endline else []

/-- The body of the loop over `i` in `outputPass`, lines 114-119: one line of the matrix. -/
def outputLine (beVerbose : Bool) (sdkMatrix : Grid) (st : State) (i : Fin 9) : List Char :=
  outputRecuLevel beVerbose st ++
    ((List.finRange 8).flatMap fun j =>
      if j.val % 3 = 2 then outputCell beVerbose (sdkMatrix.cell i j.castSucc) ['|'] []
      else outputCell beVerbose (sdkMatrix.cell i j.castSucc) [':'] []) ++
    outputCell beVerbose (sdkMatrix.cell i (Fin.last 8)) ['|'] [NL]

/-- The function `outputPass`; `puts` writes `currentPass` and a newline. -/
def outputPass (beVerbose : Bool) (currentPass : List Char) (sdkMatrix : Grid) (st : State) :
    List Char :=
  if beVerbose then
    outputRecuLevel beVerbose st ++ currentPass ++ [NL] ++
      (List.finRange 9).flatMap (outputLine beVerbose sdkMatrix st)
  else []

/-- The text that `snprintf` leaves in `aStr` at line 249.  For `int` values it has at most
44 characters, fewer than the 99 that `aStr` can take. -/
def solutionHeader (st : State) : List Char :=
  "Solution ".toList ++ decimal st.numCurrentSol ++ " in ".toList ++ decimal st.numAttempts ++
    " attemps:".toList

/-- Lines 249-250 run with the globals `st`: the text written for the solution `sudoku`, the
text of the event `Event.solution st.numCurrentSol st.numAttempts sudoku`. -/
def outputSolution (st : State) (sudoku : Grid) : List Char :=
  outputPass true (solutionHeader st) sudoku st

/-! ## Input: `readSdk` -/

/-- The character with code 0 that ends a C string. -/
def NUL : Char := Char.ofNat 0

/-- The characters that one `fgets` takes from the stream, at most `n` and none after the
first newline; the result is what was taken and the rest of the stream. -/
def fgetsRead : Nat → List Char → List Char × List Char
  | 0, stdin => ([], stdin)
  | _ + 1, [] => ([], [])
  | n + 1, c :: stdin =>
    if c = NL then ([c], stdin) else ((c :: (fgetsRead n stdin).1), (fgetsRead n stdin).2)

/-- The call `fgets(aStr, size, stdin)`: `none` stands for `NULL` (nothing left to read),
otherwise the buffer, with the characters read and a `NUL` over its start, and the rest of
the stream. -/
def fgets (size : Nat) (stdin aStr : List Char) : Option (List Char × List Char) :=
  if (fgetsRead (size - 1) stdin).1 = [] then none
  else some ((fgetsRead (size - 1) stdin).1 ++ NUL ::
      aStr.drop ((fgetsRead (size - 1) stdin).1.length + 1), (fgetsRead (size - 1) stdin).2)

/-- The `switch` of lines 42-70: the value assigned for a character, `none` when no `case`
applies. -/
def caseOf (c : Char) : Option Nat :=
  if c = '1' then some 0o001
  else if c = '2' then some 0o002
  else if c = '3' then some 0o004
  else if c = '4' then some 0o010
  else if c = '5' then some 0o020
  else if c = '6' then some 0o040
  else if c = '7' then some 0o100
  else if c = '8' then some 0o200
  else if c = '9' then some 0o400
  else none

/-- The body of the loop over `j`, lines 42-70: the `switch` on `aStr[j]` for the cell
`sdkMatrix[i][j]`. -/
def readCell (aStr : List Char) (i : Fin 9) (sdkMatrix : Grid) (j : Fin 9) : Grid :=
  match caseOf (aStr.getD j.val NUL) with
  | some v => sdkMatrix.put i j v
  | none => sdkMatrix

/-- The loop over `j` of lines 41-70 for line `i`. -/
def readLine (aStr : List Char) (i : Fin 9) (sdkMatrix : Grid) : Grid :=
  (List.finRange 9).foldl (readCell aStr i) sdkMatrix

/-- The loop of lines 40-72, `while ((fgets(...) != NULL) && i < LIN)`; the first argument
bounds the number of `fgets` calls still to come. -/
def readLoop : Nat → Nat → List Char → List Char → Grid → Grid
  | 0, _, _, _, sdkMatrix => sdkMatrix
  | todo + 1, i, stdin, aStr, sdkMatrix =>
    match fgets 98 stdin aStr with
    | none => sdkMatrix
    | some (aStr1, rest) =>
      if h : i < 9 then readLoop todo (i + 1) rest aStr1 (readLine aStr1 ⟨i, h⟩ sdkMatrix)
      else sdkMatrix

/-- The function `readSdk` on the characters of the standard input, with the buffer `aStr`
(`sizeof aStr - 2` is 98).  The loop calls `fgets` at most `LIN + 1` times. -/
def readSdk (stdin aStr : List Char) (sdkMatrix : Grid) : Grid :=
  readLoop (LIN + 1) 0 stdin aStr sdkMatrix

/-- The buffer `char aStr[100] = {0}` at the start of the program. -/
def aStrInit : List Char := List.replicate 100 NUL

/-! ## Notions used to state the further properties -/

/-- The number of 1 bits in the binary representation of `c`. -/
def onesInBinary (c : Nat) : Nat := (Nat.digits 2 c).count 1

/-- The digit that a single-digit mask stands for: its place in `masks`, counted from 1. -/
def digitOf (c : Nat) : Nat := masks.indexOf c + 1

/-- The matrix `s` comes before `t` in the lexicographic order of the 81 digits read in
row-major order: at the first position where the digits differ, the digit of `s` is smaller. -/
def LexBefore (s t : Grid) : Prop :=
  ∃ p : Fin 9 × Fin 9, digitOf (s.cell p.1 p.2) < digitOf (t.cell p.1 p.2) ∧
    ∀ q : Fin 9 × Fin 9, Before q p → digitOf (s.cell q.1 q.2) = digitOf (t.cell q.1 q.2)

/-- The recursive calls of an output: the globals at each call and the matrix passed. -/
def trialCalls : List Event → List (State × Grid)
  | [] => []
  | Event.solution _ _ _ :: rest => trialCalls rest
  | Event.trial st _ _ _ m :: rest => (st, m) :: trialCalls rest

/-- The matrix `m` agrees with `g` on every cell that is fixed in `g`. -/
def Keeps (g m : Grid) : Prop :=
  ∀ i j : Fin 9, digitsInCell (g.cell i j) = 1 → m.cell i j = g.cell i j

/-- The nine characters that `outputCell` writes for a cell: the digit `p + 1` at place `p`
when the cell has that candidate, a dot otherwise. -/
def cellText (c : Nat) : List Char :=
  (List.range 9).map fun p => if c.testBit p then Char.ofNat (49 + p) else '.'

/-- The character written after the cell of column `j`. -/
def separator (j : Fin 9) : Char := if j.val % 3 = 2 then '|' else ':'

/-- The character for a cell in the words of the specification: its digit if the cell is
fixed, a dot if not. -/
def specCellChar (c : Nat) : Char :=
  if digitsInCell c = 1 then Char.ofNat (48 + digitOf c) else '.'

/-- The text of a solution in the words of the specification: the header line
"Solution k in n attempts:", then nine lines with one character for each cell, each cell
followed by a colon and every third cell by a bar instead. -/
def specSolutionText (k n : Int) (g : Grid) : List Char :=
  "Solution ".toList ++ decimal k ++ " in ".toList ++ decimal n ++ " attempts:".toList ++ [NL] ++
    (List.finRange 9).flatMap fun i =>
      ((List.finRange 9).flatMap fun j => [specCellChar (g.cell i j), separator j]) ++ [NL]

/-- The standard input that holds the given lines, each ended by a newline. -/
def streamOf (lines : List (List Char)) : List Char :=
  lines.flatMap fun l => l ++ [NL]

/-- Nine lines of at least 9 characters each (a line holds no newline). -/
def NineLines (lines : List (List Char)) : Prop :=
  lines.length = 9 ∧ ∀ l ∈ lines, 9 ≤ l.length ∧ NL ∉ l

instance (lines : List (List Char)) : Decidable (NineLines lines) := by
  unfold NineLines; infer_instance

/-- The cell for a character in the words of the specification: the mask `1 << (d - 1)` for
the digit `d` in '1'..'9', and 0 for any other character. -/
def specCellOf (c : Char) : Nat :=
  if 49 ≤ c.toNat ∧ c.toNat ≤ 57 then 1 <<< (c.toNat - 48 - 1) else 0

/-- The claim on `readSdk` in the words of the specification, for lines read into the
all-zero matrix: the cell at line `i`, column `j` is the cell for character `j` of line `i`. -/
def ReadSdkParses (lines : List (List Char)) : Prop :=
  ∀ i j : Fin 9, (readSdk (streamOf lines) aStrInit Grid.zero).cell i j =
    specCellOf ((lines.getD i.val []).getD j.val NUL)

/-! ## Further matrices and inputs used as examples -/

/-- A Sudoku whose cell `[0, 8]` has no candidate: line `12345678.` and `9` below the gap. -/
def deadEndSdk : Grid := Grid.ofRows
  [[1, 2, 4, 8, 16, 32, 64, 128, 0], [0, 0, 0, 0, 0, 0, 0, 0, 256]]

/-- An input of nine lines whose first line has 106 characters: 97 dots and `123456789`;
the other eight lines are nine dots each. -/
def longInput : List (List Char) :=
  (List.replicate 97 '.' ++ "123456789".toList) :: List.replicate 8 (List.replicate 9 '.')

/-- The nine lines of the usage message of `main`. -/
def usageInput : List (List Char) :=
  ["...2...3.".toList, "..5.7.2..".toList, "..9....41".toList, "..3..9..7".toList,
   ".5......4".toList, "8......1.".toList, "9..3.....".toList, "..86.....".toList,
   ".145..37.".toList]

/-- The globals when the first solution is written at recurrence level 1 after one call. -/
def firstSolutionState : State :=
  { recLevel := 1, ierr := 8, jerr := 8, numSolRequested := 1, numCurrentSol := 1,
    numAttempts := 2 }

/-- The globals of a call that starts with solution 2147483647 still to be written, the
largest `int`, and as many solutions requested. -/
def lastIntState : State :=
  { recLevel := 0, ierr := 0, jerr := 0, numSolRequested := 2147483647,
    numCurrentSol := 2147483647, numAttempts := 1 }

/-! ## A family of solved Sudokus

More than `2^31` completions of the empty matrix, to see what a run does when `numCurrentSol`
passes the largest `int`: a solved Sudoku stays one when its digits are renamed and when its
lines and columns are rearranged within and between the nonets. -/

/-- A second solved Sudoku: `solvedSdk` with the digits 1 and 2 exchanged in the lines
`456789123` and `365897214`, which become `456789213` and `365897124`. -/
def solvedSdk2 : Grid := Grid.ofRows
  [[1, 2, 4, 8, 16, 32, 64, 128, 256],
   [8, 16, 32, 64, 128, 256, 2, 1, 4],
   [64, 128, 256, 1, 2, 4, 8, 16, 32],
   [2, 1, 8, 4, 32, 16, 128, 256, 64],
   [4, 32, 16, 128, 256, 64, 1, 2, 8],
   [128, 256, 64, 2, 1, 8, 4, 32, 16],
   [16, 4, 1, 32, 8, 2, 256, 64, 128],
   [32, 8, 2, 256, 64, 128, 16, 4, 1],
   [256, 64, 128, 16, 4, 1, 32, 8, 2]]

/-- The two solved Sudokus to start from; they agree on the first nonet, the first line and
the first column. -/
def baseSdk (k : Bool) : Grid := if k then solvedSdk2 else solvedSdk

/-- The place of a single-digit mask in `masks`, counted from 0. -/
def digitIdx (c : Nat) : Fin 9 := ⟨masks.indexOf c % 9, Nat.mod_lt _ (by decide)⟩

/-- The six arrangements of three things: arrangement `p` at place `x`. -/
def perm3 (p x : Nat) : Nat :=
  ([[0, 1, 2], [0, 2, 1], [1, 0, 2], [1, 2, 0], [2, 0, 1], [2, 1, 0]].getD p []).getD x 0

/-- One of 72 rearrangements of the indices 0..8 that leave 0, 1 and 2 in place: the indices
3..5 and 6..8 are rearranged among themselves (by the arrangements `u / 6 % 6` and `u % 6`), and
the two groups are exchanged when `u >= 36`. -/
def linePerm (u : Fin 72) (i : Fin 9) : Fin 9 :=
  if i.val < 3 then i
  else
    ⟨((if u.val / 36 = 1 then 3 - i.val / 3 else i.val / 3) * 3 +
        perm3 (if i.val / 3 = 1 then u.val / 6 % 6 else u.val % 6) (i.val % 3)) % 9,
      Nat.mod_lt _ (by decide)⟩

/-- What selects a member of the family: one of the two solved Sudokus, a renaming of the
nine digits, a rearrangement of the lines and one of the columns. -/
abbrev Variant := Bool × Equiv.Perm (Fin 9) × Fin 72 × Fin 72

/-- The member of the family for `t`: the cell `[i, j]` holds the renamed digit of the cell of
the solved Sudoku at the rearranged line and column. -/
def variantOf (t : Variant) : Grid :=
  Mathlib.Vector.ofFn fun i => Mathlib.Vector.ofFn fun j =>
    1 <<< (t.2.1 (digitIdx ((baseSdk t.1).cell (linePerm t.2.2.1 i) (linePerm t.2.2.2 j)))).val

/-! ## The matrix: reads after writes -/

theorem Grid.cell_put (g : Grid) (i j a b : Fin 9) (v : Nat) :
    (g.put i j v).cell a b = if a = i ∧ b = j then v else g.cell a b := by
  unfold Grid.put Grid.cell
  rw [Mathlib.Vector.get_set_eq_if]
  by_cases h : i = a
  · subst h
    rw [if_pos rfl, Mathlib.Vector.get_set_eq_if]
    by_cases h2 : j = b
    · subst h2; simp
    · have : ¬ b = j := fun e => h2 e.symm
      simp [h2, this]
  · have : ¬ a = i := fun e => h e.symm
    simp [h, this]

theorem Grid.cell_put_same (g : Grid) (i j : Fin 9) (v : Nat) : (g.put i j v).cell i j = v := by
  simp [Grid.cell_put]

theorem Grid.cell_put_other (g : Grid) (i j a b : Fin 9) (v : Nat) (h : (a, b) ≠ (i, j)) :
    (g.put i j v).cell a b = g.cell a b := by
  rw [Grid.cell_put, if_neg]
  rintro ⟨rfl, rfl⟩
  exact h rfl

theorem Grid.ext_cell {g h : Grid} (e : ∀ i j : Fin 9, g.cell i j = h.cell i j) : g = h := by
  apply Mathlib.Vector.ext
  intro i
  apply Mathlib.Vector.ext
  intro j
  exact e i j

theorem Grid.put_put (g : Grid) (i j : Fin 9) (v w : Nat) :
    (g.put i j v).put i j w = g.put i j w := by
  apply Grid.ext_cell
  intro a b
  simp only [Grid.cell_put]
  split_ifs <;> rfl

theorem mem_positions (p : Fin 9 × Fin 9) : p ∈ positions := by
  revert p; decide

theorem positions_nodup : positions.Nodup := by decide

theorem positions_sorted : positions.Pairwise Before := by decide

theorem positions_length : positions.length = 81 := by decide

theorem Before_irrefl (p : Fin 9 × Fin 9) : ¬ Before p p := by
  unfold Before; omega

theorem Before_total (p q : Fin 9 × Fin 9) : Before p q ∨ p = q ∨ Before q p := by
  obtain ⟨a, b⟩ := p
  obtain ⟨c, d⟩ := q
  unfold Before
  simp only [Prod.mk.injEq]
  omega

/-! ## `isCompliant` -/

theorem clashInCol_iff (sdk : Grid) (i j : Fin 9) :
    clashInCol sdk i j = true ↔ ∃ k : Fin 9, k ≠ i ∧ sdk.cell k j = sdk.cell i j := by
  unfold clashInCol
  simp only [List.any_eq_true, List.mem_finRange, true_and, Bool.and_eq_true, decide_eq_true_eq]
  constructor
  · rintro ⟨k, h1, h2⟩; exact ⟨k, h1, h2.symm⟩
  · rintro ⟨k, h1, h2⟩; exact ⟨k, h1, h2.symm⟩

theorem clashInLin_iff (sdk : Grid) (i j : Fin 9) :
    clashInLin sdk i j = true ↔ ∃ k : Fin 9, k ≠ j ∧ sdk.cell i k = sdk.cell i j := by
  unfold clashInLin
  simp only [List.any_eq_true, List.mem_finRange, true_and, Bool.and_eq_true, decide_eq_true_eq]
  constructor
  · rintro ⟨k, h1, h2⟩; exact ⟨k, h1, h2.symm⟩
  · rintro ⟨k, h1, h2⟩; exact ⟨k, h1, h2.symm⟩

theorem clashInNonet_iff (sdk : Grid) (i j : Fin 9) :
    clashInNonet sdk i j = true ↔
      ∃ k l : Fin 9, (k ≠ i ∨ l ≠ j) ∧ k.val / 3 = i.val / 3 ∧ l.val / 3 = j.val / 3 ∧
        sdk.cell k l = sdk.cell i j := by
  unfold clashInNonet
  simp only [List.any_eq_true, List.mem_finRange, true_and, Bool.and_eq_true, Bool.or_eq_true,
    decide_eq_true_eq]
  constructor
  · rintro ⟨a, b, h1, h2⟩
    refine ⟨nonetIdx i a, nonetIdx j b, h2, ?_, ?_, h1.symm⟩
    · simp only [nonetIdx]; omega
    · simp only [nonetIdx]; omega
  · rintro ⟨k, l, h1, h2, h3, h4⟩
    have hk : nonetIdx i ⟨k.val % 3, Nat.mod_lt _ (by decide)⟩ = k := by
      apply Fin.ext; simp only [nonetIdx]; omega
    have hl : nonetIdx j ⟨l.val % 3, Nat.mod_lt _ (by decide)⟩ = l := by
      apply Fin.ext; simp only [nonetIdx]; omega
    refine ⟨⟨k.val % 3, Nat.mod_lt _ (by decide)⟩, ⟨l.val % 3, Nat.mod_lt _ (by decide)⟩, ?_, ?_⟩
    · rw [hk, hl]; exact h4.symm
    · rw [hk, hl]; exact h1

theorem clash_iff (sdk : Grid) (i j : Fin 9) :
    (clashInCol sdk i j || clashInLin sdk i j || clashInNonet sdk i j) = true ↔
      ∃ q : Fin 9 × Fin 9, q ≠ (i, j) ∧ SameUnit (i, j) q ∧ sdk.cell q.1 q.2 = sdk.cell i j := by
  simp only [Bool.or_eq_true, clashInCol_iff, clashInLin_iff, clashInNonet_iff]
  constructor
  · rintro ((⟨k, h1, h2⟩ | ⟨k, h1, h2⟩) | ⟨k, l, h1, h2, h3, h4⟩)
    · refine ⟨(k, j), ?_, Or.inr (Or.inl rfl), h2⟩
      intro e; exact h1 (congrArg Prod.fst e)
    · refine ⟨(i, k), ?_, Or.inl rfl, h2⟩
      intro e; exact h1 (congrArg Prod.snd e)
    · refine ⟨(k, l), ?_, Or.inr (Or.inr ⟨h2.symm, h3.symm⟩), h4⟩
      intro e
      rcases h1 with h1 | h1
      · exact h1 (congrArg Prod.fst e)
      · exact h1 (congrArg Prod.snd e)
  · rintro ⟨⟨k, l⟩, h1, h2, h3⟩
    have hne : k ≠ i ∨ l ≠ j := by
      by_contra hc
      push_neg at hc
      exact h1 (by rw [hc.1, hc.2])
    rcases h2 with h2 | h2 | h2
    · simp only at h2
      subst h2
      have : l ≠ j := by
        rcases hne with h | h
        · exact absurd rfl h
        · exact h
      exact Or.inl (Or.inr ⟨l, this, h3⟩)
    · simp only at h2
      subst h2
      have : k ≠ i := by
        rcases hne with h | h
        · exact h
        · exact absurd rfl h
      exact Or.inl (Or.inl ⟨k, this, h3⟩)
    · exact Or.inr ⟨k, l, hne, h2.1.symm, h2.2.symm, h3⟩

theorem offends_iff (sdk : Grid) (i j : Fin 9) :
    Offends sdk (i, j) ↔ digitsInCell (sdk.cell i j) = 1 ∧
      (clashInCol sdk i j || clashInLin sdk i j || clashInNonet sdk i j) = true := by
  rw [clash_iff]; rfl

theorem isCompliantLoop_true (sdk : Grid) (ps : List (Fin 9 × Fin 9)) (err : Nat × Nat) :
    (isCompliantLoop sdk ps err).1 = true ↔ ∀ p ∈ ps, ¬ Offends sdk p := by
  induction ps generalizing err with
  | nil => simp [isCompliantLoop]
  | cons p rest ih =>
    obtain ⟨i, j⟩ := p
    simp only [isCompliantLoop, List.mem_cons, forall_eq_or_imp, offends_iff]
    by_cases h1 : digitsInCell (sdk.cell i j) = 1
    · by_cases h2 : (clashInCol sdk i j || clashInLin sdk i j || clashInNonet sdk i j) = true
      · simp [h1, h2]
      · simp only [h1, h2, if_true, Bool.false_eq_true, if_false, and_false, not_false_eq_true,
          true_and]
        rw [ih]
    · simp only [h1, if_false, false_and, not_false_eq_true, true_and]
      rw [ih]

theorem isCompliantLoop_false (sdk : Grid) (ps : List (Fin 9 × Fin 9)) (err : Nat × Nat)
    (h : (isCompliantLoop sdk ps err).1 = false) :
    ∃ l1 p l2, ps = l1 ++ p :: l2 ∧ Offends sdk p ∧ (∀ q ∈ l1, ¬ Offends sdk q) ∧
      (isCompliantLoop sdk ps err).2 = (p.1.val, p.2.val) := by
  induction ps generalizing err with
  | nil => simp [isCompliantLoop] at h
  | cons p rest ih =>
    obtain ⟨i, j⟩ := p
    by_cases h1 : digitsInCell (sdk.cell i j) = 1
    · by_cases h2 : (clashInCol sdk i j || clashInLin sdk i j || clashInNonet sdk i j) = true
      · refine ⟨[], (i, j), rest, rfl, (offends_iff sdk i j).2 ⟨h1, h2⟩, by simp, ?_⟩
        simp [isCompliantLoop, h1, h2]
      · have e : isCompliantLoop sdk ((i, j) :: rest) err
            = isCompliantLoop sdk rest (i.val, j.val) := by
          simp [isCompliantLoop, h1, h2]
        rw [e] at h ⊢
        obtain ⟨l1, p, l2, e1, e2, e3, e4⟩ := ih _ h
        refine ⟨(i, j) :: l1, p, l2, by rw [e1]; rfl, e2, ?_, e4⟩
        intro q hq
        rcases List.mem_cons.1 hq with rfl | hq
        · rw [offends_iff]; exact fun hh => h2 hh.2
        · exact e3 q hq
    · have e : isCompliantLoop sdk ((i, j) :: rest) err = isCompliantLoop sdk rest err := by
        simp [isCompliantLoop, h1]
      rw [e] at h ⊢
      obtain ⟨l1, p, l2, e1, e2, e3, e4⟩ := ih _ h
      refine ⟨(i, j) :: l1, p, l2, by rw [e1]; rfl, e2, ?_, e4⟩
      intro q hq
      rcases List.mem_cons.1 hq with rfl | hq
      · rw [offends_iff]; exact fun hh => h1 hh.1
      · exact e3 q hq

theorem exists_clash_iff (sdk : Grid) : (∃ p q, Clash sdk p q) ↔ ∃ p, Offends sdk p := by
  constructor
  · rintro ⟨p, q, h1, h2, h3, h4, h5⟩
    exact ⟨p, h3, q, fun e => h1 e.symm, h2, h5.symm⟩
  · rintro ⟨p, h1, q, h2, h3, h4⟩
    exact ⟨p, q, fun e => h2 e.symm, h3, h1, by rw [h4]; exact h1, h4.symm⟩

theorem isCompliant_true_iff (sdk : Grid) (st : State) :
    (isCompliant sdk st).1 = true ↔ ∀ p, ¬ Offends sdk p := by
  unfold isCompliant
  simp only
  rw [isCompliantLoop_true]
  exact ⟨fun h p => h p (mem_positions p), fun h p _ => h p⟩

theorem isCompliant_fst_indep (sdk : Grid) (st st1 : State) :
    (isCompliant sdk st).1 = (isCompliant sdk st1).1 := by
  rcases hb : (isCompliant sdk st1).1 with _ | _
  · rcases hc : (isCompliant sdk st).1 with _ | _
    · rfl
    · rw [isCompliant_true_iff] at hc
      rw [← isCompliant_true_iff sdk st1, hb] at hc
      exact absurd hc (by simp)
  · rw [isCompliant_true_iff] at hb ⊢; exact hb

theorem isCompliant_iff_noClash (sdk : Grid) (st : State) :
    (isCompliant sdk st).1 = true ↔ ¬ ∃ p q, Clash sdk p q := by
  rw [isCompliant_true_iff, exists_clash_iff]
  push_neg
  rfl

/-! ## `digitsInCell` on cells of nine bits -/

theorem digitsInCell_zero : digitsInCell 0 = 0 := rfl

set_option maxRecDepth 100000 in
theorem digitsInCell_table :
    ∀ c : Fin 512, digitsInCell c.val ≤ 9 ∧ (digitsInCell c.val = 0 ↔ c.val = 0) ∧
      (digitsInCell c.val = 1 ↔ IsMask c.val) := by
  decide!

theorem digitsInCell_le_nine {c : Nat} (h : c < 512) : digitsInCell c ≤ 9 :=
  (digitsInCell_table ⟨c, h⟩).1

theorem digitsInCell_eq_one_iff {c : Nat} (h : c < 512) : digitsInCell c = 1 ↔ IsMask c :=
  (digitsInCell_table ⟨c, h⟩).2.2

theorem IsMask.lt {c : Nat} (h : IsMask c) : c < 512 := by
  unfold IsMask masks at h
  simp only [List.mem_cons, List.mem_singleton, List.not_mem_nil, or_false] at h
  omega

theorem IsMask.ne_zero {c : Nat} (h : IsMask c) : c ≠ 0 := by
  unfold IsMask masks at h
  simp only [List.mem_cons, List.mem_singleton, List.not_mem_nil, or_false] at h
  omega

theorem IsMask.digits {c : Nat} (h : IsMask c) : digitsInCell c = 1 :=
  (digitsInCell_eq_one_iff h.lt).2 h

theorem isMask_shift (d : Fin 9) : IsMask (1 <<< d.val) := by
  revert d; decide

theorem IsMask.exists_digit {c : Nat} (h : IsMask c) : ∃ d : Fin 9, c = 1 <<< d.val := by
  unfold IsMask masks at h
  simp only [List.mem_cons, List.mem_singleton, List.not_mem_nil, or_false] at h
  rcases h with h | h | h | h | h | h | h | h | h
  · exact ⟨0, by rw [h]; rfl⟩
  · exact ⟨1, by rw [h]; rfl⟩
  · exact ⟨2, by rw [h]; rfl⟩
  · exact ⟨3, by rw [h]; rfl⟩
  · exact ⟨4, by rw [h]; rfl⟩
  · exact ⟨5, by rw [h]; rfl⟩
  · exact ⟨6, by rw [h]; rfl⟩
  · exact ⟨7, by rw [h]; rfl⟩
  · exact ⟨8, by rw [h]; rfl⟩

theorem shift_injective {d e : Fin 9} (h : (1 : Nat) <<< d.val = 1 <<< e.val) : d = e := by
  revert d e; decide

/-! ## `isSolution` -/

theorem isSolution_true_iff (sdk : Grid) (st : State) :
    (isSolution sdk st).1 = true ↔
      (∀ i j : Fin 9, digitsInCell (sdk.cell i j) = 1) ∧ (isCompliant sdk st).1 = true := by
  unfold isSolution
  by_cases h : (positions.any fun p => decide (digitsInCell (sdk.cell p.1 p.2) ≠ 1)) = true
  · rw [if_pos h]
    simp only [List.any_eq_true, decide_eq_true_eq] at h
    obtain ⟨p, _, hp⟩ := h
    constructor
    · intro hh; exact absurd hh (by simp)
    · intro hh; exact absurd (hh.1 p.1 p.2) hp
  · rw [if_neg h]
    simp only [List.any_eq_true, decide_eq_true_eq, not_exists, not_and, not_not] at h
    constructor
    · intro hh; exact ⟨fun i j => h (i, j) (mem_positions _), hh⟩
    · intro hh; exact hh.2

theorem isSolution_fst_indep (sdk : Grid) (st st1 : State) :
    (isSolution sdk st).1 = (isSolution sdk st1).1 := by
  rcases hb : (isSolution sdk st1).1 with _ | _
  · rcases hc : (isSolution sdk st).1 with _ | _
    · rfl
    · rw [isSolution_true_iff] at hc
      rw [isCompliant_fst_indep sdk st st1, ← isSolution_true_iff, hb] at hc
      exact absurd hc (by simp)
  · rw [isSolution_true_iff] at hb ⊢
    rw [isCompliant_fst_indep sdk st st1]; exact hb

/-- A family of nine positions of one unit of a complete matrix without clash holds every
digit exactly once. -/
theorem unit_each_digit_once {α : Type} [Fintype α] (hcard : Fintype.card α = 9)
    (G : Grid) (hfull : ∀ i j : Fin 9, IsMask (G.cell i j)) (hno : ¬ ∃ p q, Clash G p q)
    (pos : α → Fin 9 × Fin 9) (hinj : Function.Injective pos)
    (hunit : ∀ x y, SameUnit (pos x) (pos y)) (d : Fin 9) :
    ∃! x : α, G.cell (pos x).1 (pos x).2 = 1 <<< d.val := by
  have hdig : ∀ x : α, ∃ e : Fin 9, G.cell (pos x).1 (pos x).2 = 1 <<< e.val :=
    fun x => (hfull _ _).exists_digit
  choose f hf using hdig
  have finj : Function.Injective f := by
    intro x y hxy
    by_contra hne
    apply hno
    refine ⟨pos x, pos y, fun e => hne (hinj e), hunit x y, (hfull _ _).digits,
      (hfull _ _).digits, ?_⟩
    rw [hf x, hf y, hxy]
  have fbij : Function.Bijective f := by
    rw [Fintype.bijective_iff_injective_and_card]
    exact ⟨finj, by rw [hcard]; rfl⟩
  obtain ⟨x, hx⟩ := fbij.2 d
  refine ⟨x, by show G.cell (pos x).1 (pos x).2 = 1 <<< d.val; rw [hf x, hx], ?_⟩
  intro y hy
  have hy : G.cell (pos y).1 (pos y).2 = 1 <<< d.val := hy
  apply finj
  rw [hx]
  apply shift_injective
  rw [← hf y, hy]

theorem blockIdx_injective (a : Fin 3) : Function.Injective (blockIdx a) := by
  intro x y h
  have := congrArg Fin.val h
  simp only [blockIdx] at this
  apply Fin.ext; omega

theorem eachDigitOnce_of_noClash (G : Grid) (hfull : ∀ i j : Fin 9, IsMask (G.cell i j))
    (hno : ¬ ∃ p q, Clash G p q) : EachDigitOnce G := by
  intro d
  refine ⟨fun i => ?_, fun j => ?_, fun a b => ?_⟩
  · exact unit_each_digit_once (by simp) G hfull hno (fun j : Fin 9 => (i, j))
      (fun x y h => (Prod.mk.inj h).2) (fun x y => Or.inl rfl) d
  · exact unit_each_digit_once (by simp) G hfull hno (fun i : Fin 9 => (i, j))
      (fun x y h => (Prod.mk.inj h).1) (fun x y => Or.inr (Or.inl rfl)) d
  · refine unit_each_digit_once (by simp) G hfull hno
      (fun x : Fin 3 × Fin 3 => (blockIdx a x.1, blockIdx b x.2)) ?_ ?_ d
    · intro x y h
      have h1 := blockIdx_injective a (Prod.mk.inj h).1
      have h2 := blockIdx_injective b (Prod.mk.inj h).2
      exact Prod.ext h1 h2
    · intro x y
      refine Or.inr (Or.inr ⟨?_, ?_⟩)
      · simp only [blockIdx]; omega
      · simp only [blockIdx]; omega

theorem noClash_of_eachDigitOnce (G : Grid) (hfull : ∀ i j : Fin 9, IsMask (G.cell i j))
    (h : EachDigitOnce G) : ¬ ∃ p q, Clash G p q := by
  rintro ⟨⟨i, j⟩, ⟨k, l⟩, hne, hu, _, _, heq⟩
  simp only at heq
  obtain ⟨d, hd⟩ := (hfull i j).exists_digit
  have hd2 : G.cell k l = 1 <<< d.val := by rw [← heq, hd]
  obtain ⟨hrow, hcol, hblk⟩ := h d
  rcases hu with hu | hu | hu
  · simp only at hu
    subst hu
    exact hne (by rw [(hrow i).unique hd hd2])
  · simp only at hu
    subst hu
    exact hne (by rw [(hcol j).unique hd hd2])
  · simp only at hu
    let a : Fin 3 := ⟨i.val / 3, by omega⟩
    let b : Fin 3 := ⟨j.val / 3, by omega⟩
    let x : Fin 3 × Fin 3 := (⟨i.val % 3, Nat.mod_lt _ (by decide)⟩, ⟨j.val % 3, Nat.mod_lt _ (by decide)⟩)
    let y : Fin 3 × Fin 3 := (⟨k.val % 3, Nat.mod_lt _ (by decide)⟩, ⟨l.val % 3, Nat.mod_lt _ (by decide)⟩)
    have e1 : blockIdx a x.1 = i := by apply Fin.ext; simp only [blockIdx, a, x]; omega
    have e2 : blockIdx b x.2 = j := by apply Fin.ext; simp only [blockIdx, b, x]; omega
    have e3 : blockIdx a y.1 = k := by apply Fin.ext; simp only [blockIdx, a, y]; omega
    have e4 : blockIdx b y.2 = l := by apply Fin.ext; simp only [blockIdx, b, y]; omega
    have hx : G.cell (blockIdx a x.1) (blockIdx b x.2) = 1 <<< d.val := by rw [e1, e2]; exact hd
    have hy : G.cell (blockIdx a y.1) (blockIdx b y.2) = 1 <<< d.val := by rw [e3, e4]; exact hd2
    have hxy := (hblk a b).unique hx hy
    apply hne
    rw [← e1, ← e2, ← e3, ← e4, hxy]

/-! ## `setOptions` -/

theorem testBit_foldl_lor {α : Type} (f : α → Nat) (l : List α) (a d : Nat) :
    (l.foldl (fun acc x => acc ||| f x) a).testBit d = true ↔
      a.testBit d = true ∨ ∃ x ∈ l, (f x).testBit d = true := by
  induction l generalizing a with
  | nil => simp
  | cons y rest ih =>
    simp only [List.foldl_cons, List.mem_cons, exists_eq_or_imp]
    rw [ih, Nat.testBit_lor, Bool.or_eq_true]
    tauto

theorem testBit_sumLin (inSdk : Grid) (i : Fin 9) (d : Nat) :
    (sumLin inSdk i).testBit d = true ↔ ∃ j : Fin 9, (inSdk.cell i j).testBit d = true := by
  unfold sumLin
  rw [testBit_foldl_lor (fun j => inSdk.cell i j)]
  simp [List.mem_finRange]

theorem testBit_sumCol (inSdk : Grid) (j : Fin 9) (d : Nat) :
    (sumCol inSdk j).testBit d = true ↔ ∃ i : Fin 9, (inSdk.cell i j).testBit d = true := by
  unfold sumCol
  rw [testBit_foldl_lor (fun i => inSdk.cell i j)]
  simp [List.mem_finRange]

theorem testBit_sumNonet (inSdk : Grid) (a b d : Nat) :
    (sumNonet inSdk a b).testBit d = true ↔
      ∃ p : Fin 9 × Fin 9, (p.1.val / 3 = a ∧ p.2.val / 3 = b) ∧
        (inSdk.cell p.1 p.2).testBit d = true := by
  unfold sumNonet
  have e : ∀ l : List (Fin 9 × Fin 9), ∀ acc : Nat,
      l.foldl (fun acc p => if p.1.val / 3 = a ∧ p.2.val / 3 = b then acc ||| inSdk.cell p.1 p.2
        else acc) acc =
      l.foldl (fun acc p => acc ||| (if p.1.val / 3 = a ∧ p.2.val / 3 = b then inSdk.cell p.1 p.2
        else 0)) acc := by
    intro l
    induction l with
    | nil => intro acc; rfl
    | cons y rest ih =>
      intro acc
      simp only [List.foldl_cons]
      rw [ih]
      congr 1
      split_ifs <;> simp
  rw [e, testBit_foldl_lor]
  simp only [Nat.zero_testBit, Bool.false_eq_true, false_or]
  constructor
  · rintro ⟨p, _, hp⟩
    by_cases hc : p.1.val / 3 = a ∧ p.2.val / 3 = b
    · rw [if_pos hc] at hp; exact ⟨p, hc, hp⟩
    · rw [if_neg hc] at hp; simp at hp
  · rintro ⟨p, hc, hp⟩
    exact ⟨p, mem_positions p, by rw [if_pos hc]; exact hp⟩

theorem testBit_maskNot (x d : Nat) :
    (maskNot x).testBit d = true ↔ d < 9 ∧ x.testBit d = false := by
  unfold maskNot
  have h1 : (0o777 : Nat) = 2 ^ 9 - 1 := by decide
  have h2 : (0xFFFFFFFF : Nat) = 2 ^ 32 - 1 := by decide
  rw [Nat.testBit_land, Nat.testBit_xor, h1, h2, Nat.testBit_two_pow_sub_one,
    Nat.testBit_two_pow_sub_one]
  by_cases hd : d < 9
  · have : d < 32 := by omega
    cases hx : x.testBit d <;> simp [hd, this]
  · simp [hd]

theorem maskNot_lt (x : Nat) : maskNot x < 512 := by
  unfold maskNot
  exact lt_of_le_of_lt Nat.and_le_left (by decide)

theorem testBit_units (inSdk : Grid) (i j : Fin 9) (d : Nat) :
    (sumLin inSdk i ||| sumCol inSdk j ||| sumNonet inSdk (i.val / 3) (j.val / 3)).testBit d
        = true ↔
      ∃ q : Fin 9 × Fin 9, SameUnit (i, j) q ∧ (inSdk.cell q.1 q.2).testBit d = true := by
  rw [Nat.testBit_lor, Nat.testBit_lor, Bool.or_eq_true, Bool.or_eq_true, testBit_sumLin,
    testBit_sumCol, testBit_sumNonet]
  constructor
  · rintro ((⟨k, h⟩ | ⟨k, h⟩) | ⟨p, hp, h⟩)
    · exact ⟨(i, k), Or.inl rfl, h⟩
    · exact ⟨(k, j), Or.inr (Or.inl rfl), h⟩
    · exact ⟨p, Or.inr (Or.inr ⟨hp.1.symm, hp.2.symm⟩), h⟩
  · rintro ⟨⟨k, l⟩, hu | hu | hu, h⟩
    · simp only at hu; subst hu; exact Or.inl (Or.inl ⟨l, h⟩)
    · simp only at hu; subst hu; exact Or.inl (Or.inr ⟨k, h⟩)
    · exact Or.inr ⟨(k, l), ⟨hu.1.symm, hu.2.symm⟩, h⟩

theorem setOptionsLoop_cell (inSdk : Grid) (ps : List (Fin 9 × Fin 9)) (outSdk : Grid)
    (m : Nat) (a b : Fin 9) :
    (setOptionsLoop inSdk ps outSdk m).2.cell a b =
      if (a, b) ∈ ps then optCell inSdk a b else outSdk.cell a b := by
  induction ps generalizing outSdk m with
  | nil => simp [setOptionsLoop]
  | cons p rest ih =>
    obtain ⟨i, j⟩ := p
    have key : ∀ (o : Grid) (m1 : Nat), o.cell i j = optCell inSdk i j →
        (∀ x y, (x, y) ≠ (i, j) → o.cell x y = outSdk.cell x y) →
        (setOptionsLoop inSdk rest o m1).2.cell a b =
          if (a, b) ∈ (i, j) :: rest then optCell inSdk a b else outSdk.cell a b := by
      intro o m1 h1 h2
      rw [ih]
      by_cases hr : (a, b) ∈ rest
      · simp [hr]
      · by_cases he : (a, b) = (i, j)
        · obtain ⟨rfl, rfl⟩ := Prod.mk.inj he
          simp [hr, h1]
        · simp [hr, he, h2 a b he]
    unfold setOptionsLoop
    by_cases h0 : inSdk.cell i j ≠ 0
    · rw [if_pos h0]
      apply key
      · rw [Grid.cell_put_same]; unfold optCell; rw [if_pos h0]
      · intro x y hxy; exact Grid.cell_put_other _ _ _ _ _ _ hxy
    · rw [if_neg h0]
      simp only
      have hV : optCell inSdk i j = maskNot (sumLin inSdk i ||| sumCol inSdk j |||
          sumNonet inSdk (i.val / 3) (j.val / 3)) := by
        unfold optCell; rw [if_neg h0]
      rw [← hV]
      by_cases hm : m > digitsInCell ((outSdk.put i j (optCell inSdk i j)).cell i j)
      · rw [if_pos hm]
        apply key
        · rw [Grid.cell_put_same]
        · intro x y hxy; exact Grid.cell_put_other _ _ _ _ _ _ hxy
      · rw [if_neg hm]
        apply key
        · rw [Grid.cell_put_same]
        · intro x y hxy; exact Grid.cell_put_other _ _ _ _ _ _ hxy

theorem setOptions_cell (inSdk outSdk : Grid) (a b : Fin 9) :
    (setOptions inSdk outSdk).2.cell a b = optCell inSdk a b := by
  unfold setOptions
  rw [setOptionsLoop_cell, if_pos (mem_positions _)]

theorem setOptions_snd_indep (inSdk outSdk outSdk1 : Grid) :
    (setOptions inSdk outSdk).2 = (setOptions inSdk outSdk1).2 := by
  apply Grid.ext_cell
  intro i j
  rw [setOptions_cell, setOptions_cell]

theorem setOptionsLoop_min (inSdk : Grid) (ps : List (Fin 9 × Fin 9)) (outSdk : Grid)
    (m : Nat) :
    (setOptionsLoop inSdk ps outSdk m).1 ≤ m ∧
    (∀ p ∈ ps, inSdk.cell p.1 p.2 = 0 →
      (setOptionsLoop inSdk ps outSdk m).1 ≤ digitsInCell (optCell inSdk p.1 p.2)) ∧
    ((setOptionsLoop inSdk ps outSdk m).1 = m ∨
      ∃ p ∈ ps, inSdk.cell p.1 p.2 = 0 ∧
        (setOptionsLoop inSdk ps outSdk m).1 = digitsInCell (optCell inSdk p.1 p.2)) := by
  induction ps generalizing outSdk m with
  | nil => simp [setOptionsLoop]
  | cons p rest ih =>
    obtain ⟨i, j⟩ := p
    unfold setOptionsLoop
    by_cases h0 : inSdk.cell i j ≠ 0
    · rw [if_pos h0]
      obtain ⟨h1, h2, h3⟩ := ih (outSdk.put i j (inSdk.cell i j)) m
      refine ⟨h1, ?_, ?_⟩
      · intro p hp hz
        rcases List.mem_cons.1 hp with rfl | hp
        · exact absurd hz h0
        · exact h2 p hp hz
      · rcases h3 with h3 | ⟨p, hp, hz, h3⟩
        · exact Or.inl h3
        · exact Or.inr ⟨p, List.mem_cons_of_mem _ hp, hz, h3⟩
    · rw [if_neg h0]
      have hz0 : inSdk.cell i j = 0 := not_not.1 h0
      have hv : (outSdk.put i j (maskNot (sumLin inSdk i ||| sumCol inSdk j |||
          sumNonet inSdk (i.val / 3) (j.val / 3)))).cell i j = optCell inSdk i j := by
        rw [Grid.cell_put_same]; unfold optCell; rw [if_neg h0]
      simp only [hv]
      by_cases hm : m > digitsInCell (optCell inSdk i j)
      · rw [if_pos hm]
        obtain ⟨h1, h2, h3⟩ := ih (outSdk.put i j (maskNot (sumLin inSdk i ||| sumCol inSdk j |||
          sumNonet inSdk (i.val / 3) (j.val / 3)))) (digitsInCell (optCell inSdk i j))
        refine ⟨by omega, ?_, ?_⟩
        · intro p hp hz
          rcases List.mem_cons.1 hp with rfl | hp
          · exact h1
          · exact h2 p hp hz
        · rcases h3 with h3 | ⟨p, hp, hz, h3⟩
          · exact Or.inr ⟨(i, j), List.mem_cons_self _ _, hz0, h3⟩
          · exact Or.inr ⟨p, List.mem_cons_of_mem _ hp, hz, h3⟩
      · rw [if_neg hm]
        obtain ⟨h1, h2, h3⟩ := ih (outSdk.put i j (maskNot (sumLin inSdk i ||| sumCol inSdk j |||
          sumNonet inSdk (i.val / 3) (j.val / 3)))) m
        refine ⟨h1, ?_, ?_⟩
        · intro p hp hz
          rcases List.mem_cons.1 hp with rfl | hp
          · simp only; omega
          · exact h2 p hp hz
        · rcases h3 with h3 | ⟨p, hp, hz, h3⟩
          · exact Or.inl h3
          · exact Or.inr ⟨p, List.mem_cons_of_mem _ hp, hz, h3⟩

theorem optCell_zero_lt (inSdk : Grid) (i j : Fin 9) (h : inSdk.cell i j = 0) :
    optCell inSdk i j < 512 := by
  unfold optCell
  rw [if_neg (by simp [h])]
  exact maskNot_lt _

theorem setOptions_min (inSdk outSdk : Grid) :
    (setOptions inSdk outSdk).1 ≤ NOTSET ∧
    (∀ i j : Fin 9, inSdk.cell i j = 0 →
      (setOptions inSdk outSdk).1 ≤ digitsInCell (optCell inSdk i j)) ∧
    ((setOptions inSdk outSdk).1 = NOTSET ∨
      ∃ i j : Fin 9, inSdk.cell i j = 0 ∧
        (setOptions inSdk outSdk).1 = digitsInCell (optCell inSdk i j)) := by
  obtain ⟨h1, h2, h3⟩ := setOptionsLoop_min inSdk positions outSdk NOTSET
  refine ⟨h1, fun i j hz => h2 (i, j) (mem_positions _) hz, ?_⟩
  rcases h3 with h3 | ⟨p, _, hz, h3⟩
  · exact Or.inl h3
  · exact Or.inr ⟨p.1, p.2, hz, h3⟩

/-- The returned minimum is `NOTSET` exactly when no cell is unset, and at most 9 otherwise. -/
theorem setOptions_notset_iff (inSdk outSdk : Grid) :
    (setOptions inSdk outSdk).1 = NOTSET ↔ ∀ i j : Fin 9, inSdk.cell i j ≠ 0 := by
  obtain ⟨h1, h2, h3⟩ := setOptions_min inSdk outSdk
  constructor
  · intro h i j hz
    have := h2 i j hz
    have := digitsInCell_le_nine (optCell_zero_lt inSdk i j hz)
    rw [h] at *
    unfold NOTSET at *
    omega
  · intro h
    rcases h3 with h3 | ⟨i, j, hz, _⟩
    · exact h3
    · exact absurd hz (h i j)

/-! ## `consolidateOpt` -/

theorem consolidateLoop_spec (O : Grid) (ps : List (Fin 9 × Fin 9)) (hnd : ps.Nodup) (S : Grid)
    (n : Nat) :
    (∀ a b : Fin 9, (consolidateLoop O ps S n).2.cell a b =
      if (a, b) ∈ ps ∧ S.cell a b = 0 ∧ digitsInCell (O.cell a b) = 1 then O.cell a b
      else S.cell a b) ∧
    (consolidateLoop O ps S n).1 = n + (ps.filter fun p =>
      decide (S.cell p.1 p.2 = 0 ∧ digitsInCell (O.cell p.1 p.2) = 1)).length := by
  induction ps generalizing S n with
  | nil => simp [consolidateLoop]
  | cons p rest ih =>
    obtain ⟨i, j⟩ := p
    have hnotin : (i, j) ∉ rest := (List.nodup_cons.1 hnd).1
    have hnd1 : rest.Nodup := (List.nodup_cons.1 hnd).2
    unfold consolidateLoop
    by_cases hc : S.cell i j = 0 ∧ digitsInCell (O.cell i j) = 1
    · rw [if_pos hc]
      obtain ⟨h1, h2⟩ := ih hnd1 (S.put i j (O.cell i j)) (n + 1)
      constructor
      · intro a b
        rw [h1]
        by_cases he : (a, b) = (i, j)
        · obtain ⟨rfl, rfl⟩ := Prod.mk.inj he
          simp [hnotin, hc, Grid.cell_put_same]
        · rw [Grid.cell_put_other _ _ _ _ _ _ he]
          simp [he]
      · rw [h2, List.filter_cons, if_pos (by simpa using hc), List.length_cons]
        have : (rest.filter fun p => decide ((S.put i j (O.cell i j)).cell p.1 p.2 = 0 ∧
            digitsInCell (O.cell p.1 p.2) = 1)) =
            (rest.filter fun p => decide (S.cell p.1 p.2 = 0 ∧
            digitsInCell (O.cell p.1 p.2) = 1)) := by
          apply List.filter_congr
          intro p hp
          have : (p.1, p.2) ≠ (i, j) := fun e => hnotin (by rw [← e]; exact hp)
          rw [Grid.cell_put_other _ _ _ _ _ _ this]
        rw [this]; omega
    · rw [if_neg hc]
      obtain ⟨h1, h2⟩ := ih hnd1 S n
      constructor
      · intro a b
        rw [h1]
        by_cases he : (a, b) = (i, j)
        · obtain ⟨rfl, rfl⟩ := Prod.mk.inj he
          simp [hnotin, hc]
        · simp [he]
      · rw [h2, List.filter_cons, if_neg (by simpa using hc)]

theorem consolidateOpt_not_compliant (O S : Grid) (st : State)
    (h : (isCompliant O st).1 = false) :
    (consolidateOpt O S st).1 = 0 ∧ (consolidateOpt O S st).2.1 = S := by
  unfold consolidateOpt
  simp [h]

theorem consolidateOpt_compliant (O S : Grid) (st : State)
    (h : (isCompliant O st).1 = true) :
    (∀ a b : Fin 9, (consolidateOpt O S st).2.1.cell a b =
      if S.cell a b = 0 ∧ digitsInCell (O.cell a b) = 1 then O.cell a b else S.cell a b) ∧
    (consolidateOpt O S st).1 = (positions.filter fun p =>
      decide (S.cell p.1 p.2 = 0 ∧ digitsInCell (O.cell p.1 p.2) = 1)).length := by
  unfold consolidateOpt
  simp only [h, if_true]
  obtain ⟨h1, h2⟩ := consolidateLoop_spec O positions positions_nodup S 0
  constructor
  · intro a b
    rw [h1]
    simp [mem_positions]
  · rw [h2]; simp

theorem consolidateOpt_state (O S : Grid) (st : State) :
    (consolidateOpt O S st).2.2 = (isCompliant O st).2 := by
  unfold consolidateOpt
  simp only
  split_ifs <;> rfl

/-- In every case a cell of the solution either keeps its value or was unset and takes a
fixed value of the options. -/
theorem consolidateOpt_cell (O S : Grid) (st : State) (a b : Fin 9) :
    (consolidateOpt O S st).2.1.cell a b = S.cell a b ∨
      (S.cell a b = 0 ∧ digitsInCell (O.cell a b) = 1 ∧
        (consolidateOpt O S st).2.1.cell a b = O.cell a b) := by
  rcases hc : (isCompliant O st).1 with _ | _
  · rw [(consolidateOpt_not_compliant O S st hc).2]; exact Or.inl rfl
  · rw [(consolidateOpt_compliant O S st hc).1]
    by_cases h : S.cell a b = 0 ∧ digitsInCell (O.cell a b) = 1
    · rw [if_pos h]; exact Or.inr ⟨h.1, h.2, rfl⟩
    · rw [if_neg h]; exact Or.inl rfl

/-- A positive count means that some unset cell took a fixed value. -/
theorem consolidateOpt_pos (O S : Grid) (st : State) (h : (consolidateOpt O S st).1 ≠ 0) :
    (isCompliant O st).1 = true ∧
      ∃ a b : Fin 9, S.cell a b = 0 ∧ digitsInCell (O.cell a b) = 1 := by
  rcases hc : (isCompliant O st).1 with _ | _
  · exact absurd (consolidateOpt_not_compliant O S st hc).1 h
  · refine ⟨rfl, ?_⟩
    rw [(consolidateOpt_compliant O S st hc).2] at h
    have : (positions.filter fun p =>
      decide (S.cell p.1 p.2 = 0 ∧ digitsInCell (O.cell p.1 p.2) = 1)) ≠ [] := by
      intro e; rw [e] at h; exact h rfl
    obtain ⟨p, hp⟩ := List.exists_mem_of_ne_nil _ this
    have := (List.mem_filter.1 hp).2
    simp only [decide_eq_true_eq] at this
    exact ⟨p.1, p.2, this⟩

theorem consolidateOpt_zero (O S : Grid) (st : State) (h : (consolidateOpt O S st).1 = 0) :
    (consolidateOpt O S st).2.1 = S ∧
    ((isCompliant O st).1 = false ∨
      ∀ a b : Fin 9, ¬ (S.cell a b = 0 ∧ digitsInCell (O.cell a b) = 1)) := by
  rcases hc : (isCompliant O st).1 with _ | _
  · exact ⟨(consolidateOpt_not_compliant O S st hc).2, Or.inl rfl⟩
  · obtain ⟨h1, h2⟩ := consolidateOpt_compliant O S st hc
    rw [h2] at h
    have hall : ∀ a b : Fin 9, ¬ (S.cell a b = 0 ∧ digitsInCell (O.cell a b) = 1) := by
      intro a b hab
      have : (a, b) ∈ (positions.filter fun p =>
          decide (S.cell p.1 p.2 = 0 ∧ digitsInCell (O.cell p.1 p.2) = 1)) :=
        List.mem_filter.2 ⟨mem_positions _, by simpa using hab⟩
      rw [List.length_eq_zero.1 h] at this
      exact absurd this (List.not_mem_nil _)
    refine ⟨?_, Or.inr hall⟩
    apply Grid.ext_cell
    intro a b
    rw [h1, if_neg (hall a b)]

/-! ## Counting cells -/

theorem filter_length_le_of_imp {α : Type} (P Q : α → Bool) (l : List α)
    (h : ∀ x ∈ l, P x = true → Q x = true) : (l.filter P).length ≤ (l.filter Q).length := by
  induction l with
  | nil => simp
  | cons y rest ih =>
    have ih1 := ih (fun x hx => h x (List.mem_cons_of_mem _ hx))
    have hy := h y (List.mem_cons_self _ _)
    simp only [List.filter_cons]
    cases hP : P y
    · cases hQ : Q y
      · simpa using ih1
      · simp only [Bool.false_eq_true, if_false, if_true, List.length_cons]; omega
    · rw [hy hP]
      simpa using ih1

theorem filter_length_lt_of_imp {α : Type} (P Q : α → Bool) (l : List α)
    (h : ∀ x ∈ l, P x = true → Q x = true) (z : α) (hz : z ∈ l) (hQ : Q z = true)
    (hP : P z = false) : (l.filter P).length < (l.filter Q).length := by
  induction l with
  | nil => simp at hz
  | cons y rest ih =>
    have hrest : ∀ x ∈ rest, P x = true → Q x = true :=
      fun x hx => h x (List.mem_cons_of_mem _ hx)
    have hle := filter_length_le_of_imp P Q rest hrest
    simp only [List.filter_cons]
    rcases List.mem_cons.1 hz with rfl | hz1
    · rw [hP, hQ]
      simp only [Bool.false_eq_true, if_false, if_true, List.length_cons]; omega
    · have ih1 := ih hrest hz1
      have hy := h y (List.mem_cons_self _ _)
      cases hPy : P y
      · cases hQy : Q y
        · simpa using ih1
        · simp only [Bool.false_eq_true, if_false, if_true, List.length_cons]; omega
      · rw [hy hPy]
        simpa using ih1

theorem unsetCount_le (g : Grid) : unsetCount g ≤ 81 := by
  unfold unsetCount
  exact le_trans (List.length_filter_le _ _) (le_of_eq positions_length)

theorem nonFixed_le (g : Grid) : nonFixed g ≤ 81 := by
  unfold nonFixed
  exact le_trans (List.length_filter_le _ _) (le_of_eq positions_length)

theorem digitsInCell_ne_zero_of_one {c : Nat} (h : digitsInCell c = 1) : c ≠ 0 := by
  rintro rfl
  rw [digitsInCell_zero] at h
  exact absurd h (by decide)

/-! ## The loop of `setOptions` and `consolidateOpt` -/

/-- One pass of the loop that goes on: how the working matrix changes. -/
theorem consolidate_progress (S : Grid) (O0 : Grid) (st : State)
    (h : (consolidateOpt (setOptions S O0).2 S st).1 ≠ 0) :
    unsetCount (consolidateOpt (setOptions S O0).2 S st).2.1 < unsetCount S ∧
      nonFixed (consolidateOpt (setOptions S O0).2 S st).2.1 ≤ nonFixed S := by
  obtain ⟨_, a, b, hz, hd⟩ := consolidateOpt_pos _ _ _ h
  have hcell := consolidateOpt_cell (setOptions S O0).2 S st
  constructor
  · unfold unsetCount
    apply filter_length_lt_of_imp _ _ _ _ (a, b) (mem_positions _)
    · simpa using hz
    · rcases hcell a b with e | ⟨_, _, e⟩
      · exfalso
        have hc := (consolidateOpt_pos _ _ _ h).1
        rw [(consolidateOpt_compliant _ _ _ hc).1, if_pos ⟨hz, hd⟩] at e
        rw [hz] at e
        exact digitsInCell_ne_zero_of_one hd e
      · simp only [decide_eq_false_iff_not]
        rw [e]
        exact digitsInCell_ne_zero_of_one hd
    · intro p _ hp
      simp only [decide_eq_true_eq] at hp ⊢
      rcases hcell p.1 p.2 with e | ⟨e0, e1, e⟩
      · rw [← e]; exact hp
      · exact e0
  · unfold nonFixed
    apply filter_length_le_of_imp
    intro p _ hp
    simp only [decide_eq_true_eq] at hp ⊢
    rcases hcell p.1 p.2 with e | ⟨e0, e1, e⟩
    · rw [← e]; exact hp
    · rw [e0, digitsInCell_zero]; decide

theorem propagate_total (fuel : Nat) (sudoku options : Grid) (st : State)
    (h : unsetCount sudoku < fuel) : ∃ r, propagate fuel sudoku options st = some r := by
  induction fuel generalizing sudoku options st with
  | zero => omega
  | succ fuel ih =>
    unfold propagate
    simp only
    by_cases h1 : (setOptions sudoku options).1 ≠ 1
    · rw [if_pos h1]; exact ⟨_, rfl⟩
    · rw [if_neg h1]
      by_cases h2 : (consolidateOpt (setOptions sudoku options).2 sudoku st).1 ≠ 0
      · rw [if_pos h2]
        apply ih
        have := (consolidate_progress sudoku options st h2).1
        omega
      · rw [if_neg h2]; exact ⟨_, rfl⟩

/-- A rule to reason about the loop: a property of the working matrix and the globals that
holds at the start and is kept by each pass that goes on holds at the end, where the options
and the minimum are those of the last `setOptions`. -/
theorem propagate_rule (Inv : Grid → State → Prop)
    (hstep : ∀ (S O0 : Grid) (st : State), Inv S st → (setOptions S O0).1 = 1 →
      Inv (consolidateOpt (setOptions S O0).2 S st).2.1
        (consolidateOpt (setOptions S O0).2 S st).2.2)
    (fuel : Nat) (sudoku options : Grid) (st : State) (numOptions : Nat)
    (O S : Grid) (st1 : State) (hinv : Inv sudoku st)
    (h : propagate fuel sudoku options st = some (numOptions, O, S, st1)) :
    Inv S st1 ∧ (∃ O0, numOptions = (setOptions S O0).1 ∧ O = (setOptions S O0).2) ∧
      (numOptions = 1 → (isCompliant O st).1 = false) := by
  induction fuel generalizing sudoku options st with
  | zero => simp [propagate] at h
  | succ fuel ih =>
    unfold propagate at h
    simp only at h
    by_cases h1 : (setOptions sudoku options).1 ≠ 1
    · rw [if_pos h1] at h
      simp only [Option.some.injEq, Prod.mk.injEq] at h
      obtain ⟨e1, e2, e3, e4⟩ := h
      subst e3 e4
      refine ⟨hinv, ⟨options, e1.symm, e2.symm⟩, ?_⟩
      intro hn; rw [← e1] at hn; exact absurd hn h1
    · rw [if_neg h1] at h
      have h1 : (setOptions sudoku options).1 = 1 := not_not.1 h1
      by_cases h2 : (consolidateOpt (setOptions sudoku options).2 sudoku st).1 ≠ 0
      · rw [if_pos h2] at h
        have := ih _ _ _ (hstep sudoku options st hinv h1) h
        refine ⟨this.1, this.2.1, ?_⟩
        intro hn
        have := this.2.2 hn
        rw [consolidateOpt_state] at this
        rw [isCompliant_fst_indep O st]; exact this
      · rw [if_neg h2] at h
        have h2 : (consolidateOpt (setOptions sudoku options).2 sudoku st).1 = 0 := not_not.1 h2
        simp only [Option.some.injEq, Prod.mk.injEq] at h
        obtain ⟨e1, e2, e3, e4⟩ := h
        obtain ⟨z1, z2⟩ := consolidateOpt_zero _ _ _ h2
        have hS : S = sudoku := by rw [← e3, z1]
        subst hS
        refine ⟨?_, ⟨options, e1.symm, e2.symm⟩, ?_⟩
        · have := hstep S options st hinv h1
          rw [z1] at this
          rw [← e4]; exact this
        · intro _
          rcases z2 with z2 | z2
          · rw [← e2]; exact z2
          · exfalso
            obtain ⟨_, _, h3⟩ := setOptions_min S options
            rcases h3 with h3 | ⟨i, j, hz, h3⟩
            · rw [h1] at h3; exact absurd h3 (by decide)
            · apply z2 i j
              rw [setOptions_cell]
              exact ⟨hz, by rw [← h3, h1]⟩

/-! ## The search for the first cell with options -/

theorem scanLoop_spec (options : Grid) (fuel i j : Nat) (hi : i < 9) (hj : j < 9)
    (hf : 81 ≤ fuel + 9 * i + j)
    (hex : ∃ p : Fin 9 × Fin 9, ¬ Before p (⟨i, hi⟩, ⟨j, hj⟩) ∧
      2 ≤ digitsInCell (options.cell p.1 p.2)) :
    ∃ p : Fin 9 × Fin 9, scanLoop options fuel i j = some (p.1.val, p.2.val) ∧
      2 ≤ digitsInCell (options.cell p.1 p.2) ∧ ¬ Before p (⟨i, hi⟩, ⟨j, hj⟩) ∧
      ∀ q : Fin 9 × Fin 9, ¬ Before q (⟨i, hi⟩, ⟨j, hj⟩) → Before q p →
        digitsInCell (options.cell q.1 q.2) < 2 := by
  induction fuel generalizing i j with
  | zero => omega
  | succ fuel ih =>
    unfold scanLoop
    rw [dif_pos ⟨hi, hj⟩]
    by_cases hd : digitsInCell (options.cell ⟨i, hi⟩ ⟨j, hj⟩) < 2
    · rw [if_pos hd]
      simp only [COL, LIN]
      obtain ⟨p, hp1, hp2⟩ := hex
      have hpne : p ≠ (⟨i, hi⟩, ⟨j, hj⟩) := by
        rintro rfl
        simp only at hp2
        omega
      by_cases hj1 : j + 1 = 9
      · simp only [hj1, if_true]
        by_cases hi1 : i + 1 = 9
        · exfalso
          apply hpne
          obtain ⟨⟨a, ha⟩, ⟨b, hb⟩⟩ := p
          simp only [Before, Fin.mk_lt_mk, Fin.mk.injEq] at hp1
          simp only [Prod.mk.injEq, Fin.mk.injEq]
          omega
        · rw [if_neg hi1]
          have hi' : i + 1 < 9 := by omega
          obtain ⟨r, h1, h2, h3, h4⟩ := ih (i + 1) 0 hi' (by omega) (by omega) ⟨p, by
            obtain ⟨⟨a, ha⟩, ⟨b, hb⟩⟩ := p
            simp only [Before, Fin.mk_lt_mk, Fin.mk.injEq] at hp1 ⊢
            simp only [ne_eq, Prod.mk.injEq, Fin.mk.injEq] at hpne
            omega, hp2⟩
          refine ⟨r, h1, h2, ?_, ?_⟩
          · obtain ⟨⟨a, ha⟩, ⟨b, hb⟩⟩ := r
            simp only [Before, Fin.mk_lt_mk, Fin.mk.injEq] at h3 ⊢
            omega
          · intro q hq1 hq2
            by_cases hqe : q = (⟨i, hi⟩, ⟨j, hj⟩)
            · rw [hqe]; exact hd
            · apply h4 q _ hq2
              obtain ⟨⟨a, ha⟩, ⟨b, hb⟩⟩ := q
              simp only [Before, Fin.mk_lt_mk, Fin.mk.injEq] at hq1 ⊢
              simp only [Prod.mk.injEq, Fin.mk.injEq] at hqe
              omega
      · simp only [hj1, if_false]
        have hi9 : i ≠ 9 := by omega
        rw [if_neg hi9]
        have hj' : j + 1 < 9 := by omega
        obtain ⟨r, h1, h2, h3, h4⟩ := ih i (j + 1) hi hj' (by omega) ⟨p, by
          obtain ⟨⟨a, ha⟩, ⟨b, hb⟩⟩ := p
          simp only [Before, Fin.mk_lt_mk, Fin.mk.injEq] at hp1 ⊢
          simp only [ne_eq, Prod.mk.injEq, Fin.mk.injEq] at hpne
          omega, hp2⟩
        refine ⟨r, h1, h2, ?_, ?_⟩
        · obtain ⟨⟨a, ha⟩, ⟨b, hb⟩⟩ := r
          simp only [Before, Fin.mk_lt_mk, Fin.mk.injEq] at h3 ⊢
          omega
        · intro q hq1 hq2
          by_cases hqe : q = (⟨i, hi⟩, ⟨j, hj⟩)
          · rw [hqe]; exact hd
          · apply h4 q _ hq2
            obtain ⟨⟨a, ha⟩, ⟨b, hb⟩⟩ := q
            simp only [Before, Fin.mk_lt_mk, Fin.mk.injEq] at hq1 ⊢
            simp only [Prod.mk.injEq, Fin.mk.injEq] at hqe
            omega
    · rw [if_neg hd]
      refine ⟨(⟨i, hi⟩, ⟨j, hj⟩), rfl, by simp only; omega, Before_irrefl _, ?_⟩
      intro q hq1 hq2
      exact absurd hq2 hq1

/-- From the first cell on, the search stops at the first cell in row-major order with at
least two candidates, when there is one. -/
theorem scanLoop_first (options : Grid)
    (hex : ∃ p : Fin 9 × Fin 9, 2 ≤ digitsInCell (options.cell p.1 p.2)) :
    ∃ p : Fin 9 × Fin 9, scanLoop options (LIN * COL) 0 0 = some (p.1.val, p.2.val) ∧
      2 ≤ digitsInCell (options.cell p.1 p.2) ∧
      ∀ q : Fin 9 × Fin 9, Before q p → digitsInCell (options.cell q.1 q.2) < 2 := by
  have h0 : ∀ q : Fin 9 × Fin 9, ¬ Before q (⟨0, by decide⟩, ⟨0, by decide⟩) := by
    rintro ⟨⟨a, ha⟩, ⟨b, hb⟩⟩
    simp only [Before, Fin.mk_lt_mk, Fin.mk.injEq]
    omega
  obtain ⟨p, hp⟩ := hex
  obtain ⟨r, h1, h2, _, h4⟩ := scanLoop_spec options (LIN * COL) 0 0 (by decide) (by decide)
    (by simp [LIN, COL]) ⟨p, h0 p, hp⟩
  exact ⟨r, h1, h2, fun q hq => h4 q (h0 q) hq⟩

/-! ## The candidate loop -/

theorem shift_succ (k : Nat) : ((1 : Nat) <<< k) <<< 1 = 1 <<< (k + 1) := by
  simp [Nat.shiftLeft_eq, pow_succ]

/-- A rule to reason about the candidate loop: `Inv k sudoku result st out` holds before the
iteration for candidate `k`. -/
theorem trialLoop_rule (solve : Grid → State → Outcome) (cellOpt : Nat) (i j : Fin 9)
    (Inv : Nat → Grid → Int → State → List Event → Prop)
    (hcall : ∀ (k : Nat) (sudoku : Grid) (result : Int) (st : State) (out : List Event)
      (r : Int) (st1 : State) (out1 : List Event), k < 9 → Inv k sudoku result st out →
      st.numSolRequested ≥ st.numCurrentSol → cellOpt &&& (1 <<< k) ≠ 0 →
      solve (sudoku.put i j (1 <<< k)) st = .ok (r, st1, out1) →
      Inv (k + 1) (sudoku.put i j (1 <<< k)) r st1
        (out ++ Event.trial st i.val j.val (1 <<< k) (sudoku.put i j (1 <<< k)) :: out1))
    (hskip : ∀ (k : Nat) (sudoku : Grid) (result : Int) (st : State) (out : List Event),
      k < 9 → Inv k sudoku result st out → st.numSolRequested ≥ st.numCurrentSol →
      cellOpt &&& (1 <<< k) = 0 → Inv (k + 1) sudoku result st out)
    (todo k : Nat) (sudoku : Grid) (result : Int) (st : State) (out : List Event)
    (res : Int × State × List Event) (hk : todo + k = 9) (hinv : Inv k sudoku result st out)
    (h : trialLoop solve cellOpt i j todo (1 <<< k) sudoku result st out = .ok res) :
    ∃ (k1 : Nat) (sudoku1 : Grid), k1 ≤ 9 ∧ Inv k1 sudoku1 res.1 res.2.1 res.2.2 ∧
      (k1 = 9 ∨ ¬ res.2.1.numSolRequested ≥ res.2.1.numCurrentSol) := by
  induction todo generalizing k sudoku result st out with
  | zero =>
    simp only [trialLoop, Except.ok.injEq] at h
    subst h
    exact ⟨k, sudoku, by omega, hinv, Or.inl (by omega)⟩
  | succ todo ih =>
    unfold trialLoop at h
    by_cases hg : st.numSolRequested ≥ st.numCurrentSol
    · rw [if_pos hg] at h
      by_cases hb : cellOpt &&& (1 <<< k) ≠ 0
      · rw [if_pos hb] at h
        rcases hs : solve (sudoku.put i j (1 <<< k)) st with e | ⟨r, st1, out1⟩
        · rw [hs] at h; simp at h
        · rw [hs] at h
          simp only [shift_succ] at h
          exact ih (k + 1) _ _ _ _ (by omega)
            (hcall k sudoku result st out r st1 out1 (by omega) hinv hg hb hs) h
      · rw [if_neg hb] at h
        simp only [shift_succ] at h
        exact ih (k + 1) _ _ _ _ (by omega)
          (hskip k sudoku result st out (by omega) hinv hg (not_not.1 hb)) h
    · rw [if_neg hg] at h
      simp only [Except.ok.injEq] at h
      subst h
      exact ⟨k, sudoku, by omega, hinv, Or.inr hg⟩

/-- The candidate loop gives a result when every recursive call does. -/
theorem trialLoop_total (solve : Grid → State → Outcome) (cellOpt : Nat) (i j : Fin 9)
    (S : Grid)
    (hsolve : ∀ (v : Nat) (st : State), digitsInCell v = 1 →
      ∃ res, solve (S.put i j v) st = .ok res)
    (hshift : ∀ k : Nat, k < 9 → digitsInCell (1 <<< k) = 1)
    (todo k : Nat) (sudoku : Grid) (result : Int) (st : State) (out : List Event)
    (hk : todo + k = 9) (hS : ∀ v, sudoku.put i j v = S.put i j v) :
    ∃ res, trialLoop solve cellOpt i j todo (1 <<< k) sudoku result st out = .ok res := by
  induction todo generalizing k sudoku result st out with
  | zero => exact ⟨_, rfl⟩
  | succ todo ih =>
    unfold trialLoop
    by_cases hg : st.numSolRequested ≥ st.numCurrentSol
    · rw [if_pos hg]
      by_cases hb : cellOpt &&& (1 <<< k) ≠ 0
      · rw [if_pos hb]
        obtain ⟨⟨r, st1, out1⟩, hs⟩ := hsolve (1 <<< k) st (hshift k (by omega))
        rw [hS, hs]
        simp only [shift_succ]
        apply ih (k + 1) _ _ _ _ (by omega)
        intro v
        rw [Grid.put_put]
      · rw [if_neg hb]
        simp only [shift_succ]
        exact ih (k + 1) _ _ _ _ (by omega) hS
    · rw [if_neg hg]; exact ⟨_, rfl⟩

theorem digitsInCell_shift (k : Nat) (h : k < 9) : digitsInCell (1 <<< k) = 1 :=
  (isMask_shift ⟨k, h⟩).digits

/-! ## `solveSdk`: one call -/

/-- The three ways in which a call of `solveSdk` gives a result. -/
theorem solveSdk_cases (fuel : Nat) (sdk : Grid) (st : State) (res : Int × State × List Event)
    (h : solveSdk (fuel + 1) sdk st = .ok res) :
    ∃ (numOptions : Nat) (options sudoku : Grid) (st2 : State),
      propagate (LIN * COL + 1) sdk Grid.zero
        { st with recLevel := st.recLevel + 1, numAttempts := wrapInt (st.numAttempts + 1) }
        = some (numOptions, options, sudoku, st2) ∧
      (((numOptions = 0 ∨ numOptions = 1 ∨ numOptions = NOTSET) ∧
          (isSolution sudoku st2).1 = true ∧
          res = (1, { (isSolution sudoku st2).2 with
                        numCurrentSol := wrapInt ((isSolution sudoku st2).2.numCurrentSol + 1),
                        recLevel := (isSolution sudoku st2).2.recLevel - 1 },
                  [Event.solution (isSolution sudoku st2).2.numCurrentSol
                    (isSolution sudoku st2).2.numAttempts sudoku])) ∨
        ((numOptions = 0 ∨ numOptions = 1 ∨ numOptions = NOTSET) ∧
          (isSolution sudoku st2).1 = false ∧
          res = (0, { (isSolution sudoku st2).2 with
                        recLevel := (isSolution sudoku st2).2.recLevel - 1 }, [])) ∨
        (¬ (numOptions = 0 ∨ numOptions = 1 ∨ numOptions = NOTSET) ∧
          ∃ (i j : Fin 9) (r : Int) (st3 : State) (out : List Event),
            scanLoop options (LIN * COL) 0 0 = some (i.val, j.val) ∧
            trialLoop (solveSdk fuel) (options.cell i j) i j MAXDIGITS 1 sudoku 0 st2 []
              = .ok (r, st3, out) ∧
            res = (r, { st3 with recLevel := st3.recLevel - 1 }, out))) := by
  unfold solveSdk at h
  simp only at h
  rcases hp : propagate (LIN * COL + 1) sdk Grid.zero
      { st with recLevel := st.recLevel + 1, numAttempts := wrapInt (st.numAttempts + 1) }
    with _ | ⟨numOptions, options, sudoku, st2⟩
  · rw [hp] at h; simp at h
  · rw [hp] at h
    simp only at h
    refine ⟨numOptions, options, sudoku, st2, rfl, ?_⟩
    by_cases hleaf : numOptions = 0 ∨ numOptions = 1 ∨ numOptions = NOTSET
    · rw [if_pos hleaf] at h
      rcases hs : (isSolution sudoku st2).1 with _ | _
      · rw [hs] at h
        simp only [Bool.false_eq_true, if_false, Except.ok.injEq] at h
        exact Or.inr (Or.inl ⟨hleaf, rfl, h.symm⟩)
      · rw [hs] at h
        simp only [if_true, Except.ok.injEq] at h
        exact Or.inl ⟨hleaf, rfl, h.symm⟩
    · rw [if_neg hleaf] at h
      refine Or.inr (Or.inr ⟨hleaf, ?_⟩)
      rcases hsc : scanLoop options (LIN * COL) 0 0 with _ | ⟨i, j⟩
      · rw [hsc] at h; simp at h
      · rw [hsc] at h
        simp only at h
        by_cases hb : i < 9 ∧ j < 9
        · rw [dif_pos hb] at h
          rcases ht : trialLoop (solveSdk fuel) (options.cell ⟨i, hb.1⟩ ⟨j, hb.2⟩) ⟨i, hb.1⟩
              ⟨j, hb.2⟩ MAXDIGITS 1 sudoku 0 st2 [] with e | ⟨r, st3, out⟩
          · rw [ht] at h; simp at h
          · rw [ht] at h
            simp only [Except.ok.injEq] at h
            exact ⟨⟨i, hb.1⟩, ⟨j, hb.2⟩, r, st3, out, rfl, ht, h.symm⟩
        · rw [dif_neg hb] at h; simp at h

/-- What the loop of `setOptions` and `consolidateOpt` leaves, for any matrix: a cell keeps
its value or was unset and now holds a single-digit mask; the counters are not touched. -/
theorem propagate_basic (fuel : Nat) (sdk options : Grid) (st : State) (numOptions : Nat)
    (O S : Grid) (st1 : State)
    (h : propagate fuel sdk options st = some (numOptions, O, S, st1)) :
    (∀ a b : Fin 9, S.cell a b = sdk.cell a b ∨ (sdk.cell a b = 0 ∧ IsMask (S.cell a b))) ∧
    st1.numSolRequested = st.numSolRequested ∧ st1.numCurrentSol = st.numCurrentSol ∧
    st1.numAttempts = st.numAttempts ∧ st1.recLevel = st.recLevel := by
  have := (propagate_rule
    (fun S1 s1 => (∀ a b : Fin 9, S1.cell a b = sdk.cell a b ∨
      (sdk.cell a b = 0 ∧ IsMask (S1.cell a b))) ∧
      s1.numSolRequested = st.numSolRequested ∧ s1.numCurrentSol = st.numCurrentSol ∧
      s1.numAttempts = st.numAttempts ∧ s1.recLevel = st.recLevel)
    ?_ fuel sdk options st numOptions O S st1 ⟨fun a b => Or.inl rfl, rfl, rfl, rfl, rfl⟩ h).1
  · exact this
  · intro S1 O0 s1 hinv _
    refine ⟨?_, ?_⟩
    · intro a b
      rcases consolidateOpt_cell (setOptions S1 O0).2 S1 s1 a b with e | ⟨e0, e1, e⟩
      · rw [e]; exact hinv.1 a b
      · rcases hinv.1 a b with e2 | e2
        · right
          refine ⟨by rw [← e2]; exact e0, ?_⟩
          rw [e]
          rw [setOptions_cell] at e1 ⊢
          exact (digitsInCell_eq_one_iff (optCell_zero_lt S1 a b e0)).1 e1
        · rw [e0] at e2; exact absurd e2.2 (by decide)
    · rw [consolidateOpt_state]
      exact hinv.2

theorem isSolution_state (sdk : Grid) (st : State) :
    (isSolution sdk st).2.numSolRequested = st.numSolRequested ∧
    (isSolution sdk st).2.numCurrentSol = st.numCurrentSol ∧
    (isSolution sdk st).2.numAttempts = st.numAttempts ∧
    (isSolution sdk st).2.recLevel = st.recLevel := by
  unfold isSolution
  split_ifs
  · exact ⟨rfl, rfl, rfl, rfl⟩
  · exact ⟨rfl, rfl, rfl, rfl⟩

theorem nonFixed_put_lt (S : Grid) (i j : Fin 9) (v : Nat) (hv : digitsInCell v = 1)
    (h : digitsInCell (S.cell i j) ≠ 1) : nonFixed (S.put i j v) < nonFixed S := by
  unfold nonFixed
  apply filter_length_lt_of_imp _ _ _ _ (i, j) (mem_positions _)
  · simpa using h
  · simp only [Grid.cell_put_same, decide_eq_false_iff_not, not_not]; exact hv
  · intro p _ hp
    simp only [decide_eq_true_eq] at hp ⊢
    by_cases he : (p.1, p.2) = (i, j)
    · obtain ⟨e1, e2⟩ := Prod.mk.inj he
      rw [e1, e2]; exact h
    · rw [Grid.cell_put_other _ _ _ _ _ _ he] at hp; exact hp

theorem nonFixed_propagate (fuel : Nat) (sdk options : Grid) (st : State) (numOptions : Nat)
    (O S : Grid) (st1 : State)
    (h : propagate fuel sdk options st = some (numOptions, O, S, st1)) :
    nonFixed S ≤ nonFixed sdk := by
  unfold nonFixed
  apply filter_length_le_of_imp
  intro p _ hp
  simp only [decide_eq_true_eq] at hp ⊢
  rcases (propagate_basic fuel sdk options st numOptions O S st1 h).1 p.1 p.2 with e | ⟨e0, e1⟩
  · rw [← e]; exact hp
  · exact absurd e1.digits hp

/-- In the default branch some unset cell has at least two candidates, and a cell of the
options with at least two candidates is not fixed in the working matrix. -/
theorem default_branch (S O0 : Grid)
    (hleaf : ¬ ((setOptions S O0).1 = 0 ∨ (setOptions S O0).1 = 1 ∨
      (setOptions S O0).1 = NOTSET)) :
    (∃ p : Fin 9 × Fin 9, 2 ≤ digitsInCell ((setOptions S O0).2.cell p.1 p.2)) ∧
    (∀ i j : Fin 9, 2 ≤ digitsInCell ((setOptions S O0).2.cell i j) →
      digitsInCell (S.cell i j) ≠ 1) ∧
    (∀ i j : Fin 9, S.cell i j = 0 → 2 ≤ digitsInCell ((setOptions S O0).2.cell i j)) := by
  obtain ⟨h1, h2, h3⟩ := setOptions_min S O0
  push_neg at hleaf
  refine ⟨?_, ?_, ?_⟩
  · rcases h3 with h3 | ⟨i, j, hz, h3⟩
    · exact absurd h3 hleaf.2.2
    · refine ⟨(i, j), ?_⟩
      rw [setOptions_cell, ← h3]
      omega
  · intro i j hd hfix
    rw [setOptions_cell] at hd
    unfold optCell at hd
    rw [if_pos (digitsInCell_ne_zero_of_one hfix), hfix] at hd
    omega
  · intro i j hz
    have := h2 i j hz
    rw [setOptions_cell]
    omega

/-- A call of `solveSdk` gives a result when the recursion budget exceeds the number of cells
that are not fixed. -/
theorem solveSdk_total (fuel : Nat) (sdk : Grid) (st : State) (h : nonFixed sdk < fuel) :
    ∃ res, solveSdk fuel sdk st = .ok res := by
  induction fuel generalizing sdk st with
  | zero => omega
  | succ fuel ih =>
    obtain ⟨⟨numOptions, O, S, st2⟩, hp⟩ := propagate_total (LIN * COL + 1) sdk Grid.zero
      { st with recLevel := st.recLevel + 1, numAttempts := wrapInt (st.numAttempts + 1) }
      (by have := unsetCount_le sdk; simp only [LIN, COL]; omega)
    obtain ⟨_, ⟨O0, hn, hO⟩, _⟩ := propagate_rule (fun _ _ => True) (fun _ _ _ _ _ => trivial)
      _ _ _ _ _ _ _ _ trivial hp
    have hnf := nonFixed_propagate _ _ _ _ _ _ _ _ hp
    unfold solveSdk
    simp only [hp]
    by_cases hleaf : numOptions = 0 ∨ numOptions = 1 ∨ numOptions = NOTSET
    · rw [if_pos hleaf]
      split_ifs
      · exact ⟨_, rfl⟩
      · exact ⟨_, rfl⟩
    · rw [if_neg hleaf]
      rw [hn] at hleaf
      obtain ⟨hex, hnot, _⟩ := default_branch S O0 hleaf
      rw [← hO] at hex hnot
      obtain ⟨p, hsc, hp2, _⟩ := scanLoop_first O hex
      rw [hsc]
      simp only
      rw [dif_pos ⟨p.1.isLt, p.2.isLt⟩]
      obtain ⟨⟨r, st3, out⟩, ht⟩ := trialLoop_total (solveSdk fuel) (O.cell p.1 p.2) p.1 p.2 S
        (fun v s hv => ih _ s (by
          have := nonFixed_put_lt S p.1 p.2 v hv (hnot _ _ hp2)
          omega))
        digitsInCell_shift MAXDIGITS 0 S 0 st2 [] rfl (fun _ => rfl)
      have ht1 : trialLoop (solveSdk fuel) (O.cell p.1 p.2) p.1 p.2 MAXDIGITS 1 S 0 st2 []
          = .ok (r, st3, out) := ht
      simp only [Fin.eta, ht1]
      exact ⟨_, rfl⟩

/-! ## `solveSdk`: the counters -/

theorem solutions_append (a b : List Event) : solutions (a ++ b) = solutions a ++ solutions b := by
  induction a with
  | nil => rfl
  | cons e rest ih =>
    cases e with
    | solution k n g => simp [solutions, ih]
    | trial st i j opc g => simp [solutions, ih]

theorem trialStates_append (a b : List Event) :
    trialStates (a ++ b) = trialStates a ++ trialStates b := by
  induction a with
  | nil => rfl
  | cons e rest ih =>
    cases e with
    | solution k n g => simp [trialStates, ih]
    | trial st i j opc g => simp [trialStates, ih]

/-- An `int` result that lies between `-2147483648` and `2147483647` is kept as it is. -/
theorem wrapInt_of_range (x : Int) (h1 : -2147483648 ≤ x) (h2 : x ≤ 2147483647) :
    wrapInt x = x := by
  unfold wrapInt
  omega

/-- A 32-bit `int` lies between `-2147483648` and `2147483647`. -/
theorem wrapInt_range (x : Int) : -2147483648 ≤ wrapInt x ∧ wrapInt x ≤ 2147483647 := by
  unfold wrapInt
  omega

/-- The increment of the largest `int` gives the least one. -/
theorem wrapInt_overflow : wrapInt (2147483647 + 1) = -2147483648 := by decide

/-- The counters after a call of `solveSdk`, for any matrix: `numSolRequested` is not
touched, `numCurrentSol` stays an `int`, and every trial branch starts with
`numSolRequested >= numCurrentSol`.  When `numCurrentSol` is an `int` below `2147483647` at
the start and `numSolRequested` is below `2147483647`, no increment wraps around:
`numCurrentSol` grows by the number of solutions written, and the call writes at most one
solution or leaves `numCurrentSol` at most at `numSolRequested + 1`. -/
theorem solveSdk_counters (fuel : Nat) (sdk : Grid) (st : State)
    (res : Int × State × List Event) (h : solveSdk fuel sdk st = .ok res) :
    res.2.1.numSolRequested = st.numSolRequested ∧
    (st.numCurrentSol ≤ 2147483647 → res.2.1.numCurrentSol ≤ 2147483647) ∧
    (∀ t ∈ trialStates res.2.2, t.numSolRequested = st.numSolRequested ∧
      t.numCurrentSol ≤ t.numSolRequested) ∧
    (-2147483648 ≤ st.numCurrentSol → st.numCurrentSol < 2147483647 →
      st.numSolRequested < 2147483647 →
      res.2.1.numCurrentSol = st.numCurrentSol + (solutions res.2.2).length ∧
      ((solutions res.2.2).length ≤ 1 ∨ res.2.1.numCurrentSol ≤ st.numSolRequested + 1)) := by
  induction fuel generalizing sdk st res with
  | zero => simp [solveSdk] at h
  | succ fuel ih =>
    obtain ⟨numOptions, O, S, st2, hp, hcase⟩ := solveSdk_cases fuel sdk st res h
    obtain ⟨_, p1, p2, _, _⟩ := propagate_basic _ _ _ _ _ _ _ _ hp
    simp only at p1 p2
    obtain ⟨s1, s2, _, _⟩ := isSolution_state S st2
    rcases hcase with ⟨_, _, rfl⟩ | ⟨_, _, rfl⟩ | ⟨_, i, j, r, st3, out, _, ht, rfl⟩
    · simp only [solutions, trialStates, List.length_cons, List.length_nil, List.not_mem_nil]
      refine ⟨by rw [s1, p1], fun _ => (wrapInt_range _).2, by simp, ?_⟩
      intro hlo hhi _
      rw [s2, p2, wrapInt_of_range _ (by omega) (by omega)]
      exact ⟨rfl, Or.inl (by omega)⟩
    · simp only [solutions, trialStates, List.length_nil, List.not_mem_nil]
      refine ⟨by rw [s1, p1], fun hle => by rw [s2, p2]; exact hle, by simp, ?_⟩
      intro _ _ _
      exact ⟨by rw [s2, p2]; simp, Or.inl (by omega)⟩
    · have hr := trialLoop_rule (solveSdk fuel) (O.cell i j) i j
        (fun _ _ _ s out =>
          s.numSolRequested = st.numSolRequested ∧
          (st.numCurrentSol ≤ 2147483647 → s.numCurrentSol ≤ 2147483647) ∧
          (∀ t ∈ trialStates out, t.numSolRequested = st.numSolRequested ∧
            t.numCurrentSol ≤ t.numSolRequested) ∧
          (-2147483648 ≤ st.numCurrentSol → st.numCurrentSol < 2147483647 →
            st.numSolRequested < 2147483647 →
            s.numCurrentSol = st.numCurrentSol + (solutions out).length ∧
            ((solutions out).length = 0 ∨ s.numCurrentSol ≤ st.numSolRequested + 1)))
        ?_ ?_ MAXDIGITS 0 S 0 st2 [] (r, st3, out) rfl
        ⟨p1, fun hle => by rw [p2]; exact hle, by simp [trialStates],
          fun _ _ _ => ⟨by rw [p2]; simp [solutions], Or.inl rfl⟩⟩ ht
      · obtain ⟨k1, sudoku1, _, hinv, _⟩ := hr
        simp only at hinv
        obtain ⟨h1, h2, h3, h4⟩ := hinv
        refine ⟨h1, h2, h3, ?_⟩
        intro hlo hhi hreq
        obtain ⟨h5, h6⟩ := h4 hlo hhi hreq
        refine ⟨h5, ?_⟩
        rcases h6 with h6 | h6
        · left
          show (solutions out).length ≤ 1
          omega
        · exact Or.inr h6
      · intro k sudoku result s out r1 s1 out1 _ hinv hg _ hs
        obtain ⟨h1, h2, h3, h4⟩ := hinv
        obtain ⟨c1, c2, c3, c4⟩ := ih _ _ _ hs
        simp only at c1 c2 c3 c4
        simp only [solutions_append, trialStates_append, solutions, trialStates,
          List.length_append, List.mem_append, List.mem_cons]
        refine ⟨by rw [c1, h1], fun hle => c2 (h2 hle), ?_, ?_⟩
        · rintro t (ht | rfl | ht)
          · exact h3 t ht
          · exact ⟨h1, hg⟩
          · obtain ⟨e1, e2⟩ := c3 t ht
            exact ⟨by rw [e1, h1], e2⟩
        · intro hlo hhi hreq
          obtain ⟨h5, h6⟩ := h4 hlo hhi hreq
          rw [h1] at hg
          obtain ⟨c5, c6⟩ := c4 (by omega) (by omega) (by rw [h1]; exact hreq)
          rw [h1] at c6
          refine ⟨by rw [c5, h5]; push_cast; ring, Or.inr ?_⟩
          omega
      · intro k sudoku result s out _ hinv _ _
        exact hinv

/-! ## `solveSdk`: what is written is a solution that keeps the given cells -/

theorem cells01_put (S : Grid) (i j : Fin 9) (k : Nat) (hk : k < 9) (h : Cells01 S) :
    Cells01 (S.put i j (1 <<< k)) := by
  intro a b
  rw [Grid.cell_put]
  split_ifs
  · exact Or.inr (isMask_shift ⟨k, hk⟩)
  · exact h a b

theorem cells01_propagate (fuel : Nat) (sdk options : Grid) (st : State) (numOptions : Nat)
    (O S : Grid) (st1 : State) (hc : Cells01 sdk)
    (h : propagate fuel sdk options st = some (numOptions, O, S, st1)) : Cells01 S := by
  intro a b
  rcases (propagate_basic _ _ _ _ _ _ _ _ h).1 a b with e | ⟨_, e⟩
  · rw [e]; exact hc a b
  · exact Or.inr e

theorem Cells01.fixed_iff {g : Grid} (h : Cells01 g) (a b : Fin 9) :
    digitsInCell (g.cell a b) = 1 ↔ g.cell a b ≠ 0 := by
  constructor
  · exact digitsInCell_ne_zero_of_one
  · intro hne
    rcases h a b with e | e
    · exact absurd e hne
    · exact e.digits

/-- Every matrix that a call of `solveSdk` writes as a solution, for a matrix of unset cells
and single-digit masks: it passes `isSolution`, its cells are single-digit masks, and it
keeps every cell that is set in the matrix of the call. -/
theorem solveSdk_sound (fuel : Nat) (sdk : Grid) (st : State)
    (res : Int × State × List Event) (h : solveSdk fuel sdk st = .ok res) (hc : Cells01 sdk) :
    ∀ s ∈ solutions res.2.2, (∀ st1 : State, (isSolution s st1).1 = true) ∧ Cells01 s ∧
      ∀ a b : Fin 9, sdk.cell a b ≠ 0 → s.cell a b = sdk.cell a b := by
  induction fuel generalizing sdk st res with
  | zero => simp [solveSdk] at h
  | succ fuel ih =>
    obtain ⟨numOptions, O, S, st2, hp, hcase⟩ := solveSdk_cases fuel sdk st res h
    have hcS := cells01_propagate _ _ _ _ _ _ _ _ hc hp
    have hkeep : ∀ a b : Fin 9, sdk.cell a b ≠ 0 → S.cell a b = sdk.cell a b := by
      intro a b hne
      rcases (propagate_basic _ _ _ _ _ _ _ _ hp).1 a b with e | ⟨e, _⟩
      · exact e
      · exact absurd e hne
    obtain ⟨_, ⟨O0, hn, hO⟩, _⟩ := propagate_rule (fun _ _ => True) (fun _ _ _ _ _ => trivial)
      _ _ _ _ _ _ _ _ trivial hp
    rcases hcase with ⟨_, hsol, rfl⟩ | ⟨_, _, rfl⟩ | ⟨hleaf, i, j, r, st3, out, hsc, ht, rfl⟩
    · intro s hs
      simp only [solutions, List.mem_singleton] at hs
      subst hs
      exact ⟨fun st1 => by rw [isSolution_fst_indep s st1 st2]; exact hsol, hcS, hkeep⟩
    · intro s hs
      simp [solutions] at hs
    · rw [hn] at hleaf
      obtain ⟨_, hnot, _⟩ := default_branch S O0 hleaf
      rw [← hO] at hnot
      have hij : 2 ≤ digitsInCell (O.cell i j) := by
        have hex : ∃ p : Fin 9 × Fin 9, 2 ≤ digitsInCell (O.cell p.1 p.2) := by
          rw [hO]; exact (default_branch S O0 hleaf).1
        obtain ⟨p, hsc1, hp2, _⟩ := scanLoop_first O hex
        rw [hsc] at hsc1
        simp only [Option.some.injEq, Prod.mk.injEq] at hsc1
        have e1 : i = p.1 := Fin.ext hsc1.1
        have e2 : j = p.2 := Fin.ext hsc1.2
        rw [e1, e2]; exact hp2
      have hz : S.cell i j = 0 := by
        by_contra hne
        exact hnot i j hij ((hcS.fixed_iff i j).2 hne)
      have hr := trialLoop_rule (solveSdk fuel) (O.cell i j) i j
        (fun _ sudoku _ _ out => (∀ v, sudoku.put i j v = S.put i j v) ∧
          ∀ s ∈ solutions out, (∀ st1 : State, (isSolution s st1).1 = true) ∧ Cells01 s ∧
            ∀ a b : Fin 9, sdk.cell a b ≠ 0 → s.cell a b = sdk.cell a b)
        ?_ ?_ MAXDIGITS 0 S 0 st2 [] (r, st3, out) rfl
        ⟨fun _ => rfl, by simp [solutions]⟩ ht
      · obtain ⟨k1, sudoku1, _, hinv, _⟩ := hr
        exact hinv.2
      · intro k sudoku result s out r1 s1 out1 hk hinv _ _ hs
        obtain ⟨h1, h2⟩ := hinv
        refine ⟨fun v => by rw [Grid.put_put]; exact h1 v, ?_⟩
        intro x hx
        simp only [solutions_append, solutions, List.mem_append] at hx
        rcases hx with hx | hx
        · exact h2 x hx
        · rw [h1] at hs
          obtain ⟨g1, g2, g3⟩ := ih _ _ _ hs (cells01_put S i j k hk hcS) x hx
          refine ⟨g1, g2, ?_⟩
          intro a b hne
          rw [← hkeep a b hne]
          have hS : S.cell a b ≠ 0 := by rw [hkeep a b hne]; exact hne
          have hab : (a, b) ≠ (i, j) := by
            intro e
            obtain ⟨rfl, rfl⟩ := Prod.mk.inj e
            exact hS hz
          have := g3 a b (by rw [Grid.cell_put_other _ _ _ _ _ _ hab]; exact hS)
          rw [this, Grid.cell_put_other _ _ _ _ _ _ hab]
      · intro k sudoku result s out _ hinv _ _
        exact hinv

/-! ## Candidates and completions -/

theorem and_shift_ne_zero_iff (c k : Nat) : c &&& (1 <<< k) ≠ 0 ↔ c.testBit k = true := by
  rw [Nat.one_shiftLeft]
  constructor
  · intro h
    obtain ⟨i, hi⟩ := Nat.ne_zero_implies_bit_true h
    rw [Nat.testBit_land, Nat.testBit_two_pow, Bool.and_eq_true, decide_eq_true_eq] at hi
    rw [hi.2]; exact hi.1
  · intro h e
    have : (c &&& 2 ^ k).testBit k = true := by
      rw [Nat.testBit_land, Nat.testBit_two_pow_self, h]; rfl
    rw [e, Nat.zero_testBit] at this
    exact absurd this (by decide)

theorem testBit_shift_iff (e d : Nat) : ((1 : Nat) <<< e).testBit d = true ↔ e = d := by
  rw [Nat.one_shiftLeft, Nat.testBit_two_pow, decide_eq_true_eq]

theorem shift_inj_nat {d e : Nat} (h : (1 : Nat) <<< d = 1 <<< e) : d = e := by
  rw [Nat.one_shiftLeft, Nat.one_shiftLeft] at h
  exact Nat.pow_right_injective (le_refl 2) h

theorem SameUnit.symm {p q : Fin 9 × Fin 9} (h : SameUnit p q) : SameUnit q p := by
  rcases h with h | h | h
  · exact Or.inl h.symm
  · exact Or.inr (Or.inl h.symm)
  · exact Or.inr (Or.inr ⟨h.1.symm, h.2.symm⟩)

theorem Completion.mask {g s : Grid} (h : Completion g s) (a b : Fin 9) : IsMask (s.cell a b) :=
  h.1 a b

/-- A completion holds, at an unset cell, a digit that `setOptions` offers there. -/
theorem completion_allowed {S s : Grid} (hc : Cells01 S) (hs : Completion S s) (a b : Fin 9)
    (hz : S.cell a b = 0) (d : Nat) (hd9 : d < 9) (hd : s.cell a b = 1 <<< d) :
    (optCell S a b).testBit d = true := by
  unfold optCell
  rw [if_neg (by simp [hz]), testBit_maskNot]
  refine ⟨hd9, ?_⟩
  by_contra hbit
  have hbit : (sumLin S a ||| sumCol S b ||| sumNonet S (a.val / 3) (b.val / 3)).testBit d
      = true := by
    cases hx : (sumLin S a ||| sumCol S b ||| sumNonet S (a.val / 3) (b.val / 3)).testBit d
    · exact absurd hx hbit
    · rfl
  rw [testBit_units] at hbit
  obtain ⟨q, hu, hq⟩ := hbit
  have hq0 : S.cell q.1 q.2 ≠ 0 := by
    intro e; rw [e, Nat.zero_testBit] at hq; exact absurd hq (by decide)
  have hqm : IsMask (S.cell q.1 q.2) := by
    rcases hc q.1 q.2 with e | e
    · exact absurd e hq0
    · exact e
  obtain ⟨e, he⟩ := hqm.exists_digit
  rw [he, testBit_shift_iff] at hq
  have hsq : s.cell q.1 q.2 = 1 <<< d := by
    rw [hs.2.2 q.1 q.2 hqm.digits, he, hq]
  have hne : (a, b) ≠ q := by
    intro e1
    rw [← e1] at hq0
    exact hq0 hz
  exact hs.2.1 ⟨(a, b), q, hne, hu, (hs.1 a b).digits, (hs.1 _ _).digits, by rw [hd, hsq]⟩

/-- A completion holds, at an unset cell with one candidate, that candidate. -/
theorem completion_forced {S s : Grid} (hc : Cells01 S) (hs : Completion S s) (a b : Fin 9)
    (hz : S.cell a b = 0) (h1 : digitsInCell (optCell S a b) = 1) :
    s.cell a b = optCell S a b := by
  obtain ⟨d, hd⟩ := (hs.1 a b).exists_digit
  have hbit := completion_allowed hc hs a b hz d.val d.isLt hd
  have hm : IsMask (optCell S a b) := (digitsInCell_eq_one_iff (optCell_zero_lt S a b hz)).1 h1
  obtain ⟨e, he⟩ := hm.exists_digit
  rw [he, testBit_shift_iff] at hbit
  rw [hd, he, hbit]

/-- A completion agrees with the options wherever the options are fixed. -/
theorem completion_options {S s : Grid} (hc : Cells01 S) (hs : Completion S s) (a b : Fin 9)
    (h1 : digitsInCell (optCell S a b) = 1) : s.cell a b = optCell S a b := by
  by_cases hz : S.cell a b = 0
  · exact completion_forced hc hs a b hz h1
  · have e : optCell S a b = S.cell a b := by unfold optCell; rw [if_pos hz]
    rw [e] at h1 ⊢
    exact hs.2.2 a b h1

/-- One pass of consolidation keeps the shape of the working matrix and its completions. -/
theorem consolidate_inv (S O0 : Grid) (st : State) (hc : Cells01 S)
    (hn : ¬ ∃ p q, Clash S p q) :
    Cells01 (consolidateOpt (setOptions S O0).2 S st).2.1 ∧
    (¬ ∃ p q, Clash (consolidateOpt (setOptions S O0).2 S st).2.1 p q) ∧
    ∀ s, Completion S s ↔ Completion (consolidateOpt (setOptions S O0).2 S st).2.1 s := by
  rcases hcomp : (isCompliant (setOptions S O0).2 st).1 with _ | _
  · rw [(consolidateOpt_not_compliant _ S st hcomp).2]
    exact ⟨hc, hn, fun s => Iff.rfl⟩
  · have hcell := (consolidateOpt_compliant _ S st hcomp).1
    simp only [setOptions_cell] at hcell
    have hfix : ∀ a b : Fin 9,
        digitsInCell ((consolidateOpt (setOptions S O0).2 S st).2.1.cell a b) = 1 →
        (consolidateOpt (setOptions S O0).2 S st).2.1.cell a b = optCell S a b := by
      intro a b h
      rw [hcell] at h ⊢
      by_cases hif : S.cell a b = 0 ∧ digitsInCell (optCell S a b) = 1
      · rw [if_pos hif]
      · rw [if_neg hif] at h ⊢
        unfold optCell
        rw [if_pos (digitsInCell_ne_zero_of_one h)]
    refine ⟨?_, ?_, ?_⟩
    · intro a b
      rw [hcell]
      by_cases hif : S.cell a b = 0 ∧ digitsInCell (optCell S a b) = 1
      · rw [if_pos hif]
        exact Or.inr ((digitsInCell_eq_one_iff (optCell_zero_lt S a b hif.1)).1 hif.2)
      · rw [if_neg hif]; exact hc a b
    · rintro ⟨p, q, h1, h2, h3, h4, h5⟩
      rw [isCompliant_iff_noClash] at hcomp
      apply hcomp
      refine ⟨p, q, h1, h2, ?_, ?_, ?_⟩
      · rw [setOptions_cell, ← hfix _ _ h3]; exact h3
      · rw [setOptions_cell, ← hfix _ _ h4]; exact h4
      · rw [setOptions_cell, setOptions_cell, ← hfix _ _ h3, ← hfix _ _ h4]; exact h5
    · intro s
      constructor
      · intro hs
        refine ⟨hs.1, hs.2.1, ?_⟩
        intro a b h
        rw [hfix a b h]
        apply completion_options hc hs
        rw [← hfix a b h]; exact h
      · intro hs
        refine ⟨hs.1, hs.2.1, ?_⟩
        intro a b h
        have hne := digitsInCell_ne_zero_of_one h
        have e : (consolidateOpt (setOptions S O0).2 S st).2.1.cell a b = S.cell a b := by
          rw [hcell, if_neg (fun hh => hne hh.1)]
        rw [← e]
        apply hs.2.2
        rw [e]; exact h

theorem propagate_inv (fuel : Nat) (sdk options : Grid) (st : State) (numOptions : Nat)
    (O S : Grid) (st1 : State) (hc : Cells01 sdk) (hn : ¬ ∃ p q, Clash sdk p q)
    (h : propagate fuel sdk options st = some (numOptions, O, S, st1)) :
    Cells01 S ∧ (¬ ∃ p q, Clash S p q) ∧ ∀ s, Completion sdk s ↔ Completion S s := by
  have := (propagate_rule
    (fun S1 _ => Cells01 S1 ∧ (¬ ∃ p q, Clash S1 p q) ∧ ∀ s, Completion sdk s ↔ Completion S1 s)
    ?_ fuel sdk options st numOptions O S st1 ⟨hc, hn, fun _ => Iff.rfl⟩ h).1
  · exact this
  · intro S1 O0 s1 hinv _
    obtain ⟨h1, h2, h3⟩ := consolidate_inv S1 O0 s1 hinv.1 hinv.2.1
    exact ⟨h1, h2, fun s => (hinv.2.2 s).trans (h3 s)⟩

/-! ## The leaves of the search -/

theorem no_completion_of_min_zero (S O0 : Grid) (hc : Cells01 S)
    (h : (setOptions S O0).1 = 0) : ¬ ∃ s, Completion S s := by
  rintro ⟨s, hs⟩
  obtain ⟨_, _, h3⟩ := setOptions_min S O0
  rcases h3 with h3 | ⟨i, j, hz, h3⟩
  · rw [h] at h3; exact absurd h3 (by decide)
  · rw [h] at h3
    have hlt := optCell_zero_lt S i j hz
    have h0 : optCell S i j = 0 := ((digitsInCell_table ⟨_, hlt⟩).2.1).1 h3.symm
    obtain ⟨d, hd⟩ := (hs.1 i j).exists_digit
    have := completion_allowed hc hs i j hz d.val d.isLt hd
    rw [h0, Nat.zero_testBit] at this
    exact absurd this (by decide)

theorem no_completion_of_not_compliant (S O0 : Grid) (st : State) (hc : Cells01 S)
    (h : (isCompliant (setOptions S O0).2 st).1 = false) : ¬ ∃ s, Completion S s := by
  rintro ⟨s, hs⟩
  have hcl : ∃ p q, Clash (setOptions S O0).2 p q := by
    by_contra hno
    rw [← isCompliant_iff_noClash _ st, h] at hno
    exact absurd hno (by simp)
  obtain ⟨p, q, h1, h2, h3, h4, h5⟩ := hcl
  rw [setOptions_cell] at h3 h4
  rw [setOptions_cell, setOptions_cell] at h5
  apply hs.2.1
  refine ⟨p, q, h1, h2, (hs.1 _ _).digits, (hs.1 _ _).digits, ?_⟩
  rw [completion_options hc hs _ _ h3, completion_options hc hs _ _ h4, h5]

/-- A matrix that passes `isSolution` is its own and only completion. -/
theorem completion_of_isSolution (S : Grid) (st : State) (hc : Cells01 S)
    (h : (isSolution S st).1 = true) : Completion S S ∧ ∀ s, Completion S s → s = S := by
  rw [isSolution_true_iff] at h
  refine ⟨⟨?_, ?_, fun _ _ _ => rfl⟩, ?_⟩
  · intro i j
    rcases hc i j with e | e
    · exact absurd e (digitsInCell_ne_zero_of_one (h.1 i j))
    · exact e
  · rw [← isCompliant_iff_noClash S st]; exact h.2
  · intro s hs
    apply Grid.ext_cell
    intro i j
    exact hs.2.2 i j (h.1 i j)

theorem isSolution_of_full (S : Grid) (st : State) (hc : Cells01 S)
    (hn : ¬ ∃ p q, Clash S p q) (hfull : ∀ i j : Fin 9, S.cell i j ≠ 0) :
    (isSolution S st).1 = true := by
  rw [isSolution_true_iff]
  exact ⟨fun i j => (hc.fixed_iff i j).2 (hfull i j), (isCompliant_iff_noClash S st).2 hn⟩

/-! ## The trial assignments -/

theorem noClash_put (S : Grid) (i j : Fin 9) (k : Nat)
    (hn : ¬ ∃ p q, Clash S p q) (hz : S.cell i j = 0)
    (hbit : (optCell S i j).testBit k = true) : ¬ ∃ p q, Clash (S.put i j (1 <<< k)) p q := by
  have hunits : ¬ ∃ q : Fin 9 × Fin 9, SameUnit (i, j) q ∧ (S.cell q.1 q.2).testBit k = true := by
    unfold optCell at hbit
    rw [if_neg (by simp [hz]), testBit_maskNot] at hbit
    rw [← testBit_units, hbit.2]
    decide
  have key : ∀ q : Fin 9 × Fin 9, q ≠ (i, j) → SameUnit (i, j) q →
      S.cell q.1 q.2 ≠ 1 <<< k := by
    intro q _ hu e
    apply hunits
    exact ⟨q, hu, by rw [e, testBit_shift_iff]⟩
  rintro ⟨p, q, h1, h2, h3, h4, h5⟩
  by_cases hp : p = (i, j)
  · subst hp
    have hq : (q.1, q.2) ≠ (i, j) := fun e => h1 e.symm
    simp only [Grid.cell_put_same] at h5
    rw [Grid.cell_put_other _ _ _ _ _ _ hq] at h5
    exact key q hq h2 h5.symm
  · have hp1 : (p.1, p.2) ≠ (i, j) := hp
    by_cases hq : q = (i, j)
    · subst hq
      simp only [Grid.cell_put_same] at h5
      rw [Grid.cell_put_other _ _ _ _ _ _ hp1] at h5
      exact key p hp h2.symm h5
    · have hq1 : (q.1, q.2) ≠ (i, j) := hq
      rw [Grid.cell_put_other _ _ _ _ _ _ hp1] at h3 h5
      rw [Grid.cell_put_other _ _ _ _ _ _ hq1] at h4 h5
      exact hn ⟨p, q, h1, h2, h3, h4, h5⟩

theorem completion_put_iff (S s : Grid) (i j : Fin 9) (k : Nat) (hk : k < 9)
    (hz : S.cell i j = 0) :
    Completion (S.put i j (1 <<< k)) s ↔ Completion S s ∧ s.cell i j = 1 <<< k := by
  constructor
  · intro hs
    refine ⟨⟨hs.1, hs.2.1, ?_⟩, ?_⟩
    · intro a b h
      have hab : (a, b) ≠ (i, j) := by
        intro e
        obtain ⟨rfl, rfl⟩ := Prod.mk.inj e
        rw [hz, digitsInCell_zero] at h
        exact absurd h (by decide)
      have := hs.2.2 a b (by rw [Grid.cell_put_other _ _ _ _ _ _ hab]; exact h)
      rw [this, Grid.cell_put_other _ _ _ _ _ _ hab]
    · have := hs.2.2 i j (by rw [Grid.cell_put_same]; exact digitsInCell_shift k hk)
      rw [this, Grid.cell_put_same]
  · rintro ⟨hs, hd⟩
    refine ⟨hs.1, hs.2.1, ?_⟩
    intro a b h
    by_cases hab : (a, b) = (i, j)
    · obtain ⟨rfl, rfl⟩ := Prod.mk.inj hab
      rw [Grid.cell_put_same, hd]
    · rw [Grid.cell_put_other _ _ _ _ _ _ hab] at h ⊢
      exact hs.2.2 a b h

/-! ## `solveSdk`: every completion is found, and only once -/

/-- The solutions that a call of `solveSdk` writes, for a compliant matrix of unset cells and
single-digit masks: they are different completions of the matrix of the call, and when the
call ends with `numSolRequested >= numCurrentSol` every completion is among them. -/
theorem solveSdk_complete (fuel : Nat) (sdk : Grid) (st : State)
    (res : Int × State × List Event) (h : solveSdk fuel sdk st = .ok res) (hc : Cells01 sdk)
    (hn : ¬ ∃ p q, Clash sdk p q) :
    (solutions res.2.2).Nodup ∧ (∀ s ∈ solutions res.2.2, Completion sdk s) ∧
    (res.2.1.numCurrentSol ≤ st.numSolRequested →
      ∀ s, Completion sdk s → s ∈ solutions res.2.2) := by
  induction fuel generalizing sdk st res with
  | zero => simp [solveSdk] at h
  | succ fuel ih =>
    obtain ⟨numOptions, O, S, st2, hp, hcase⟩ := solveSdk_cases fuel sdk st res h
    obtain ⟨hcS, hnS, hiff⟩ := propagate_inv _ _ _ _ _ _ _ _ hc hn hp
    obtain ⟨_, p1, p2, _, _⟩ := propagate_basic _ _ _ _ _ _ _ _ hp
    simp only at p1 p2
    obtain ⟨_, ⟨O0, hnum, hO⟩, hone⟩ := propagate_rule (fun _ _ => True)
      (fun _ _ _ _ _ => trivial) _ _ _ _ _ _ _ _ trivial hp
    rcases hcase with ⟨_, hsol, rfl⟩ | ⟨hleaf, hsol, rfl⟩ |
      ⟨hleaf, i, j, r, st3, out, hsc, ht, rfl⟩
    · obtain ⟨c1, c2⟩ := completion_of_isSolution S st2 hcS hsol
      simp only [solutions]
      refine ⟨List.nodup_singleton _, ?_, ?_⟩
      · intro s hs
        rw [List.mem_singleton] at hs
        rw [hs, hiff]; exact c1
      · intro _ s hs
        rw [List.mem_singleton]
        exact c2 s ((hiff s).1 hs)
    · simp only [solutions]
      refine ⟨List.nodup_nil, fun s hs => absurd hs (List.not_mem_nil _), ?_⟩
      intro _ s hs
      exfalso
      have hs1 := (hiff s).1 hs
      rcases hleaf with h0 | h1 | h10
      · rw [hnum] at h0
        exact no_completion_of_min_zero S O0 hcS h0 ⟨s, hs1⟩
      · have := hone h1
        rw [hO] at this
        exact no_completion_of_not_compliant S O0 _ hcS this ⟨s, hs1⟩
      · rw [hnum, setOptions_notset_iff] at h10
        have := isSolution_of_full S st2 hcS hnS h10
        rw [hsol] at this
        exact absurd this (by decide)
    · rw [hnum] at hleaf
      obtain ⟨hex, hnot, _⟩ := default_branch S O0 hleaf
      rw [← hO] at hnot hex
      have hij : 2 ≤ digitsInCell (O.cell i j) := by
        obtain ⟨p, hsc1, hp2, _⟩ := scanLoop_first O hex
        rw [hsc] at hsc1
        simp only [Option.some.injEq, Prod.mk.injEq] at hsc1
        have e1 : i = p.1 := Fin.ext hsc1.1
        have e2 : j = p.2 := Fin.ext hsc1.2
        rw [e1, e2]; exact hp2
      have hz : S.cell i j = 0 := by
        by_contra hne
        exact hnot i j hij ((hcS.fixed_iff i j).2 hne)
      have hOij : O.cell i j = optCell S i j := by rw [hO, setOptions_cell]
      have hr := trialLoop_rule (solveSdk fuel) (O.cell i j) i j
        (fun k sudoku _ s out => (∀ v, sudoku.put i j v = S.put i j v) ∧
          s.numSolRequested = st.numSolRequested ∧
          (solutions out).Nodup ∧
          (∀ x ∈ solutions out, Completion S x ∧ ∃ d, d < k ∧ x.cell i j = 1 <<< d) ∧
          (s.numCurrentSol ≤ s.numSolRequested → ∀ x, Completion S x →
            (∃ d, d < k ∧ x.cell i j = 1 <<< d) → x ∈ solutions out))
        ?_ ?_ MAXDIGITS 0 S 0 st2 [] (r, st3, out) rfl
        ⟨fun _ => rfl, p1, by simp [solutions], by simp [solutions], by
          rintro _ x _ ⟨d, hd, _⟩; omega⟩ ht
      · obtain ⟨k1, sudoku1, _, hinv, hend⟩ := hr
        simp only at hinv hend
        obtain ⟨_, h2, h3, h4, h5⟩ := hinv
        refine ⟨h3, fun s hs => (hiff s).2 (h4 s hs).1, ?_⟩
        intro hle s hs
        simp only at hle
        rcases hend with hend | hend
        · subst hend
          have hs1 := (hiff s).1 hs
          obtain ⟨d, hd⟩ := (hs1.1 i j).exists_digit
          exact h5 (by rw [h2]; exact hle) s hs1 ⟨d.val, d.isLt, hd⟩
        · rw [h2] at hend
          exact absurd hle hend
      · intro k sudoku result s out r1 s1 out1 hk hinv hg hb hs
        obtain ⟨h1, h2, h3, h4, h5⟩ := hinv
        rw [h1] at hs ⊢
        rw [hOij, and_shift_ne_zero_iff] at hb
        obtain ⟨c1, c2, _, _⟩ := solveSdk_counters _ _ _ _ hs
        obtain ⟨g1, g2, g3⟩ := ih _ _ _ hs (cells01_put S i j k hk hcS)
          (noClash_put S i j k hnS hz hb)
        simp only at c1 c2 g1 g2 g3
        simp only [solutions_append, solutions]
        refine ⟨fun v => by rw [Grid.put_put], by rw [c1, h2], ?_, ?_, ?_⟩
        · rw [List.nodup_append]
          refine ⟨h3, g1, ?_⟩
          intro x hx1 hx2
          obtain ⟨_, d, hd, hxd⟩ := h4 x hx1
          have := ((completion_put_iff S x i j k hk hz).1 (g2 x hx2)).2
          rw [hxd] at this
          have := shift_inj_nat this
          omega
        · intro x hx
          rcases List.mem_append.1 hx with hx | hx
          · obtain ⟨e1, d, hd, e2⟩ := h4 x hx
            exact ⟨e1, d, by omega, e2⟩
          · obtain ⟨e1, e2⟩ := (completion_put_iff S x i j k hk hz).1 (g2 x hx)
            exact ⟨e1, k, by omega, e2⟩
        · intro hle x hx ⟨d, hd, hxd⟩
          rw [List.mem_append]
          by_cases hdk : d < k
          · exact Or.inl (h5 hg x hx ⟨d, hdk, hxd⟩)
          · have : d = k := by omega
            subst this
            right
            apply g3 (by rw [c1] at hle; exact hle)
            exact (completion_put_iff S x i j d hk hz).2 ⟨hx, hxd⟩
      · intro k sudoku result s out hk hinv hg hb
        obtain ⟨h1, h2, h3, h4, h5⟩ := hinv
        refine ⟨h1, h2, h3, ?_, ?_⟩
        · intro x hx
          obtain ⟨e1, d, hd, e2⟩ := h4 x hx
          exact ⟨e1, d, by omega, e2⟩
        · intro hle x hx ⟨d, hd, hxd⟩
          by_cases hdk : d < k
          · exact h5 hle x hx ⟨d, hdk, hxd⟩
          · exfalso
            have : d = k := by omega
            subst this
            have := completion_allowed hcS hx i j hz d hk hxd
            rw [← hOij, ← and_shift_ne_zero_iff] at this
            exact this hb

/-! ## The properties of the validation functions -/

/-- C5. `isCompliant` returns true exactly when no two distinct positions of one line, column
or nonet hold cells that are both fixed and equal; so only pairs of fixed cells can make it
return false. -/
theorem isCompliant_characterisation (sdk : Grid) (st : State) :
    (isCompliant sdk st).1 = true ↔ ¬ ∃ p q : Fin 9 × Fin 9, Clash sdk p q :=
  isCompliant_iff_noClash sdk st

/-- C6. When `isCompliant` returns false, `(ierr, jerr)` is the first position in row-major
order whose cell is fixed and equal to another cell of its line, column or nonet, and `main`
reports that position and its cell instead of calling `solveSdk`. -/
theorem isCompliant_reports_first (sdk : Grid) (st : State) (n : Int)
    (h : (isCompliant sdk st).1 = false) :
    ∃ p : Fin 9 × Fin 9,
      (isCompliant sdk st).2.ierr = p.1.val ∧ (isCompliant sdk st).2.jerr = p.2.val ∧
      Offends sdk p ∧ (∀ q : Fin 9 × Fin 9, Before q p → ¬ Offends sdk q) ∧
      main n sdk = MainResult.notCompliant p.1.val p.2.val (sdk.cell p.1 p.2) := by
  have first : ∀ s : State, ∃ p : Fin 9 × Fin 9,
      (isCompliant sdk s).2.ierr = p.1.val ∧ (isCompliant sdk s).2.jerr = p.2.val ∧
      Offends sdk p ∧ (∀ q : Fin 9 × Fin 9, Before q p → ¬ Offends sdk q) := by
    intro s
    have hs : (isCompliantLoop sdk positions (s.ierr, s.jerr)).1 = false := by
      have := isCompliant_fst_indep sdk s st
      rw [h] at this
      exact this
    obtain ⟨l1, p, l2, e1, e2, e3, e4⟩ := isCompliantLoop_false sdk positions _ hs
    refine ⟨p, ?_, ?_, e2, ?_⟩
    · show (isCompliantLoop sdk positions (s.ierr, s.jerr)).2.1 = p.1.val
      rw [e4]
    · show (isCompliantLoop sdk positions (s.ierr, s.jerr)).2.2 = p.2.val
      rw [e4]
    · intro q hq
      have hsorted := positions_sorted
      rw [e1, List.pairwise_append] at hsorted
      have hq1 : q ∈ l1 ++ p :: l2 := by rw [← e1]; exact mem_positions q
      rcases List.mem_append.1 hq1 with hq1 | hq1
      · exact e3 q hq1
      · exfalso
        rcases List.mem_cons.1 hq1 with rfl | hq2
        · exact Before_irrefl _ hq
        · have hpq := (List.pairwise_cons.1 hsorted.2.1).1 q hq2
          unfold Before at hq hpq
          omega
  obtain ⟨p, e1, e2, e3, e4⟩ := first st
  refine ⟨p, e1, e2, e3, e4, ?_⟩
  obtain ⟨p1, f1, f2, f3, f4⟩ := first (State.init n)
  have hp : p1 = p := by
    rcases Before_total p1 p with hb | hb | hb
    · exact absurd f3 (e4 p1 hb)
    · exact hb
    · exact absurd e3 (f4 p hb)
  subst hp
  have hm : (isCompliant sdk (State.init n)).1 = false := by
    rw [isCompliant_fst_indep sdk _ st]; exact h
  unfold main
  simp only [hm, Bool.false_eq_true, if_false, f1, f2]
  congr 1
  unfold Grid.read
  rw [dif_pos ⟨p1.1.isLt, p1.2.isLt⟩]

/-- The witness for C6: in `clashSdk`, with the digit 5 at columns 2 and 7 of line 0. -/
theorem isCompliant_reports_first_witness :
    (isCompliant clashSdk (State.init 1)).1 = false ∧
    ∃ p : Fin 9 × Fin 9,
      (isCompliant clashSdk (State.init 1)).2.ierr = p.1.val ∧
      (isCompliant clashSdk (State.init 1)).2.jerr = p.2.val ∧
      Offends clashSdk p ∧ (∀ q : Fin 9 × Fin 9, Before q p → ¬ Offends clashSdk q) ∧
      main 1 clashSdk = MainResult.notCompliant p.1.val p.2.val (clashSdk.cell p.1 p.2) :=
  ⟨by decide, isCompliant_reports_first clashSdk (State.init 1) 1 (by decide)⟩

/-- C7. For a matrix whose cells are all single-digit masks, `isSolution` returns true exactly
when every line, column and nonet holds each digit once; a compliant such matrix has that
property; and a matrix with a cell that is not fixed is never a solution. -/
theorem isSolution_iff_each_digit_once (G : Grid) (st : State)
    (hfull : ∀ i j : Fin 9, IsMask (G.cell i j)) :
    ((isSolution G st).1 = true ↔ EachDigitOnce G) ∧
    ((isCompliant G st).1 = true → EachDigitOnce G) ∧
    ∀ (H : Grid) (st1 : State), (∃ i j : Fin 9, digitsInCell (H.cell i j) ≠ 1) →
      (isSolution H st1).1 = false := by
  refine ⟨?_, ?_, ?_⟩
  · rw [isSolution_true_iff, isCompliant_iff_noClash]
    constructor
    · intro h; exact eachDigitOnce_of_noClash G hfull h.2
    · intro h
      exact ⟨fun i j => (hfull i j).digits, noClash_of_eachDigitOnce G hfull h⟩
  · intro h
    rw [isCompliant_iff_noClash] at h
    exact eachDigitOnce_of_noClash G hfull h
  · rintro H st1 ⟨i, j, hij⟩
    rcases hs : (isSolution H st1).1 with _ | _
    · rfl
    · rw [isSolution_true_iff] at hs
      exact absurd (hs.1 i j) hij

/-- The witness for C7: the solved Sudoku `solvedSdk`. -/
theorem isSolution_iff_each_digit_once_witness :
    (∀ i j : Fin 9, IsMask (solvedSdk.cell i j)) ∧
    (((isSolution solvedSdk (State.init 1)).1 = true ↔ EachDigitOnce solvedSdk) ∧
    ((isCompliant solvedSdk (State.init 1)).1 = true → EachDigitOnce solvedSdk) ∧
    ∀ (H : Grid) (st1 : State), (∃ i j : Fin 9, digitsInCell (H.cell i j) ≠ 1) →
      (isSolution H st1).1 = false) :=
  ⟨by decide, isSolution_iff_each_digit_once solvedSdk (State.init 1) (by decide)⟩

/-! ## The properties of `setOptions` and `consolidateOpt` -/

set_option maxRecDepth 100000 in
/-- C8, as the specification states it, fails: the first cell of `ambiguousSdk` holds two
candidates, is copied, and so is not the full digit set minus the fixed digits around it. -/
theorem setOptions_cell_rule_fails : ¬ SetOptionsCellRule ambiguousSdk Grid.zero 0 0 := by
  intro h
  have h1 := (h.2 (by decide)).2 2 (by decide)
  have h2 : ((setOptions ambiguousSdk Grid.zero).2.cell 0 0).testBit 2 = false := by decide!
  rw [h2] at h1
  have h3 : ¬ ∃ q : Fin 9 × Fin 9, SameUnit (0, 0) q ∧
      digitsInCell (ambiguousSdk.cell q.1 q.2) = 1 ∧
      (ambiguousSdk.cell q.1 q.2).testBit 2 = true := by
    rintro ⟨q, _, hq, _⟩
    revert hq
    revert q
    decide
  exact absurd (h1.2 h3) (by decide)

/-- C8, amended. For an input whose cells are each unset or fixed, `setOptions` copies a fixed
cell and gives every other cell the full nine-digit set minus the digits of the fixed cells of
its line, column and nonet. -/
theorem setOptions_cell_rule (inSdk outSdk : Grid) (i j : Fin 9) (h : UnsetOrFixed inSdk) :
    SetOptionsCellRule inSdk outSdk i j := by
  constructor
  · intro hfix
    rw [setOptions_cell]
    unfold optCell
    rw [if_pos (digitsInCell_ne_zero_of_one hfix)]
  · intro hnot
    have hz : inSdk.cell i j = 0 := by
      rcases h i j with e | e
      · exact e
      · exact absurd e hnot
    rw [setOptions_cell]
    refine ⟨optCell_zero_lt inSdk i j hz, ?_⟩
    intro d hd
    unfold optCell
    rw [if_neg (by simp [hz]), testBit_maskNot]
    constructor
    · rintro ⟨_, hbit⟩ ⟨q, hu, _, hq⟩
      have := (testBit_units inSdk i j d).2 ⟨q, hu, hq⟩
      rw [hbit] at this
      exact absurd this (by decide)
    · intro hno
      refine ⟨hd, ?_⟩
      by_contra hbit
      apply hno
      have hbit : (sumLin inSdk i ||| sumCol inSdk j |||
          sumNonet inSdk (i.val / 3) (j.val / 3)).testBit d = true := by
        cases hx : (sumLin inSdk i ||| sumCol inSdk j |||
          sumNonet inSdk (i.val / 3) (j.val / 3)).testBit d
        · exact absurd hx hbit
        · rfl
      obtain ⟨q, hu, hq⟩ := (testBit_units inSdk i j d).1 hbit
      refine ⟨q, hu, ?_, hq⟩
      rcases h q.1 q.2 with e | e
      · rw [e, Nat.zero_testBit] at hq; exact absurd hq (by decide)
      · exact e

/-- The witness for C8, amended: the Sudoku of the usage message at position `(0, 0)`. -/
theorem setOptions_cell_rule_witness :
    UnsetOrFixed usageSdk ∧ SetOptionsCellRule usageSdk Grid.zero 0 0 :=
  ⟨by decide, setOptions_cell_rule usageSdk Grid.zero 0 0 (by decide)⟩

/-- C9. For an input whose cells are each unset or fixed, `setOptions` returns `NOTSET` when
every cell is fixed, and otherwise the least number of candidates, at most 9, that an output
cell at a position not fixed in the input has. -/
theorem setOptions_returns_min (inSdk outSdk : Grid) (h : UnsetOrFixed inSdk) :
    ((∀ i j : Fin 9, digitsInCell (inSdk.cell i j) = 1) → (setOptions inSdk outSdk).1 = NOTSET) ∧
    ((∃ i j : Fin 9, digitsInCell (inSdk.cell i j) ≠ 1) →
      (setOptions inSdk outSdk).1 ≤ 9 ∧
      (∃ i j : Fin 9, digitsInCell (inSdk.cell i j) ≠ 1 ∧
        digitsInCell ((setOptions inSdk outSdk).2.cell i j) = (setOptions inSdk outSdk).1) ∧
      ∀ i j : Fin 9, digitsInCell (inSdk.cell i j) ≠ 1 →
        (setOptions inSdk outSdk).1 ≤ digitsInCell ((setOptions inSdk outSdk).2.cell i j)) := by
  have hzero : ∀ i j : Fin 9, digitsInCell (inSdk.cell i j) ≠ 1 ↔ inSdk.cell i j = 0 := by
    intro i j
    constructor
    · intro hne
      rcases h i j with e | e
      · exact e
      · exact absurd e hne
    · intro e; rw [e]; decide
  obtain ⟨h1, h2, h3⟩ := setOptions_min inSdk outSdk
  constructor
  · intro hall
    rw [setOptions_notset_iff]
    intro i j
    exact digitsInCell_ne_zero_of_one (hall i j)
  · rintro ⟨i, j, hij⟩
    have hz := (hzero i j).1 hij
    have hle := h2 i j hz
    have h9 := digitsInCell_le_nine (optCell_zero_lt inSdk i j hz)
    refine ⟨by omega, ?_, ?_⟩
    · rcases h3 with h3 | ⟨a, b, hab, h3⟩
      · rw [h3] at hle; unfold NOTSET at hle; omega
      · exact ⟨a, b, (hzero a b).2 hab, by rw [setOptions_cell, h3]⟩
    · intro a b hab
      rw [setOptions_cell]
      exact h2 a b ((hzero a b).1 hab)

/-- The witness for C9: the Sudoku of the usage message. -/
theorem setOptions_returns_min_witness :
    UnsetOrFixed usageSdk ∧
    (((∀ i j : Fin 9, digitsInCell (usageSdk.cell i j) = 1) →
      (setOptions usageSdk Grid.zero).1 = NOTSET) ∧
    ((∃ i j : Fin 9, digitsInCell (usageSdk.cell i j) ≠ 1) →
      (setOptions usageSdk Grid.zero).1 ≤ 9 ∧
      (∃ i j : Fin 9, digitsInCell (usageSdk.cell i j) ≠ 1 ∧
        digitsInCell ((setOptions usageSdk Grid.zero).2.cell i j)
          = (setOptions usageSdk Grid.zero).1) ∧
      ∀ i j : Fin 9, digitsInCell (usageSdk.cell i j) ≠ 1 →
        (setOptions usageSdk Grid.zero).1
          ≤ digitsInCell ((setOptions usageSdk Grid.zero).2.cell i j))) :=
  ⟨by decide, setOptions_returns_min usageSdk Grid.zero (by decide)⟩

/-- C10, as the specification states it, fails: the first cell of `ambiguousSdk` holds no
fixed value and `oneSdk` has one candidate there, yet `consolidateOpt` does not copy it. -/
theorem consolidateOpt_post_fails : ¬ ConsolidatePost oneSdk ambiguousSdk (State.init 1) := by
  intro h
  have h1 := (h.2 (by decide)).1 0 0
  rw [if_pos (by decide)] at h1
  revert h1
  decide

/-- C10, amended. For a solution matrix whose cells are each unset or fixed: when the options
are not compliant `consolidateOpt` returns 0 and leaves the solution as it is; when they are,
exactly the positions where the solution is unset and the options have one candidate take the
value of the options, and the returned number is the number of those positions.  (The options
are an argument that the function only reads.) -/
theorem consolidateOpt_post (O S : Grid) (st : State) (h : UnsetOrFixed S) :
    ConsolidatePost O S st := by
  have hcopy : ∀ p : Fin 9 × Fin 9,
      toCopy O S p ↔ (S.cell p.1 p.2 = 0 ∧ digitsInCell (O.cell p.1 p.2) = 1) := by
    intro p
    unfold toCopy
    constructor
    · rintro ⟨h1, h2⟩
      rcases h p.1 p.2 with e | e
      · exact ⟨e, h2⟩
      · exact absurd e h1
    · rintro ⟨h1, h2⟩
      exact ⟨by rw [h1]; decide, h2⟩
  constructor
  · exact consolidateOpt_not_compliant O S st
  · intro hc
    obtain ⟨h1, h2⟩ := consolidateOpt_compliant O S st hc
    constructor
    · intro i j
      rw [h1]
      by_cases hif : S.cell i j = 0 ∧ digitsInCell (O.cell i j) = 1
      · rw [if_pos hif, if_pos ((hcopy (i, j)).2 hif)]
      · rw [if_neg hif, if_neg (fun hh => hif ((hcopy (i, j)).1 hh))]
    · rw [h2]
      congr 1
      apply List.filter_congr
      intro p _
      rw [decide_eq_decide]
      exact (hcopy p).symm

/-- The witness for C10, amended: the options that `setOptions` gives for the Sudoku of the
usage message, consolidated into that Sudoku. -/
theorem consolidateOpt_post_witness :
    UnsetOrFixed usageSdk ∧
      ConsolidatePost (setOptions usageSdk Grid.zero).2 usageSdk (State.init 1) :=
  ⟨by decide, consolidateOpt_post _ usageSdk (State.init 1) (by decide)⟩

/-! ## More than `2^31` completions of the empty matrix -/

theorem variantOf_cell (t : Variant) (i j : Fin 9) :
    (variantOf t).cell i j =
      1 <<< (t.2.1 (digitIdx ((baseSdk t.1).cell (linePerm t.2.2.1 i)
        (linePerm t.2.2.2 j)))).val := by
  simp [variantOf, Grid.cell]

set_option maxRecDepth 100000 in
theorem linePerm_fixed : ∀ (u : Fin 72) (i : Fin 9), i.val < 3 → linePerm u i = i := by
  decide!

set_option maxRecDepth 100000 in
theorem linePerm_injective :
    ∀ (u : Fin 72) (i j : Fin 9), linePerm u i = linePerm u j → i = j := by
  decide!

set_option maxRecDepth 100000 in
theorem linePerm_band :
    ∀ (u : Fin 72) (i j : Fin 9), i.val / 3 = j.val / 3 →
      (linePerm u i).val / 3 = (linePerm u j).val / 3 := by
  decide!

set_option maxRecDepth 100000 in
theorem linePerm_surjective : ∀ (u : Fin 72) (x : Fin 9), ∃ i, linePerm u i = x := by
  decide!

set_option maxRecDepth 100000 in
theorem linePerm_ext :
    ∀ u v : Fin 72, (∀ i : Fin 9, linePerm u i = linePerm v i) → u = v := by
  decide!

theorem digitIdx_shift (d : Fin 9) : digitIdx (1 <<< d.val) = d := by
  revert d; decide

theorem digitIdx_inj {a b : Nat} (ha : IsMask a) (hb : IsMask b)
    (h : digitIdx a = digitIdx b) : a = b := by
  obtain ⟨d, rfl⟩ := ha.exists_digit
  obtain ⟨e, rfl⟩ := hb.exists_digit
  rw [digitIdx_shift, digitIdx_shift] at h
  rw [h]

theorem baseSdk_mask : ∀ (k : Bool) (i j : Fin 9), IsMask ((baseSdk k).cell i j) := by
  decide

theorem baseSdk_noClash (k : Bool) : ¬ ∃ p q, Clash (baseSdk k) p q := by
  rw [← isCompliant_iff_noClash (baseSdk k) (State.init 1)]
  cases k <;> decide

theorem baseSdk_anchor :
    ∀ (k : Bool) (i j : Fin 9), (i.val < 3 ∧ j.val < 3) ∨ i.val = 0 ∨ j.val = 0 →
      (baseSdk k).cell i j = solvedSdk.cell i j := by
  decide

theorem digitIdx_block :
    ∀ d : Fin 9, ∃ i j : Fin 9, i.val < 3 ∧ j.val < 3 ∧ digitIdx (solvedSdk.cell i j) = d := by
  decide

/-- Two different places of one line, column or nonet of a solved Sudoku of the family hold
different digits. -/
theorem baseSdk_distinct (k : Bool) (p q : Fin 9 × Fin 9) (hpq : p ≠ q) (hu : SameUnit p q) :
    digitIdx ((baseSdk k).cell p.1 p.2) ≠ digitIdx ((baseSdk k).cell q.1 q.2) := by
  intro h
  have e := digitIdx_inj (baseSdk_mask k p.1 p.2) (baseSdk_mask k q.1 q.2) h
  exact baseSdk_noClash k
    ⟨p, q, hpq, hu, (baseSdk_mask k p.1 p.2).digits, (baseSdk_mask k q.1 q.2).digits, e⟩

/-- Every member of the family is a valid completion of the empty matrix. -/
theorem variantOf_completion (t : Variant) : Completion Grid.zero (variantOf t) := by
  refine ⟨fun i j => ?_, ?_, ?_⟩
  · rw [variantOf_cell]; exact isMask_shift _
  · rintro ⟨p, q, hpq, hu, _, _, heq⟩
    rw [variantOf_cell, variantOf_cell] at heq
    have h1 := t.2.1.injective (Fin.ext (shift_inj_nat heq))
    refine baseSdk_distinct t.1 (linePerm t.2.2.1 p.1, linePerm t.2.2.2 p.2)
      (linePerm t.2.2.1 q.1, linePerm t.2.2.2 q.2) ?_ ?_ h1
    · intro e
      simp only [Prod.mk.injEq] at e
      exact hpq (Prod.ext (linePerm_injective _ _ _ e.1) (linePerm_injective _ _ _ e.2))
    · rcases hu with hu | hu | hu
      · exact Or.inl (by show linePerm t.2.2.1 p.1 = linePerm t.2.2.1 q.1; rw [hu])
      · exact Or.inr (Or.inl (by show linePerm t.2.2.2 p.2 = linePerm t.2.2.2 q.2; rw [hu]))
      · exact Or.inr (Or.inr ⟨linePerm_band _ _ _ hu.1, linePerm_band _ _ _ hu.2⟩)
  · intro i j h
    have : digitsInCell (Grid.zero.cell i j) = 0 := by revert i j; decide
    omega

/-- Different selections give different matrices. -/
theorem variantOf_injective : Function.Injective variantOf := by
  rintro ⟨k, σ, u, v⟩ ⟨k1, σ1, u1, v1⟩ h
  have hcell : ∀ i j : Fin 9,
      σ (digitIdx ((baseSdk k).cell (linePerm u i) (linePerm v j))) =
        σ1 (digitIdx ((baseSdk k1).cell (linePerm u1 i) (linePerm v1 j))) := by
    intro i j
    have e : (variantOf (k, σ, u, v)).cell i j = (variantOf (k1, σ1, u1, v1)).cell i j := by
      rw [h]
    rw [variantOf_cell, variantOf_cell] at e
    exact Fin.ext (shift_inj_nat e)
  have hσ : σ = σ1 := by
    apply Equiv.ext
    intro d
    obtain ⟨i, j, hi, hj, hd⟩ := digitIdx_block d
    have e := hcell i j
    rw [linePerm_fixed u i hi, linePerm_fixed v j hj, linePerm_fixed u1 i hi,
      linePerm_fixed v1 j hj, baseSdk_anchor k i j (Or.inl ⟨hi, hj⟩),
      baseSdk_anchor k1 i j (Or.inl ⟨hi, hj⟩), hd] at e
    exact e
  subst hσ
  have hv : v = v1 := by
    apply linePerm_ext
    intro j
    have e := σ.injective (hcell 0 j)
    rw [linePerm_fixed u 0 (by decide), linePerm_fixed u1 0 (by decide),
      baseSdk_anchor k 0 _ (Or.inr (Or.inl rfl)),
      baseSdk_anchor k1 0 _ (Or.inr (Or.inl rfl))] at e
    by_contra hne
    exact baseSdk_distinct false (0, linePerm v j) (0, linePerm v1 j)
      (fun e1 => hne (Prod.ext_iff.1 e1).2) (Or.inl rfl) e
  have hu : u = u1 := by
    apply linePerm_ext
    intro i
    have e := σ.injective (hcell i 0)
    rw [linePerm_fixed v 0 (by decide), linePerm_fixed v1 0 (by decide),
      baseSdk_anchor k _ 0 (Or.inr (Or.inr rfl)),
      baseSdk_anchor k1 _ 0 (Or.inr (Or.inr rfl))] at e
    by_contra hne
    exact baseSdk_distinct false (linePerm u i, 0) (linePerm u1 i, 0)
      (fun e1 => hne (Prod.ext_iff.1 e1).1) (Or.inr (Or.inl rfl)) e
  subst hv hu
  have hk : k = k1 := by
    obtain ⟨j, hj⟩ := linePerm_surjective v 6
    have e := σ.injective (hcell 1 j)
    rw [linePerm_fixed u 1 (by decide), hj] at e
    revert e
    cases k <;> cases k1 <;> decide
  subst hk
  rfl

/-- The family has 2 * 9! * 72 * 72 = 3762339840 members. -/
theorem card_variant : Fintype.card Variant = 3762339840 := by
  have h9 : Nat.factorial 9 = 362880 := by
    simp only [Nat.factorial]
  have hp : Fintype.card (Equiv.Perm (Fin 9)) = Nat.factorial 9 := by
    rw [Fintype.card_equiv (Equiv.refl (Fin 9)), Fintype.card_fin]
  have h : Fintype.card Variant = 2 * (Nat.factorial 9 * (72 * 72)) := by
    rw [Fintype.card_prod, Fintype.card_prod, Fintype.card_prod, Fintype.card_bool, hp,
      Fintype.card_fin]
  rw [h, h9]

/-- A list that holds every valid completion of the empty matrix has more than `2^31`
entries. -/
theorem completions_zero_many (l : List Grid) (h : ∀ s, Completion Grid.zero s → s ∈ l) :
    3762339840 ≤ l.length := by
  classical
  have hsub : Finset.image variantOf Finset.univ ⊆ l.toFinset :=
    Finset.image_subset_iff.2 fun t _ => List.mem_toFinset.2 (h _ (variantOf_completion t))
  have hcard := Finset.card_le_card hsub
  rw [Finset.card_image_of_injective _ variantOf_injective, Finset.card_univ, card_variant]
    at hcard
  exact le_trans hcard (List.toFinset_card_le l)

/-! ## The properties of `solveSdk` -/

/-- C1. For a matrix of unset cells and single-digit masks and any globals (so any requested
count), `solveSdk` gives a result, and every matrix it writes as a solution passes
`isSolution` (every cell fixed, no clash in a line, column or nonet) and agrees with the
initial matrix on every cell fixed there: it is a valid completion. -/
theorem solveSdk_emits_completions (g : Grid) (st : State) (hg : Cells01 g) :
    ∃ (r : Int) (st1 : State) (out : List Event),
      solveSdk (LIN * COL + 1) g st = .ok (r, st1, out) ∧
      ∀ s ∈ solutions out,
        (∀ st2 : State, (isSolution s st2).1 = true) ∧
        (∀ i j : Fin 9, digitsInCell (s.cell i j) = 1) ∧ (¬ ∃ p q, Clash s p q) ∧
        (∀ i j : Fin 9, digitsInCell (g.cell i j) = 1 → s.cell i j = g.cell i j) ∧
        Completion g s := by
  obtain ⟨⟨r, st1, out⟩, hrun⟩ := solveSdk_total (LIN * COL + 1) g st
    (by have := nonFixed_le g; simp only [LIN, COL]; omega)
  refine ⟨r, st1, out, hrun, ?_⟩
  intro s hs
  obtain ⟨h1, h2, h3⟩ := solveSdk_sound _ _ _ _ hrun hg s hs
  have hsol := h1 st
  rw [isSolution_true_iff, isCompliant_iff_noClash] at hsol
  have hagree : ∀ i j : Fin 9, digitsInCell (g.cell i j) = 1 → s.cell i j = g.cell i j :=
    fun i j hfix => h3 i j (digitsInCell_ne_zero_of_one hfix)
  refine ⟨h1, hsol.1, hsol.2, hagree, ?_, hsol.2, hagree⟩
  intro i j
  rcases h2 i j with e | e
  · exact absurd e (digitsInCell_ne_zero_of_one (hsol.1 i j))
  · exact e

/-- The witness for C1: the Sudoku of the usage message with three solutions requested. -/
theorem solveSdk_emits_completions_witness :
    Cells01 usageSdk ∧
    ∃ (r : Int) (st1 : State) (out : List Event),
      solveSdk (LIN * COL + 1) usageSdk (State.init 3) = .ok (r, st1, out) ∧
      ∀ s ∈ solutions out,
        (∀ st2 : State, (isSolution s st2).1 = true) ∧
        (∀ i j : Fin 9, digitsInCell (s.cell i j) = 1) ∧ (¬ ∃ p q, Clash s p q) ∧
        (∀ i j : Fin 9, digitsInCell (usageSdk.cell i j) = 1 →
          s.cell i j = usageSdk.cell i j) ∧
        Completion usageSdk s :=
  ⟨by decide, solveSdk_emits_completions usageSdk (State.init 3) (by decide)⟩

/-- On the empty matrix with 2147483647 solutions requested, the largest `int`, the guard
`numSolRequested >= numCurrentSol` of the candidate loop holds whatever `numCurrentSol` is, so
the run writes every valid completion: more than 2147483647 solutions. -/
theorem solveSdk_zero_exceeds :
    ∃ (r : Int) (st1 : State) (out : List Event),
      solveSdk (LIN * COL + 1) Grid.zero (State.init 2147483647) = .ok (r, st1, out) ∧
      (State.init 2147483647).numSolRequested < ((solutions out).length : Int) := by
  obtain ⟨⟨r, st1, out⟩, hrun⟩ := solveSdk_total (LIN * COL + 1) Grid.zero
    (State.init 2147483647) (by have := nonFixed_le Grid.zero; simp only [LIN, COL]; omega)
  have hcomp : ¬ ∃ p q, Clash Grid.zero p q := by
    rw [← isCompliant_iff_noClash Grid.zero (State.init 1)]; decide
  obtain ⟨_, _, h3⟩ := solveSdk_complete _ _ _ _ hrun (by decide) hcomp
  obtain ⟨_, c2, _, _⟩ := solveSdk_counters _ _ _ _ hrun
  have hcur : (State.init 2147483647).numCurrentSol = 1 := rfl
  have hreq : (State.init 2147483647).numSolRequested = 2147483647 := rfl
  simp only at h3 c2
  rw [hcur] at c2
  rw [hreq] at h3 ⊢
  have hmany := completions_zero_many (solutions out) (h3 (c2 (by omega)))
  exact ⟨r, st1, out, hrun, by omega⟩

set_option maxRecDepth 100000 in
/-- The increment `numCurrentSol++` at its limit: on `branchSdk` with
`numCurrentSol = numSolRequested = 2147483647`, the first trial (digit 1 for cell `[3, 1]`)
writes a solution and leaves `numCurrentSol = -2147483648`; the guard of the candidate loop
still holds, the second trial (digit 7) is made, and the call returns its 0. -/
theorem solveSdk_wraps_around :
    ∃ (st1 : State) (out : List Event),
      solveSdk (LIN * COL + 1) branchSdk lastIntState = .ok (0, st1, out) ∧
      st1.numCurrentSol = -2147483648 ∧ (trialStates out).length = 2 ∧
      solutions out = [solvedSdk] := by
  have key : (match solveSdk (LIN * COL + 1) branchSdk lastIntState with
      | .ok x => decide (x.1 = 0 ∧ x.2.1.numCurrentSol = -2147483648 ∧
          (trialStates x.2.2).length = 2 ∧ solutions x.2.2 = [solvedSdk])
      | .error _ => false) = true := by decide!
  rcases hrun : solveSdk (LIN * COL + 1) branchSdk lastIntState with e | ⟨r, st1, out⟩
  · rw [hrun] at key
    exact absurd key (by simp)
  · rw [hrun] at key
    simp only [decide_eq_true_eq] at key
    exact ⟨st1, out, by rw [key.1], key.2⟩

/-- C2, as the specification states it, fails for the requested count 2147483647 on the
empty matrix, which is compliant and has more than 2147483647 valid completions:
`numCurrentSol` is an `int`, so the guard `numSolRequested >= numCurrentSol` never fails and
the run writes more than the `min n m = 2147483647` solutions of the claim. -/
theorem solveSdk_enumerates_fails :
    Cells01 Grid.zero ∧ (isCompliant Grid.zero (State.init 2147483647)).1 = true ∧
    (State.init 2147483647).numCurrentSol = 1 ∧
    1 ≤ (State.init 2147483647).numSolRequested ∧
    ¬ Enumerates Grid.zero (State.init 2147483647) ∧
    ∃ (r : Int) (st1 : State) (out : List Event),
      solveSdk (LIN * COL + 1) Grid.zero (State.init 2147483647) = .ok (r, st1, out) ∧
      (2147483647 : Int) < ((solutions out).length : Int) ∧
      ∀ m : Int, ((solutions out).length : Int) ≠ min 2147483647 m := by
  obtain ⟨r, st1, out, hrun, hgt⟩ := solveSdk_zero_exceeds
  have hreq : (State.init 2147483647).numSolRequested = 2147483647 := rfl
  rw [hreq] at hgt
  refine ⟨by decide, by decide, rfl, by decide, ?_, r, st1, out, hrun, hgt, ?_⟩
  swap
  · intro m hm
    have := min_le_left (2147483647 : Int) m
    omega
  rintro ⟨r1, st2, out1, hrun1, _, _, hle, _⟩
  rw [hrun] at hrun1
  simp only [Except.ok.injEq, Prod.mk.injEq] at hrun1
  rw [← hrun1.2.2, hreq] at hle
  omega

/-- C2, amended. For a compliant matrix of unset cells and single-digit masks, with `n`
solutions requested, `1 <= n <= 2147483646`, and `numCurrentSol` starting at 1, `solveSdk`
gives a result and the solutions it writes are different valid completions, at most `n` of
them, and all of them when fewer than `n` are written; so when the matrix has exactly `m`
valid completions (those of a list `L` without repetition), exactly `min n m` solutions are
written, and with `m <= n` every valid completion is written. -/
theorem solveSdk_enumerates (g : Grid) (st : State) (hg : Cells01 g)
    (hcomp : (isCompliant g st).1 = true) (hcur : st.numCurrentSol = 1)
    (hn : 1 ≤ st.numSolRequested) (hmax : st.numSolRequested ≤ 2147483646) :
    Enumerates g st := by
  obtain ⟨⟨r, st1, out⟩, hrun⟩ := solveSdk_total (LIN * COL + 1) g st
    (by have := nonFixed_le g; simp only [LIN, COL]; omega)
  rw [isCompliant_iff_noClash] at hcomp
  obtain ⟨h1, h2, h3⟩ := solveSdk_complete _ _ _ _ hrun hg hcomp
  obtain ⟨c1, _, _, c4⟩ := solveSdk_counters _ _ _ _ hrun
  obtain ⟨c2, c4⟩ := c4 (by omega) (by omega) (by omega)
  simp only at h1 h2 h3 c1 c2 c4
  have hle : ((solutions out).length : Int) ≤ st.numSolRequested := by
    rcases c4 with c4 | c4
    · omega
    · omega
  have hall : ((solutions out).length : Int) < st.numSolRequested →
      ∀ s, Completion g s → s ∈ solutions out := by
    intro hlt
    exact h3 (by omega)
  refine ⟨r, st1, out, hrun, h1, h2, hle, hall, ?_⟩
  intro L hL hLc
  have hsub : solutions out ⊆ L := fun s hs => (hLc s).2 (h2 s hs)
  have hsp : (solutions out).Subperm L := List.subperm_of_subset h1 hsub
  have hlen : (solutions out).length ≤ L.length := hsp.length_le
  have key : (L.length : Int) ≤ st.numSolRequested → ∀ s, Completion g s → s ∈ solutions out := by
    intro hm s hs
    by_cases hlt : ((solutions out).length : Int) < st.numSolRequested
    · exact hall hlt s hs
    · have hperm := hsp.perm_of_length_le (by omega)
      exact hperm.symm.subset ((hLc s).2 hs)
  refine ⟨?_, key⟩
  by_cases hlt : ((solutions out).length : Int) < st.numSolRequested
  · have hLsub : L ⊆ solutions out := fun s hs => hall hlt s ((hLc s).1 hs)
    have := (List.subperm_of_subset hL hLsub).length_le
    rw [min_def]
    split_ifs <;> omega
  · rw [min_def]
    split_ifs <;> omega

/-- The witness for C2, amended: the empty Sudoku with one solution requested; `solvedSdk` is
one of its completions, so exactly one solution is written. -/
theorem solveSdk_enumerates_witness :
    Cells01 Grid.zero ∧ (isCompliant Grid.zero (State.init 1)).1 = true ∧
    (State.init 1).numCurrentSol = 1 ∧ 1 ≤ (State.init 1).numSolRequested ∧
    (State.init 1).numSolRequested ≤ 2147483646 ∧
    Enumerates Grid.zero (State.init 1) ∧
    ∃ (r : Int) (st1 : State) (out : List Event),
      solveSdk (LIN * COL + 1) Grid.zero (State.init 1) = .ok (r, st1, out) ∧
      (solutions out).Nodup ∧ (∀ s ∈ solutions out, Completion Grid.zero s) ∧
      (solutions out).length = 1 := by
  have henum := solveSdk_enumerates Grid.zero (State.init 1) (by decide) (by decide) rfl
    (by decide) (by decide)
  refine ⟨by decide, by decide, rfl, by decide, by decide, henum, ?_⟩
  obtain ⟨r, st1, out, hrun, h1, h2, h3, h4, _⟩ := henum
  refine ⟨r, st1, out, hrun, h1, h2, ?_⟩
  have hreq : (State.init 1).numSolRequested = 1 := rfl
  rw [hreq] at h3 h4
  have hsolved : Completion Grid.zero solvedSdk := by
    refine ⟨by decide, ?_, ?_⟩
    · rw [← isCompliant_iff_noClash solvedSdk (State.init 1)]; decide
    · intro i j h
      have : digitsInCell (Grid.zero.cell i j) = 0 := by revert i j; decide
      omega
  by_contra hne
  have hlt : ((solutions out).length : Int) < 1 := by omega
  have hmem := h4 hlt solvedSdk hsolved
  have : (solutions out).length ≠ 0 := by
    intro e
    rw [List.length_eq_zero.1 e] at hmem
    exact absurd hmem (List.not_mem_nil _)
  omega

set_option maxRecDepth 100000 in
/-- C3, as the specification states it, fails for the requested count 0, where the first
call writes one solution on a matrix that is already solved, and for the requested count
2147483647, where the run on the empty matrix writes more than 2147483647 solutions. -/
theorem requested_bound_fails :
    ¬ RequestedBound solvedSdk (State.init 0) ∧
    ¬ RequestedBound Grid.zero (State.init 2147483647) := by
  constructor
  · rintro ⟨r, st1, out, hrun, hlen, _⟩
    have key : (match solveSdk (LIN * COL + 1) solvedSdk (State.init 0) with
        | .ok x => (solutions x.2.2).length
        | .error _ => 0) = 1 := by decide!
    rw [hrun] at key
    simp only at key
    have hreq : (State.init 0).numSolRequested = 0 := rfl
    rw [hreq, key] at hlen
    omega
  · rintro ⟨r, st1, out, hrun, hlen, _⟩
    obtain ⟨r1, st2, out1, hrun1, hgt⟩ := solveSdk_zero_exceeds
    rw [hrun] at hrun1
    simp only [Except.ok.injEq, Prod.mk.injEq] at hrun1
    rw [← hrun1.2.2] at hgt
    omega

/-- C3, amended. For every matrix and every requested count `n` with
`1 <= n <= 2147483646`, in a run that starts with `numCurrentSol = 1`, `solveSdk` gives a
result, writes at most `n` solutions, and starts every trial branch with fewer than `n`
solutions found. -/
theorem requested_bound (g : Grid) (st : State) (hcur : st.numCurrentSol = 1)
    (hn : 1 ≤ st.numSolRequested) (hmax : st.numSolRequested ≤ 2147483646) :
    RequestedBound g st := by
  obtain ⟨⟨r, st1, out⟩, hrun⟩ := solveSdk_total (LIN * COL + 1) g st
    (by have := nonFixed_le g; simp only [LIN, COL]; omega)
  obtain ⟨c1, _, c3, c4⟩ := solveSdk_counters _ _ _ _ hrun
  obtain ⟨c2, c4⟩ := c4 (by omega) (by omega) (by omega)
  simp only at c1 c2 c3 c4
  refine ⟨r, st1, out, hrun, ?_, ?_⟩
  · rcases c4 with c4 | c4
    · omega
    · omega
  · intro t ht
    obtain ⟨e1, e2⟩ := c3 t ht
    omega

/-- The witness for C3, amended: the Sudoku of the usage message, three solutions requested. -/
theorem requested_bound_witness :
    (State.init 3).numCurrentSol = 1 ∧ 1 ≤ (State.init 3).numSolRequested ∧
      (State.init 3).numSolRequested ≤ 2147483646 ∧
      RequestedBound usageSdk (State.init 3) :=
  ⟨rfl, by decide, by decide,
    requested_bound usageSdk (State.init 3) rfl (by decide) (by decide)⟩

set_option maxRecDepth 100000 in
/-- C4. On `branchSdk` with two solutions requested, `solveSdk` writes one solution (in the
trial of digit 1 for cell `[3, 1]`) and returns 0, the value of its last trial (digit 7). -/
theorem solveSdk_returns_last_trial :
    ∃ (st1 : State) (out : List Event),
      solveSdk (LIN * COL + 1) branchSdk (State.init 2) = .ok (0, st1, out) ∧
      solutions out = [solvedSdk] := by
  have key : (match solveSdk (LIN * COL + 1) branchSdk (State.init 2) with
      | .ok x => decide (x.1 = 0 ∧ solutions x.2.2 = [solvedSdk])
      | .error _ => false) = true := by decide!
  rcases hrun : solveSdk (LIN * COL + 1) branchSdk (State.init 2) with e | ⟨r, st1, out⟩
  · rw [hrun] at key
    exact absurd key (by simp)
  · rw [hrun] at key
    simp only [decide_eq_true_eq] at key
    exact ⟨st1, out, by rw [key.1], key.2⟩

/-! ## `consolidateOpt` a second time -/

theorem consolidateOpt_again (O S : Grid) (st st1 : State) :
    (consolidateOpt O (consolidateOpt O S st).2.1 st1).1 = 0 ∧
    (consolidateOpt O (consolidateOpt O S st).2.1 st1).2.1 = (consolidateOpt O S st).2.1 := by
  have hz : (consolidateOpt O (consolidateOpt O S st).2.1 st1).1 = 0 := by
    by_contra hne
    obtain ⟨hc, a, b, h0, h1⟩ := consolidateOpt_pos _ _ _ hne
    have hc1 : (isCompliant O st).1 = true := by rw [isCompliant_fst_indep O st st1]; exact hc
    rw [(consolidateOpt_compliant O S st hc1).1] at h0
    by_cases hif : S.cell a b = 0 ∧ digitsInCell (O.cell a b) = 1
    · rw [if_pos hif] at h0
      exact digitsInCell_ne_zero_of_one h1 h0
    · rw [if_neg hif] at h0
      exact hif ⟨h0, h1⟩
  exact ⟨hz, (consolidateOpt_zero _ _ _ hz).1⟩

theorem consolidateOpt_fst_indep (O S : Grid) (st st1 : State) :
    (consolidateOpt O S st).1 = (consolidateOpt O S st1).1 := by
  unfold consolidateOpt
  simp only [isCompliant_fst_indep O st st1]
  split_ifs <;> rfl

/-! ## `digitsInCell` counts the bits -/

theorem digitsLoop_eq (fuel c d : Nat) (h : c ≤ fuel) :
    digitsLoop fuel c d = d + onesInBinary c := by
  induction fuel generalizing c d with
  | zero =>
    have : c = 0 := by omega
    subst this
    simp [digitsLoop, onesInBinary]
  | succ fuel ih =>
    unfold digitsLoop
    by_cases hc : c ≠ 0
    · rw [if_pos hc, ih _ _ (by rw [Nat.shiftRight_eq_div_pow]; simp only [pow_one]; omega)]
      unfold onesInBinary
      rw [Nat.digits_def' (by decide) (Nat.pos_of_ne_zero hc), List.count_cons,
        Nat.shiftRight_eq_div_pow, pow_one, Nat.and_one_is_mod]
      have h2 : c % 2 = 0 ∨ c % 2 = 1 := by omega
      rcases h2 with h2 | h2
      · simp [h2]
      · simp [h2]; omega
    · rw [if_neg hc]
      have : c = 0 := not_not.1 hc
      subst this
      simp [onesInBinary]

theorem digitsInCell_eq_ones (c : Nat) : digitsInCell c = onesInBinary c := by
  unfold digitsInCell
  rw [digitsLoop_eq c c 0 (le_refl c)]
  omega

/-! ## The range of the candidate counts -/

theorem optCell_lt (G : Grid) (h : ∀ i j : Fin 9, G.cell i j < 512) (i j : Fin 9) :
    optCell G i j < 512 := by
  by_cases hz : G.cell i j = 0
  · exact optCell_zero_lt G i j hz
  · unfold optCell
    rw [if_pos hz]
    exact h i j

/-! ## `solveSdk`: the branch taken after the loop -/

/-- The result of a call whose loop ends with 0, 1 or `NOTSET`. -/
theorem solveSdk_leaf (fuel : Nat) (sdk : Grid) (st : State) (numOptions : Nat)
    (O S : Grid) (st2 : State)
    (hloop : propagate (LIN * COL + 1) sdk Grid.zero
      { st with recLevel := st.recLevel + 1, numAttempts := wrapInt (st.numAttempts + 1) }
      = some (numOptions, O, S, st2))
    (hleaf : numOptions = 0 ∨ numOptions = 1 ∨ numOptions = NOTSET) :
    solveSdk (fuel + 1) sdk st =
      if (isSolution S st2).1 = true then
        .ok (1, { (isSolution S st2).2 with
                    numCurrentSol := wrapInt ((isSolution S st2).2.numCurrentSol + 1),
                    recLevel := (isSolution S st2).2.recLevel - 1 },
          [Event.solution (isSolution S st2).2.numCurrentSol
            (isSolution S st2).2.numAttempts S])
      else .ok (0, { (isSolution S st2).2 with
                      recLevel := (isSolution S st2).2.recLevel - 1 }, []) := by
  unfold solveSdk
  simp only [hloop, if_pos hleaf]

/-- The output of a call whose loop ends in the default branch is empty or starts with a
`trial` event. -/
theorem trialLoop_output (solve : Grid → State → Outcome) (cellOpt : Nat) (i j : Fin 9)
    (todo opc : Nat) (sudoku : Grid) (result : Int) (st : State) (out : List Event)
    (res : Int × State × List Event)
    (h : trialLoop solve cellOpt i j todo opc sudoku result st out = .ok res) :
    ∃ more, res.2.2 = out ++ more ∧
      (more = [] ∨ ∃ t a b c m rest, more = Event.trial t a b c m :: rest) := by
  induction todo generalizing opc sudoku result st out with
  | zero =>
    simp only [trialLoop, Except.ok.injEq] at h
    subst h
    exact ⟨[], by simp, Or.inl rfl⟩
  | succ todo ih =>
    unfold trialLoop at h
    by_cases hg : st.numSolRequested ≥ st.numCurrentSol
    · rw [if_pos hg] at h
      by_cases hb : cellOpt &&& opc ≠ 0
      · rw [if_pos hb] at h
        rcases hs : solve (sudoku.put i j opc) st with e | ⟨r, st1, out1⟩
        · rw [hs] at h; simp at h
        · rw [hs] at h
          obtain ⟨more, h1, _⟩ := ih _ _ _ _ _ h
          refine ⟨Event.trial st i.val j.val opc (sudoku.put i j opc) :: out1 ++ more, ?_,
            Or.inr ⟨_, _, _, _, _, _, rfl⟩⟩
          rw [h1]; simp
      · rw [if_neg hb] at h
        exact ih _ _ _ _ _ h
    · rw [if_neg hg] at h
      simp only [Except.ok.injEq] at h
      subst h
      exact ⟨[], by simp, Or.inl rfl⟩

/-- The candidate loop fails only with a failure of a recursive call. -/
theorem trialLoop_error (solve : Grid → State → Outcome) (cellOpt : Nat) (i j : Fin 9)
    (e : Fault) (hsolve : ∀ (g : Grid) (s : State), solve g s ≠ .error e)
    (todo opc : Nat) (sudoku : Grid) (result : Int) (st : State) (out : List Event) :
    trialLoop solve cellOpt i j todo opc sudoku result st out ≠ .error e := by
  induction todo generalizing opc sudoku result st out with
  | zero => simp [trialLoop]
  | succ todo ih =>
    unfold trialLoop
    by_cases hg : st.numSolRequested ≥ st.numCurrentSol
    · rw [if_pos hg]
      by_cases hb : cellOpt &&& opc ≠ 0
      · rw [if_pos hb]
        rcases hs : solve (sudoku.put i j opc) st with e1 | ⟨r, st1, out1⟩
        · simp only
          intro he
          apply hsolve (sudoku.put i j opc) st
          rw [hs, ← he]
        · exact ih _ _ _ _ _
      · rw [if_neg hb]
        exact ih _ _ _ _ _
    · rw [if_neg hg]; simp

/-- What the loop leaves: the minimum and the options are those of `setOptions` on the
working matrix. -/
theorem propagate_options (fuel : Nat) (sdk options : Grid) (st : State) (numOptions : Nat)
    (O S : Grid) (st1 : State)
    (h : propagate fuel sdk options st = some (numOptions, O, S, st1)) :
    (∃ O0, numOptions = (setOptions S O0).1 ∧ O = (setOptions S O0).2) ∧
      (numOptions = 1 → ∀ s : State, (isCompliant O s).1 = false) := by
  obtain ⟨_, h1, h2⟩ := propagate_rule (fun _ _ => True) (fun _ _ _ _ _ => trivial)
    _ _ _ _ _ _ _ _ trivial h
  refine ⟨h1, fun hn s => ?_⟩
  rw [isCompliant_fst_indep O s st]
  exact h2 hn

/-- The search of the default branch ends inside the matrix, at the first cell with at least
two candidates. -/
theorem scan_default (fuel : Nat) (sdk options : Grid) (st : State) (numOptions : Nat)
    (O S : Grid) (st1 : State)
    (h : propagate fuel sdk options st = some (numOptions, O, S, st1))
    (hdef : ¬ (numOptions = 0 ∨ numOptions = 1 ∨ numOptions = NOTSET)) :
    ∃ p : Fin 9 × Fin 9, scanLoop O (LIN * COL) 0 0 = some (p.1.val, p.2.val) ∧
      2 ≤ digitsInCell (O.cell p.1 p.2) ∧
      (∀ q : Fin 9 × Fin 9, Before q p → digitsInCell (O.cell q.1 q.2) < 2) ∧
      digitsInCell (S.cell p.1 p.2) ≠ 1 ∧
      (∀ q : Fin 9 × Fin 9, Before q p → S.cell q.1 q.2 ≠ 0) := by
  obtain ⟨⟨O0, hn, hO⟩, _⟩ := propagate_options _ _ _ _ _ _ _ _ h
  rw [hn] at hdef
  obtain ⟨hex, hnot, hzero⟩ := default_branch S O0 hdef
  rw [← hO] at hex hnot hzero
  obtain ⟨p, h1, h2, h3⟩ := scanLoop_first O hex
  refine ⟨p, h1, h2, h3, hnot _ _ h2, ?_⟩
  intro q hq hz
  have := hzero _ _ hz
  have := h3 q hq
  omega

theorem solveSdk_no_bounds_fault (fuel : Nat) (sdk : Grid) (st : State) :
    solveSdk fuel sdk st ≠ .error Fault.bounds := by
  induction fuel generalizing sdk st with
  | zero => simp [solveSdk]
  | succ fuel ih =>
    unfold solveSdk
    simp only
    rcases hp : propagate (LIN * COL + 1) sdk Grid.zero
        { st with recLevel := st.recLevel + 1, numAttempts := wrapInt (st.numAttempts + 1) }
      with _ | ⟨numOptions, O, S, st2⟩
    · simp
    · simp only
      by_cases hleaf : numOptions = 0 ∨ numOptions = 1 ∨ numOptions = NOTSET
      · rw [if_pos hleaf]
        split_ifs <;> simp
      · rw [if_neg hleaf]
        obtain ⟨p, hsc, _⟩ := scan_default _ _ _ _ _ _ _ _ hp hleaf
        rw [hsc]
        simp only
        rw [dif_pos ⟨p.1.isLt, p.2.isLt⟩]
        have ht := trialLoop_error (solveSdk fuel) (O.cell p.1 p.2) p.1 p.2 Fault.bounds
          (fun g s => ih g s) MAXDIGITS 1 S 0 st2 []
        rcases hr : trialLoop (solveSdk fuel) (O.cell p.1 p.2) p.1 p.2 MAXDIGITS 1 S 0 st2 []
          with e | ⟨r, st3, out⟩
        · rw [hr] at ht
          simp only [Fin.eta, hr]
          intro he
          apply ht
          rw [← he]
        · simp only [Fin.eta, hr]
          simp

/-- The loop passes that go on fix a cell. -/
theorem consolidate_fixes (S O0 : Grid) (st : State)
    (h : (consolidateOpt (setOptions S O0).2 S st).1 ≠ 0) :
    nonFixed (consolidateOpt (setOptions S O0).2 S st).2.1 < nonFixed S := by
  obtain ⟨hc, a, b, hz, hd⟩ := consolidateOpt_pos _ _ _ h
  have hcell := consolidateOpt_cell (setOptions S O0).2 S st
  unfold nonFixed
  apply filter_length_lt_of_imp _ _ _ _ (a, b) (mem_positions _)
  · simp only [decide_eq_true_eq]
    rw [hz]; decide
  · simp only [decide_eq_false_iff_not, not_not]
    rw [(consolidateOpt_compliant _ _ _ hc).1, if_pos ⟨hz, hd⟩]
    exact hd
  · intro p _ hp
    simp only [decide_eq_true_eq] at hp ⊢
    rcases hcell p.1 p.2 with e | ⟨e0, e1, e⟩
    · rw [← e]; exact hp
    · rw [e0]; decide

/-! ## `solveSdk`: the recursive calls -/

theorem trialCalls_append (a b : List Event) :
    trialCalls (a ++ b) = trialCalls a ++ trialCalls b := by
  induction a with
  | nil => rfl
  | cons e rest ih =>
    cases e with
    | solution k n g => simp [trialCalls, ih]
    | trial st i j opc g => simp [trialCalls, ih]

/-- The recurrence level is restored by a call, and a recursive call made at level
`recLevel` gets a matrix with that many fewer cells that are not fixed. -/
theorem solveSdk_depth (fuel : Nat) (sdk : Grid) (st : State)
    (res : Int × State × List Event) (h : solveSdk fuel sdk st = .ok res) :
    res.2.1.recLevel = st.recLevel ∧
    ∀ x ∈ trialCalls res.2.2, st.recLevel + 1 ≤ x.1.recLevel ∧
      (nonFixed x.2 : Int) + (x.1.recLevel - st.recLevel) ≤ nonFixed sdk := by
  induction fuel generalizing sdk st res with
  | zero => simp [solveSdk] at h
  | succ fuel ih =>
    obtain ⟨numOptions, O, S, st2, hp, hcase⟩ := solveSdk_cases fuel sdk st res h
    obtain ⟨_, _, _, _, p4⟩ := propagate_basic _ _ _ _ _ _ _ _ hp
    simp only at p4
    obtain ⟨_, _, _, s4⟩ := isSolution_state S st2
    have hnf := nonFixed_propagate _ _ _ _ _ _ _ _ hp
    rcases hcase with ⟨_, _, rfl⟩ | ⟨_, _, rfl⟩ | ⟨hleaf, i, j, r, st3, out, hsc, ht, rfl⟩
    · simp only [trialCalls, List.not_mem_nil]
      exact ⟨by rw [s4, p4]; ring, by simp⟩
    · simp only [trialCalls, List.not_mem_nil]
      exact ⟨by rw [s4, p4]; ring, by simp⟩
    · obtain ⟨p, hsc1, _, _, hnot, _⟩ := scan_default _ _ _ _ _ _ _ _ hp hleaf
      rw [hsc] at hsc1
      simp only [Option.some.injEq, Prod.mk.injEq] at hsc1
      have e1 : i = p.1 := Fin.ext hsc1.1
      have e2 : j = p.2 := Fin.ext hsc1.2
      rw [← e1, ← e2] at hnot
      have hr := trialLoop_rule (solveSdk fuel) (O.cell i j) i j
        (fun _ sudoku _ s out => (∀ v, sudoku.put i j v = S.put i j v) ∧
          s.recLevel = st.recLevel + 1 ∧
          ∀ x ∈ trialCalls out, st.recLevel + 1 ≤ x.1.recLevel ∧
            (nonFixed x.2 : Int) + (x.1.recLevel - st.recLevel) ≤ nonFixed sdk)
        ?_ ?_ MAXDIGITS 0 S 0 st2 [] (r, st3, out) rfl
        ⟨fun _ => rfl, p4, by simp [trialCalls]⟩ ht
      · obtain ⟨k1, sudoku1, _, hinv, _⟩ := hr
        simp only at hinv
        exact ⟨by show st3.recLevel - 1 = st.recLevel; rw [hinv.2.1]; ring, hinv.2.2⟩
      · intro k sudoku result s out r1 s1 out1 hk hinv _ _ hs
        obtain ⟨h1, h2, h3⟩ := hinv
        rw [h1] at hs ⊢
        obtain ⟨c1, c2⟩ := ih _ _ _ hs
        simp only at c1 c2
        have hlt := nonFixed_put_lt S i j (1 <<< k) (digitsInCell_shift k hk) hnot
        refine ⟨fun v => by rw [Grid.put_put], by rw [c1, h2], ?_⟩
        intro x hx
        simp only [trialCalls_append, trialCalls, List.mem_append, List.mem_cons] at hx
        rcases hx with hx | rfl | hx
        · exact h3 x hx
        · simp only
          constructor
          · omega
          · omega
        · obtain ⟨d1, d2⟩ := c2 x hx
          constructor
          · omega
          · omega
      · intro k sudoku result s out _ hinv _ _
        exact hinv

theorem Keeps.trans_of_fixed {g m x : Grid} (h1 : Keeps g m) (h2 : Keeps m x) : Keeps g x := by
  intro i j hfix
  have e := h1 i j hfix
  rw [← e]
  apply h2
  rw [e]; exact hfix

theorem keeps_propagate (fuel : Nat) (sdk options : Grid) (st : State) (numOptions : Nat)
    (O S : Grid) (st1 : State)
    (h : propagate fuel sdk options st = some (numOptions, O, S, st1)) : Keeps sdk S := by
  intro a b hfix
  rcases (propagate_basic _ _ _ _ _ _ _ _ h).1 a b with e | ⟨e, _⟩
  · exact e
  · exact absurd e (digitsInCell_ne_zero_of_one hfix)

theorem keeps_put (S : Grid) (i j : Fin 9) (v : Nat) (h : digitsInCell (S.cell i j) ≠ 1) :
    Keeps S (S.put i j v) := by
  intro a b hfix
  apply Grid.cell_put_other
  intro e
  obtain ⟨rfl, rfl⟩ := Prod.mk.inj e
  exact h hfix

/-- Every matrix passed to a recursive call, for a compliant matrix of unset cells and
single-digit masks: it is of that kind again and keeps the fixed cells. -/
theorem solveSdk_calls_inv (fuel : Nat) (sdk : Grid) (st : State)
    (res : Int × State × List Event) (h : solveSdk fuel sdk st = .ok res) (hc : Cells01 sdk)
    (hn : ¬ ∃ p q, Clash sdk p q) :
    ∀ x ∈ trialCalls res.2.2, Cells01 x.2 ∧ (¬ ∃ p q, Clash x.2 p q) ∧ Keeps sdk x.2 := by
  induction fuel generalizing sdk st res with
  | zero => simp [solveSdk] at h
  | succ fuel ih =>
    obtain ⟨numOptions, O, S, st2, hp, hcase⟩ := solveSdk_cases fuel sdk st res h
    obtain ⟨hcS, hnS, _⟩ := propagate_inv _ _ _ _ _ _ _ _ hc hn hp
    have hkeep := keeps_propagate _ _ _ _ _ _ _ _ hp
    obtain ⟨⟨O0, _, hO⟩, _⟩ := propagate_options _ _ _ _ _ _ _ _ hp
    rcases hcase with ⟨_, _, rfl⟩ | ⟨_, _, rfl⟩ | ⟨hleaf, i, j, r, st3, out, hsc, ht, rfl⟩
    · simp [trialCalls]
    · simp [trialCalls]
    · obtain ⟨p, hsc1, _, _, hnot, _⟩ := scan_default _ _ _ _ _ _ _ _ hp hleaf
      rw [hsc] at hsc1
      simp only [Option.some.injEq, Prod.mk.injEq] at hsc1
      have e1 : i = p.1 := Fin.ext hsc1.1
      have e2 : j = p.2 := Fin.ext hsc1.2
      rw [← e1, ← e2] at hnot
      have hz : S.cell i j = 0 := by
        by_contra hne
        exact hnot ((hcS.fixed_iff i j).2 hne)
      have hOij : O.cell i j = optCell S i j := by rw [hO, setOptions_cell]
      have hr := trialLoop_rule (solveSdk fuel) (O.cell i j) i j
        (fun _ sudoku _ _ out => (∀ v, sudoku.put i j v = S.put i j v) ∧
          ∀ x ∈ trialCalls out, Cells01 x.2 ∧ (¬ ∃ p q, Clash x.2 p q) ∧ Keeps sdk x.2)
        ?_ ?_ MAXDIGITS 0 S 0 st2 [] (r, st3, out) rfl
        ⟨fun _ => rfl, by simp [trialCalls]⟩ ht
      · obtain ⟨k1, sudoku1, _, hinv, _⟩ := hr
        exact hinv.2
      · intro k sudoku result s out r1 s1 out1 hk hinv _ hb hs
        obtain ⟨h1, h2⟩ := hinv
        rw [h1] at hs ⊢
        rw [hOij, and_shift_ne_zero_iff] at hb
        have g1 := cells01_put S i j k hk hcS
        have g2 := noClash_put S i j k hnS hz hb
        have g3 : Keeps sdk (S.put i j (1 <<< k)) :=
          hkeep.trans_of_fixed (keeps_put S i j _ hnot)
        refine ⟨fun v => by rw [Grid.put_put], ?_⟩
        intro x hx
        simp only [trialCalls_append, trialCalls, List.mem_append, List.mem_cons] at hx
        rcases hx with hx | rfl | hx
        · exact h2 x hx
        · exact ⟨g1, g2, g3⟩
        · obtain ⟨d1, d2, d3⟩ := ih _ _ _ hs g1 g2 x hx
          exact ⟨d1, d2, g3.trans_of_fixed d3⟩
      · intro k sudoku result s out _ hinv _ _
        exact hinv

/-! ## `solveSdk`: the order of the solutions -/

theorem digitOf_shift (d : Fin 9) : digitOf (1 <<< d.val) = d.val + 1 := by
  revert d; decide

theorem LexBefore.irrefl (s : Grid) : ¬ LexBefore s s := by
  rintro ⟨p, hp, _⟩
  exact absurd hp (lt_irrefl _)

/-- Two matrices that agree before `(i, j)` and hold there the digits `d + 1 < e + 1`. -/
theorem lexBefore_of_digit (y x S : Grid) (i j : Fin 9) (d e : Nat) (hde : d < e) (he : e < 9)
    (hy : y.cell i j = 1 <<< d) (hx : x.cell i j = 1 <<< e)
    (hyq : ∀ q : Fin 9 × Fin 9, Before q (i, j) → y.cell q.1 q.2 = S.cell q.1 q.2)
    (hxq : ∀ q : Fin 9 × Fin 9, Before q (i, j) → x.cell q.1 q.2 = S.cell q.1 q.2) :
    LexBefore y x := by
  refine ⟨(i, j), ?_, ?_⟩
  · simp only
    rw [hy, hx]
    have h1 := digitOf_shift ⟨d, by omega⟩
    have h2 := digitOf_shift ⟨e, he⟩
    simp only at h1 h2
    rw [h1, h2]; omega
  · intro q hq
    rw [hyq q hq, hxq q hq]

/-- What the solutions of the trial of digit `k + 1` at `(i, j)` hold at and before that
cell. -/
theorem trial_solution_cells (fuel : Nat) (S : Grid) (i j : Fin 9) (k : Nat) (hk : k < 9)
    (s : State) (res : Int × State × List Event) (hcS : Cells01 S)
    (hbefore : ∀ q : Fin 9 × Fin 9, Before q (i, j) → S.cell q.1 q.2 ≠ 0)
    (hs : solveSdk fuel (S.put i j (1 <<< k)) s = .ok res) :
    ∀ y ∈ solutions res.2.2, y.cell i j = 1 <<< k ∧
      ∀ q : Fin 9 × Fin 9, Before q (i, j) → y.cell q.1 q.2 = S.cell q.1 q.2 := by
  intro y hy
  obtain ⟨_, _, g3⟩ := solveSdk_sound _ _ _ _ hs (cells01_put S i j k hk hcS) y hy
  constructor
  · have := g3 i j (by rw [Grid.cell_put_same]; exact (isMask_shift ⟨k, hk⟩).ne_zero)
    rw [this, Grid.cell_put_same]
  · intro q hq
    have hne : (q.1, q.2) ≠ (i, j) := by
      intro e
      have : q = (i, j) := e
      rw [this] at hq
      exact Before_irrefl _ hq
    have := g3 q.1 q.2 (by rw [Grid.cell_put_other _ _ _ _ _ _ hne]; exact hbefore q hq)
    rw [this, Grid.cell_put_other _ _ _ _ _ _ hne]

/-- The solutions that a call of `solveSdk` writes come in strictly increasing lexicographic
order, for a matrix of unset cells and single-digit masks. -/
theorem solveSdk_sorted (fuel : Nat) (sdk : Grid) (st : State)
    (res : Int × State × List Event) (h : solveSdk fuel sdk st = .ok res) (hc : Cells01 sdk) :
    (solutions res.2.2).Pairwise LexBefore := by
  induction fuel generalizing sdk st res with
  | zero => simp [solveSdk] at h
  | succ fuel ih =>
    obtain ⟨numOptions, O, S, st2, hp, hcase⟩ := solveSdk_cases fuel sdk st res h
    have hcS := cells01_propagate _ _ _ _ _ _ _ _ hc hp
    rcases hcase with ⟨_, _, rfl⟩ | ⟨_, _, rfl⟩ | ⟨hleaf, i, j, r, st3, out, hsc, ht, rfl⟩
    · simp [solutions]
    · simp [solutions]
    · obtain ⟨p, hsc1, _, _, hnot, hbefore⟩ := scan_default _ _ _ _ _ _ _ _ hp hleaf
      rw [hsc] at hsc1
      simp only [Option.some.injEq, Prod.mk.injEq] at hsc1
      have e1 : i = p.1 := Fin.ext hsc1.1
      have e2 : j = p.2 := Fin.ext hsc1.2
      have ep : p = (i, j) := by rw [e1, e2]
      rw [ep] at hbefore
      have hr := trialLoop_rule (solveSdk fuel) (O.cell i j) i j
        (fun k sudoku _ _ out => (∀ v, sudoku.put i j v = S.put i j v) ∧
          (solutions out).Pairwise LexBefore ∧
          ∀ y ∈ solutions out, (∃ d, d < k ∧ y.cell i j = 1 <<< d) ∧
            ∀ q : Fin 9 × Fin 9, Before q (i, j) → y.cell q.1 q.2 = S.cell q.1 q.2)
        ?_ ?_ MAXDIGITS 0 S 0 st2 [] (r, st3, out) rfl
        ⟨fun _ => rfl, by simp [solutions], by simp [solutions]⟩ ht
      · obtain ⟨k1, sudoku1, _, hinv, _⟩ := hr
        exact hinv.2.1
      · intro k sudoku result s out r1 s1 out1 hk hinv _ _ hs
        obtain ⟨h1, h2, h3⟩ := hinv
        rw [h1] at hs ⊢
        have hsub := ih _ _ _ hs (cells01_put S i j k hk hcS)
        have hcells := trial_solution_cells fuel S i j k hk s _ hcS hbefore hs
        simp only at hsub hcells
        simp only [solutions_append, solutions]
        refine ⟨fun v => by rw [Grid.put_put], ?_, ?_⟩
        · rw [List.pairwise_append]
          refine ⟨h2, hsub, ?_⟩
          intro y hy x hx
          obtain ⟨⟨d, hd, hyd⟩, hyq⟩ := h3 y hy
          obtain ⟨hxk, hxq⟩ := hcells x hx
          exact lexBefore_of_digit y x S i j d k hd hk hyd hxk hyq hxq
        · intro y hy
          rcases List.mem_append.1 hy with hy | hy
          · obtain ⟨⟨d, hd, hyd⟩, hyq⟩ := h3 y hy
            exact ⟨⟨d, by omega, hyd⟩, hyq⟩
          · obtain ⟨hyk, hyq⟩ := hcells y hy
            exact ⟨⟨k, by omega, hyk⟩, hyq⟩
      · intro k sudoku result s out _ hinv _ _
        obtain ⟨h1, h2, h3⟩ := hinv
        refine ⟨h1, h2, ?_⟩
        intro y hy
        obtain ⟨⟨d, hd, hyd⟩, hyq⟩ := h3 y hy
        exact ⟨⟨d, by omega, hyd⟩, hyq⟩

/-- A completion that a call of `solveSdk` does not write comes after every solution that
the call writes, for a compliant matrix of unset cells and single-digit masks. -/
theorem solveSdk_least (fuel : Nat) (sdk : Grid) (st : State)
    (res : Int × State × List Event) (h : solveSdk fuel sdk st = .ok res) (hc : Cells01 sdk)
    (hn : ¬ ∃ p q, Clash sdk p q) :
    ∀ x, Completion sdk x → x ∈ solutions res.2.2 ∨ ∀ y ∈ solutions res.2.2, LexBefore y x := by
  induction fuel generalizing sdk st res with
  | zero => simp [solveSdk] at h
  | succ fuel ih =>
    obtain ⟨numOptions, O, S, st2, hp, hcase⟩ := solveSdk_cases fuel sdk st res h
    obtain ⟨hcS, hnS, hiff⟩ := propagate_inv _ _ _ _ _ _ _ _ hc hn hp
    obtain ⟨_, p1, _, _, _⟩ := propagate_basic _ _ _ _ _ _ _ _ hp
    simp only at p1
    obtain ⟨⟨O0, _, hO⟩, _⟩ := propagate_options _ _ _ _ _ _ _ _ hp
    rcases hcase with ⟨_, hsol, rfl⟩ | ⟨_, _, rfl⟩ | ⟨hleaf, i, j, r, st3, out, hsc, ht, rfl⟩
    · intro x hx
      left
      simp only [solutions, List.mem_singleton]
      exact (completion_of_isSolution S st2 hcS hsol).2 x ((hiff x).1 hx)
    · intro x _
      right
      simp [solutions]
    · obtain ⟨p, hsc1, _, _, hnot, hbefore⟩ := scan_default _ _ _ _ _ _ _ _ hp hleaf
      rw [hsc] at hsc1
      simp only [Option.some.injEq, Prod.mk.injEq] at hsc1
      have e1 : i = p.1 := Fin.ext hsc1.1
      have e2 : j = p.2 := Fin.ext hsc1.2
      have ep : p = (i, j) := by rw [e1, e2]
      rw [ep] at hbefore hnot
      simp only at hnot
      have hz : S.cell i j = 0 := by
        by_contra hne
        exact hnot ((hcS.fixed_iff i j).2 hne)
      have hOij : O.cell i j = optCell S i j := by rw [hO, setOptions_cell]
      have hxq : ∀ x, Completion S x → ∀ q : Fin 9 × Fin 9, Before q (i, j) →
          x.cell q.1 q.2 = S.cell q.1 q.2 := by
        intro x hx q hq
        exact hx.2.2 q.1 q.2 ((hcS.fixed_iff q.1 q.2).2 (hbefore q hq))
      have hr := trialLoop_rule (solveSdk fuel) (O.cell i j) i j
        (fun k sudoku _ s out => (∀ v, sudoku.put i j v = S.put i j v) ∧
          s.numSolRequested = st.numSolRequested ∧
          (∀ y ∈ solutions out, (∃ d, d < k ∧ y.cell i j = 1 <<< d) ∧
            ∀ q : Fin 9 × Fin 9, Before q (i, j) → y.cell q.1 q.2 = S.cell q.1 q.2) ∧
          (∀ x, Completion S x → x ∈ solutions out ∨ ∀ y ∈ solutions out, LexBefore y x) ∧
          (s.numCurrentSol ≤ s.numSolRequested → ∀ x, Completion S x →
            (∃ d, d < k ∧ x.cell i j = 1 <<< d) → x ∈ solutions out))
        ?_ ?_ MAXDIGITS 0 S 0 st2 [] (r, st3, out) rfl
        ⟨fun _ => rfl, p1, by simp [solutions], by simp [solutions], by
          rintro _ x _ ⟨d, hd, _⟩; omega⟩ ht
      · obtain ⟨k1, sudoku1, _, hinv, _⟩ := hr
        intro x hx
        exact hinv.2.2.2.1 x ((hiff x).1 hx)
      · intro k sudoku result s out r1 s1 out1 hk hinv hg hb hs
        obtain ⟨h1, h2, h3, h4, h5⟩ := hinv
        rw [h1] at hs ⊢
        rw [hOij, and_shift_ne_zero_iff] at hb
        have hcells := trial_solution_cells fuel S i j k hk s _ hcS hbefore hs
        obtain ⟨c1, c2, _, _⟩ := solveSdk_counters _ _ _ _ hs
        have g1 := cells01_put S i j k hk hcS
        have g2 := noClash_put S i j k hnS hz hb
        obtain ⟨_, _, g3⟩ := solveSdk_complete _ _ _ _ hs g1 g2
        have hsub := ih _ _ _ hs g1 g2
        simp only at c1 c2 g3 hsub hcells
        simp only [solutions_append, solutions]
        have hmem : ∀ y ∈ solutions out ++ solutions out1,
            (∃ d, d < k + 1 ∧ y.cell i j = 1 <<< d) ∧
            ∀ q : Fin 9 × Fin 9, Before q (i, j) → y.cell q.1 q.2 = S.cell q.1 q.2 := by
          intro y hy
          rcases List.mem_append.1 hy with hy | hy
          · obtain ⟨⟨d, hd, hyd⟩, hyq⟩ := h3 y hy
            exact ⟨⟨d, by omega, hyd⟩, hyq⟩
          · obtain ⟨hyk, hyq⟩ := hcells y hy
            exact ⟨⟨k, by omega, hyk⟩, hyq⟩
        refine ⟨fun v => by rw [Grid.put_put], by rw [c1, h2], hmem, ?_, ?_⟩
        · intro x hx
          obtain ⟨e, he⟩ := (hx.1 i j).exists_digit
          by_cases hlt : e.val < k
          · exact Or.inl (List.mem_append.2 (Or.inl (h5 hg x hx ⟨e.val, hlt, he⟩)))
          · by_cases heq : e.val = k
            · rw [heq] at he
              rcases hsub x ((completion_put_iff S x i j k hk hz).2 ⟨hx, he⟩) with hin | hall
              · exact Or.inl (List.mem_append.2 (Or.inr hin))
              · right
                intro y hy
                rcases List.mem_append.1 hy with hy | hy
                · obtain ⟨⟨d, hd, hyd⟩, hyq⟩ := h3 y hy
                  exact lexBefore_of_digit y x S i j d k hd hk hyd he hyq (hxq x hx)
                · exact hall y hy
            · right
              intro y hy
              obtain ⟨⟨d, hd, hyd⟩, hyq⟩ := hmem y hy
              exact lexBefore_of_digit y x S i j d e.val (by omega) e.isLt hyd he hyq (hxq x hx)
        · intro hle x hx ⟨d, hd, hxd⟩
          rw [List.mem_append]
          by_cases hdk : d < k
          · exact Or.inl (h5 hg x hx ⟨d, hdk, hxd⟩)
          · have : d = k := by omega
            subst this
            right
            apply g3 (by rw [c1] at hle; exact hle)
            exact (completion_put_iff S x i j d hk hz).2 ⟨hx, hxd⟩
      · intro k sudoku result s out hk hinv hg hb
        obtain ⟨h1, h2, h3, h4, h5⟩ := hinv
        refine ⟨h1, h2, ?_, h4, ?_⟩
        · intro y hy
          obtain ⟨⟨d, hd, hyd⟩, hyq⟩ := h3 y hy
          exact ⟨⟨d, by omega, hyd⟩, hyq⟩
        · intro hle x hx ⟨d, hd, hxd⟩
          by_cases hdk : d < k
          · exact h5 hle x hx ⟨d, hdk, hxd⟩
          · exfalso
            have : d = k := by omega
            subst this
            have := completion_allowed hcS hx i j hz d hk hxd
            rw [← hOij, ← and_shift_ne_zero_iff] at this
            exact this hb

/-! ## The text of a solution -/

theorem outputCellLoop_eq (todo cell digit : Nat) :
    outputCellLoop todo cell digit =
      (List.range todo).map fun p => if cell.testBit p then Char.ofNat (digit + p) else '.' := by
  induction todo generalizing cell digit with
  | zero => rfl
  | succ todo ih =>
    unfold outputCellLoop
    rw [ih, List.range_succ_eq_map, List.map_cons, List.map_map]
    congr 1
    · rw [Nat.and_one_is_mod, Nat.testBit_zero]
      simp
    · apply List.map_congr_left
      intro p _
      simp only [Function.comp, Nat.testBit_shiftRight]
      have e1 : 1 + p = p + 1 := by omega
      have e2 : digit + 1 + p = digit + (p + 1) := by omega
      rw [e1, e2]

theorem outputCell_eq (cell : Nat) (suffix endline : List Char) :
    outputCell true cell suffix endline = cellText cell ++ suffix ++ endline := by
  unfold outputCell cellText
  rw [if_pos rfl, outputCellLoop_eq]
  rfl

theorem finRange_eight : List.finRange 8 = [0, 1, 2, 3, 4, 5, 6, 7] := by decide

theorem finRange_nine : List.finRange 9 = [0, 1, 2, 3, 4, 5, 6, 7, 8] := by decide

theorem outputLine_eq (g : Grid) (st : State) (i : Fin 9) :
    outputLine true g st i =
      outputRecuLevel true st ++
        ((List.finRange 9).flatMap fun j => cellText (g.cell i j) ++ [separator j]) ++ [NL] := by
  unfold outputLine
  simp only [outputCell_eq, finRange_eight, finRange_nine, List.flatMap_cons, List.flatMap_nil,
    separator]
  simp
  rfl

theorem outputSolution_eq (st : State) (g : Grid) :
    outputSolution st g =
      outputRecuLevel true st ++ solutionHeader st ++ [NL] ++
        (List.finRange 9).flatMap fun i =>
          outputRecuLevel true st ++
            ((List.finRange 9).flatMap fun j => cellText (g.cell i j) ++ [separator j]) ++
            [NL] := by
  unfold outputSolution outputPass
  rw [if_pos rfl]
  congr 1
  apply List.flatMap_congr
  intro i _
  exact outputLine_eq g st i

theorem cellText_shift (d : Fin 9) :
    cellText (1 <<< d.val) =
      (List.range 9).map fun p => if p = d.val then Char.ofNat (49 + d.val) else '.' := by
  unfold cellText
  apply List.map_congr_left
  intro p _
  by_cases h : p = d.val
  · rw [if_pos h, if_pos (by rw [h, testBit_shift_iff])]
    rw [h]
  · rw [if_neg h, if_neg]
    rw [testBit_shift_iff]
    exact fun e => h e.symm

/-! ## `readSdk` -/

theorem fgetsRead_line (l rest : List Char) (n : Nat) (hn : l.length < n) (hl : NL ∉ l) :
    fgetsRead n (l ++ NL :: rest) = (l ++ [NL], rest) := by
  induction l generalizing n with
  | nil =>
    obtain ⟨m, rfl⟩ : ∃ m, n = m + 1 := ⟨n - 1, by simp at hn; omega⟩
    simp [fgetsRead]
  | cons c l ih =>
    obtain ⟨m, rfl⟩ : ∃ m, n = m + 1 := ⟨n - 1, by simp at hn; omega⟩
    have hc : c ≠ NL := fun e => hl (by rw [e]; exact List.mem_cons_self _ _)
    have hl1 : NL ∉ l := fun e => hl (List.mem_cons_of_mem _ e)
    have e := ih m (by simp at hn; omega) hl1
    show fgetsRead (m + 1) (c :: (l ++ NL :: rest)) = (c :: (l ++ [NL]), rest)
    simp only [fgetsRead, if_neg hc, e]

theorem fgets_line (l rest aStr : List Char) (hn : l.length ≤ 96) (hl : NL ∉ l) :
    fgets 98 (l ++ NL :: rest) aStr =
      some (l ++ [NL] ++ NUL :: aStr.drop ((l ++ [NL]).length + 1), rest) := by
  unfold fgets
  rw [fgetsRead_line l rest (98 - 1) (by omega) hl]
  simp

theorem char_eq_iff (c d : Char) : c = d ↔ c.toNat = d.toNat := by
  constructor
  · intro h; rw [h]
  · intro h
    apply Char.ext
    apply UInt32.ext
    exact h

theorem caseOf_spec (c : Char) : (caseOf c).getD 0 = specCellOf c := by
  unfold caseOf specCellOf
  simp only [char_eq_iff]
  have e1 : ('1' : Char).toNat = 49 := by decide
  have e2 : ('2' : Char).toNat = 50 := by decide
  have e3 : ('3' : Char).toNat = 51 := by decide
  have e4 : ('4' : Char).toNat = 52 := by decide
  have e5 : ('5' : Char).toNat = 53 := by decide
  have e6 : ('6' : Char).toNat = 54 := by decide
  have e7 : ('7' : Char).toNat = 55 := by decide
  have e8 : ('8' : Char).toNat = 56 := by decide
  have e9 : ('9' : Char).toNat = 57 := by decide
  rw [e1, e2, e3, e4, e5, e6, e7, e8, e9]
  by_cases h1 : c.toNat = 49
  · simp [h1]
  by_cases h2 : c.toNat = 50
  · simp [h2]
  by_cases h3 : c.toNat = 51
  · simp [h3]
  by_cases h4 : c.toNat = 52
  · simp [h4]
  by_cases h5 : c.toNat = 53
  · simp [h5]
  by_cases h6 : c.toNat = 54
  · simp [h6]
  by_cases h7 : c.toNat = 55
  · simp [h7]
  by_cases h8 : c.toNat = 56
  · simp [h8]
  by_cases h9 : c.toNat = 57
  · simp [h9]
  have hno : ¬ (49 ≤ c.toNat ∧ c.toNat ≤ 57) := by omega
  simp [h1, h2, h3, h4, h5, h6, h7, h8, h9, hno]

theorem specCellOf_cell (c : Char) : specCellOf c = 0 ∨ IsMask (specCellOf c) := by
  unfold specCellOf
  by_cases h : 49 ≤ c.toNat ∧ c.toNat ≤ 57
  · rw [if_pos h]
    exact Or.inr (isMask_shift ⟨c.toNat - 48 - 1, by omega⟩)
  · rw [if_neg h]; exact Or.inl rfl

theorem readLine_fold (aStr : List Char) (i : Fin 9) (l : List (Fin 9)) (hnd : l.Nodup)
    (m : Grid) (a b : Fin 9) :
    (l.foldl (readCell aStr i) m).cell a b =
      if a = i ∧ b ∈ l then (caseOf (aStr.getD b.val NUL)).getD (m.cell a b) else m.cell a b := by
  induction l generalizing m with
  | nil => simp
  | cons j rest ih =>
    have hj : j ∉ rest := (List.nodup_cons.1 hnd).1
    rw [List.foldl_cons, ih (List.nodup_cons.1 hnd).2]
    by_cases hab : a = i ∧ b = j
    · obtain ⟨rfl, rfl⟩ := hab
      rw [if_neg (fun hh => hj hh.2), if_pos ⟨rfl, List.mem_cons_self _ _⟩]
      unfold readCell
      rcases hcase : caseOf (aStr.getD b.val NUL) with _ | v
      · simp
      · simp [Grid.cell_put_same]
    · have hput : ∀ v, (m.put i j v).cell a b = m.cell a b := by
        intro v
        apply Grid.cell_put_other
        intro e
        exact hab ⟨(Prod.mk.inj e).1, (Prod.mk.inj e).2⟩
      have hm : (readCell aStr i m j).cell a b = m.cell a b := by
        unfold readCell
        rcases caseOf (aStr.getD j.val NUL) with _ | v
        · rfl
        · exact hput v
      rw [hm]
      by_cases hr : a = i ∧ b ∈ rest
      · rw [if_pos hr, if_pos ⟨hr.1, List.mem_cons_of_mem _ hr.2⟩]
      · rw [if_neg hr, if_neg]
        rintro ⟨h1, h2⟩
        rcases List.mem_cons.1 h2 with h2 | h2
        · exact hab ⟨h1, h2⟩
        · exact hr ⟨h1, h2⟩

theorem readLine_cell (aStr : List Char) (i : Fin 9) (m : Grid) (a b : Fin 9) :
    (readLine aStr i m).cell a b =
      if a = i then (caseOf (aStr.getD b.val NUL)).getD (m.cell a b) else m.cell a b := by
  unfold readLine
  rw [readLine_fold aStr i (List.finRange 9) (List.nodup_finRange 9)]
  simp [List.mem_finRange]

theorem streamOf_cons (l : List Char) (ls : List (List Char)) :
    streamOf (l :: ls) = l ++ NL :: streamOf ls := by
  simp [streamOf]

theorem readLoop_cell (ls : List (List Char)) (i : Nat) (aStr : List Char) (m : Grid)
    (hls : ∀ l ∈ ls, (9 ≤ l.length ∧ NL ∉ l) ∧ l.length ≤ 96) (hi : i + ls.length = 9)
    (hzero : ∀ a b : Fin 9, i ≤ a.val → m.cell a b = 0) (a b : Fin 9) :
    (readLoop (ls.length + 1) i (streamOf ls) aStr m).cell a b =
      if i ≤ a.val then specCellOf ((ls.getD (a.val - i) []).getD b.val NUL)
      else m.cell a b := by
  induction ls generalizing i aStr m with
  | nil =>
    have : ¬ i ≤ a.val := by simp at hi; omega
    rw [if_neg this]
    simp [readLoop, streamOf, fgets, fgetsRead]
  | cons l ls ih =>
    obtain ⟨⟨h9, hnl⟩, h96⟩ := hls l (List.mem_cons_self _ _)
    have hi9 : i < 9 := by simp at hi; omega
    rw [List.length_cons]
    unfold readLoop
    rw [streamOf_cons, fgets_line l _ aStr h96 hnl]
    simp only
    rw [dif_pos hi9]
    rw [ih (i + 1) _ _ (fun x hx => hls x (List.mem_cons_of_mem _ hx))
      (by simp at hi; omega) ?_]
    · by_cases h1 : i + 1 ≤ a.val
      · have h2 : i ≤ a.val := by omega
        rw [if_pos h1, if_pos h2]
        have : a.val - i = (a.val - (i + 1)) + 1 := by omega
        rw [this, List.getD_cons_succ]
      · rw [if_neg h1, readLine_cell]
        by_cases h2 : a = ⟨i, hi9⟩
        · have h3 : i ≤ a.val := by rw [h2]
          rw [if_pos h2, if_pos h3, hzero a b h3, caseOf_spec]
          have h4 : a.val - i = 0 := by rw [h2]; simp
          rw [h4, List.getD_cons_zero]
          congr 1
          have hb : b.val < l.length := by have := b.isLt; omega
          rw [List.append_assoc, List.getD_append _ _ _ _ hb]
        · have h3 : ¬ i ≤ a.val := by
            intro h
            apply h2
            apply Fin.ext
            simp only
            omega
          rw [if_neg h2, if_neg h3]
    · intro x y hx
      rw [readLine_cell, if_neg]
      · exact hzero x y (by omega)
      · intro e
        rw [e] at hx
        simp only at hx
        omega

/-! ## Further properties of `consolidateOpt`, `digitsInCell` and `setOptions` -/

/-- C11. Once `consolidateOpt` returns 0 the solution matrix is unchanged and a call with the
same arguments returns 0 again; and after any call, a second call on the solution matrix it
left returns 0 and leaves that matrix unchanged. -/
theorem consolidateOpt_idempotent (O S : Grid) (st st1 : State) :
    ((consolidateOpt O S st).1 = 0 →
      (consolidateOpt O S st).2.1 = S ∧ (consolidateOpt O S st1).1 = 0) ∧
    (consolidateOpt O (consolidateOpt O S st).2.1 st1).1 = 0 ∧
    (consolidateOpt O (consolidateOpt O S st).2.1 st1).2.1 = (consolidateOpt O S st).2.1 := by
  refine ⟨?_, (consolidateOpt_again O S st st1).1, (consolidateOpt_again O S st st1).2⟩
  intro h
  exact ⟨(consolidateOpt_zero O S st h).1, by rw [consolidateOpt_fst_indep O S st1 st]; exact h⟩

/-- C12. `digitsInCell` returns the number of 1 bits of the binary representation of the
cell; the loop ends by its own test, since any bound on the iterations from the value of the
cell on gives that number; and on a cell of nine bits the result is 0 exactly for 0, 1 exactly
for the nine single-digit masks, and at least 2 otherwise. -/
theorem digitsInCell_counts_bits (c : Nat) :
    digitsInCell c = onesInBinary c ∧
    (∀ fuel : Nat, c ≤ fuel → digitsLoop fuel c 0 = onesInBinary c) ∧
    (c < 512 → (digitsInCell c = 0 ↔ c = 0) ∧ (digitsInCell c = 1 ↔ IsMask c) ∧
      (c ≠ 0 → ¬ IsMask c → 2 ≤ digitsInCell c)) := by
  refine ⟨digitsInCell_eq_ones c, ?_, ?_⟩
  · intro fuel h
    rw [digitsLoop_eq fuel c 0 h]; omega
  · intro h
    obtain ⟨_, h0, h1⟩ := digitsInCell_table ⟨c, h⟩
    simp only at h0 h1
    refine ⟨h0, h1, ?_⟩
    intro hne hm
    have a0 : digitsInCell c ≠ 0 := fun e => hne (h0.1 e)
    have a1 : digitsInCell c ≠ 1 := fun e => hm (h1.1 e)
    omega

/-- C13. For an input matrix of nine-bit cells, `digitsInCell` of every cell that
`setOptions` writes is at least 0 and at most 9. -/
theorem setOptions_count_range (G outSdk : Grid) (i j : Fin 9)
    (h : ∀ a b : Fin 9, G.cell a b < 512) :
    0 ≤ digitsInCell ((setOptions G outSdk).2.cell i j) ∧
      digitsInCell ((setOptions G outSdk).2.cell i j) ≤ 9 := by
  rw [setOptions_cell]
  exact ⟨Nat.zero_le _, digitsInCell_le_nine (optCell_lt G h i j)⟩

/-- The witness for C13: the Sudoku of the usage message at position `(0, 0)`. -/
theorem setOptions_count_range_witness :
    (∀ a b : Fin 9, usageSdk.cell a b < 512) ∧
    (0 ≤ digitsInCell ((setOptions usageSdk Grid.zero).2.cell 0 0) ∧
      digitsInCell ((setOptions usageSdk Grid.zero).2.cell 0 0) ≤ 9) :=
  ⟨by decide, setOptions_count_range usageSdk Grid.zero 0 0 (by decide)⟩

/-! ## Output and input -/

set_option maxRecDepth 100000 in
/-- C14, as the specification states it, fails: for the solved Sudoku written as solution 1
with the attempt counter at 2, the text is not the header "Solution 1 in 2 attempts:" and
nine lines of one character for each cell. -/
theorem solution_text_differs :
    outputSolution firstSolutionState solvedSdk ≠ specSolutionText 1 2 solvedSdk := by
  decide!

/-- C14, amended. The text written for a solution is the recurrence level between braces,
the header "Solution k in n", a blank, one more word (one or more letters and nothing else)
and a colon, and then nine lines, one for each line of the matrix: the recurrence level
between braces, and for each cell nine characters (the digit `p + 1` at place `p` when the
cell has that candidate and a dot otherwise, so a fixed cell shows its digit among eight dots)
and then a colon, or a bar after every third cell. -/
theorem solution_text (st : State) (g : Grid) :
    (∃ noun : List Char, noun ≠ [] ∧ (∀ c ∈ noun, c.isAlpha = true) ∧ outputSolution st g =
      outputRecuLevel true st ++
        ("Solution ".toList ++ decimal st.numCurrentSol ++ " in ".toList ++
          decimal st.numAttempts ++ (' ' :: noun) ++ [':']) ++ [NL] ++
        (List.finRange 9).flatMap fun i =>
          outputRecuLevel true st ++
            ((List.finRange 9).flatMap fun j => cellText (g.cell i j) ++ [separator j]) ++
            [NL]) ∧
    outputRecuLevel true st = Char.ofNat 123 :: decimal st.recLevel ++ [Char.ofNat 125] ∧
    (∀ c : Nat, (cellText c).length = 9) ∧
    (∀ d : Fin 9, cellText (1 <<< d.val) =
      (List.range 9).map fun p => if p = d.val then Char.ofNat (49 + d.val) else '.') ∧
    (∀ j : Fin 9, separator j = if j.val % 3 = 2 then '|' else ':') := by
  refine ⟨⟨"attemps".toList, by decide, by decide, ?_⟩, rfl, ?_, cellText_shift, fun _ => rfl⟩
  · have e : " attemps:".toList = ' ' :: "attemps".toList ++ [':'] := by decide
    rw [outputSolution_eq]
    unfold solutionHeader
    rw [e]
    simp only [List.append_assoc]
  · intro c
    simp [cellText]

/-- C15, as the specification states it, fails: `longInput` has nine lines of at least nine
characters, and its second line, nine dots, is not what the second line of the matrix is
read from. -/
theorem readSdk_long_line : NineLines longInput ∧ ¬ ReadSdkParses longInput := by
  refine ⟨by decide, ?_⟩
  intro h
  have h1 := h 1 0
  revert h1
  decide

/-- C15, amended. For nine lines of at least 9 and at most 96 characters each, read into the
all-zero matrix, the cell at line `i`, column `j` is the mask `1 << (d - 1)` when character
`j` of line `i` is the digit `d`, and 0 for any other character; so every cell is unset or a
single-digit mask. -/
theorem readSdk_parses (lines : List (List Char)) (h : NineLines lines)
    (hmax : ∀ l ∈ lines, l.length ≤ 96) :
    ReadSdkParses lines ∧ Cells01 (readSdk (streamOf lines) aStrInit Grid.zero) := by
  have key : ∀ i j : Fin 9, (readSdk (streamOf lines) aStrInit Grid.zero).cell i j =
      specCellOf ((lines.getD i.val []).getD j.val NUL) := by
    intro i j
    have hlen : LIN + 1 = lines.length + 1 := by rw [h.1]; rfl
    unfold readSdk
    rw [hlen, readLoop_cell lines 0 aStrInit Grid.zero (fun l hl => ⟨h.2 l hl, hmax l hl⟩)
      (by rw [h.1]) (by intro a b _; revert a b; decide) i j]
    simp
  refine ⟨key, ?_⟩
  intro i j
  rw [key]
  exact specCellOf_cell _

/-- The witness for C15, amended: the nine lines of the usage message. -/
theorem readSdk_parses_witness :
    NineLines usageInput ∧ (∀ l ∈ usageInput, l.length ≤ 96) ∧
    (ReadSdkParses usageInput ∧ Cells01 (readSdk (streamOf usageInput) aStrInit Grid.zero)) :=
  ⟨by decide, by decide, readSdk_parses usageInput (by decide) (by decide)⟩

/-! ## Further properties of `solveSdk` -/

/-- C16. In a call of `solveSdk` whose loop ends with the minimum 0 or 1, the working matrix
still has an unset cell (and with the minimum 1 the options are not compliant), `isSolution`
fails, and the call returns 0 without writing a solution or making a recursive call; and a
call that writes a solution itself has a loop that ended with `NOTSET`. -/
theorem dead_end_of_loop (fuel : Nat) (sdk : Grid) (st : State) (numOptions : Nat)
    (O S : Grid) (st2 : State)
    (hloop : propagate (LIN * COL + 1) sdk Grid.zero
      { st with recLevel := st.recLevel + 1, numAttempts := wrapInt (st.numAttempts + 1) }
      = some (numOptions, O, S, st2)) :
    ((numOptions = 0 ∨ numOptions = 1) →
      (∃ i j : Fin 9, S.cell i j = 0) ∧
      (numOptions = 1 → (isCompliant O st2).1 = false) ∧
      (isSolution S st2).1 = false ∧
      ∃ st3 : State, solveSdk (fuel + 1) sdk st = .ok (0, st3, [])) ∧
    ∀ (r : Int) (st3 : State) (k a : Int) (m : Grid) (rest : List Event),
      solveSdk (fuel + 1) sdk st = .ok (r, st3, Event.solution k a m :: rest) →
      numOptions = NOTSET ∧ m = S ∧ rest = [] := by
  obtain ⟨⟨O0, hn, hO⟩, hone⟩ := propagate_options _ _ _ _ _ _ _ _ hloop
  have hdead : (numOptions = 0 ∨ numOptions = 1) →
      (∃ i j : Fin 9, S.cell i j = 0) ∧ (isSolution S st2).1 = false := by
    intro h01
    obtain ⟨_, _, h3⟩ := setOptions_min S O0
    rw [← hn] at h3
    rcases h3 with h3 | ⟨i, j, hz, _⟩
    · unfold NOTSET at h3; omega
    · refine ⟨⟨i, j, hz⟩, ?_⟩
      rcases hs : (isSolution S st2).1 with _ | _
      · rfl
      · rw [isSolution_true_iff] at hs
        have := hs.1 i j
        rw [hz] at this
        exact absurd this (by decide)
  constructor
  · intro h01
    obtain ⟨hz, hsol⟩ := hdead h01
    refine ⟨hz, fun h1 => hone h1 st2, hsol, ?_⟩
    have hleaf : numOptions = 0 ∨ numOptions = 1 ∨ numOptions = NOTSET := by
      rcases h01 with h | h
      · exact Or.inl h
      · exact Or.inr (Or.inl h)
    rw [solveSdk_leaf fuel sdk st numOptions O S st2 hloop hleaf, hsol]
    exact ⟨_, rfl⟩
  · intro r st3 k a m rest hrun
    obtain ⟨n1, O1, S1, s1, hp, hcase⟩ := solveSdk_cases fuel sdk st _ hrun
    rw [hloop] at hp
    simp only [Option.some.injEq, Prod.mk.injEq] at hp
    obtain ⟨rfl, rfl, rfl, rfl⟩ := hp
    rcases hcase with ⟨hleaf, hsol, he⟩ | ⟨_, _, he⟩ | ⟨_, i, j, r1, s3, out, _, ht, he⟩
    · simp only [Prod.mk.injEq, List.cons.injEq, Event.solution.injEq] at he
      refine ⟨?_, he.2.2.1.2.2, he.2.2.2⟩
      rcases hleaf with h | h | h
      · rw [(hdead (Or.inl h)).2] at hsol; exact absurd hsol (by decide)
      · rw [(hdead (Or.inr h)).2] at hsol; exact absurd hsol (by decide)
      · exact h
    · simp at he
    · obtain ⟨more, h1, h2⟩ := trialLoop_output _ _ _ _ _ _ _ _ _ _ _ ht
      simp only [List.nil_append] at h1
      simp only [Prod.mk.injEq] at he
      have hm : more = Event.solution k a m :: rest := by rw [← h1, ← he.2.2]
      rw [hm] at h2
      rcases h2 with h2 | ⟨t, a1, b1, c1, m1, rest1, h2⟩
      · simp at h2
      · simp at h2

set_option maxRecDepth 100000 in
/-- The witness for C16: `deadEndSdk`, whose cell `[0, 8]` has no candidate. -/
theorem dead_end_of_loop_witness :
    propagate (LIN * COL + 1) deadEndSdk Grid.zero
      { State.init 1 with recLevel := (State.init 1).recLevel + 1,
                          numAttempts := wrapInt ((State.init 1).numAttempts + 1) }
      = some (0, (setOptions deadEndSdk Grid.zero).2, deadEndSdk,
          { State.init 1 with recLevel := (State.init 1).recLevel + 1,
                              numAttempts := wrapInt ((State.init 1).numAttempts + 1) }) ∧
    (((0 : Nat) = 0 ∨ (0 : Nat) = 1) →
      (∃ i j : Fin 9, deadEndSdk.cell i j = 0) ∧
      ((0 : Nat) = 1 → (isCompliant (setOptions deadEndSdk Grid.zero).2
        { State.init 1 with recLevel := (State.init 1).recLevel + 1,
                            numAttempts := wrapInt ((State.init 1).numAttempts + 1) }).1 = false) ∧
      (isSolution deadEndSdk
        { State.init 1 with recLevel := (State.init 1).recLevel + 1,
                            numAttempts := wrapInt ((State.init 1).numAttempts + 1) }).1 = false ∧
      ∃ st3 : State, solveSdk (81 + 1) deadEndSdk (State.init 1) = .ok (0, st3, [])) :=
  ⟨by decide!, (dead_end_of_loop 81 deadEndSdk (State.init 1) 0
    (setOptions deadEndSdk Grid.zero).2 deadEndSdk
    { State.init 1 with recLevel := (State.init 1).recLevel + 1,
                        numAttempts := wrapInt ((State.init 1).numAttempts + 1) } (by decide!)).1⟩

/-- C17. In a call of `solveSdk` whose loop ends with a minimum other than 0, 1 and `NOTSET`,
the search stops inside the matrix, at the first cell in row-major order whose options have
at least two candidates, so that `options[LIN][0]` is never read; and when the cells of the
working matrix are each unset or fixed, that cell is unset and every cell before it is fixed. -/
theorem branch_cell_in_bounds (fuel : Nat) (sdk : Grid) (st : State) (numOptions : Nat)
    (O S : Grid) (st2 : State)
    (hloop : propagate (LIN * COL + 1) sdk Grid.zero
      { st with recLevel := st.recLevel + 1, numAttempts := wrapInt (st.numAttempts + 1) }
      = some (numOptions, O, S, st2))
    (hdef : ¬ (numOptions = 0 ∨ numOptions = 1 ∨ numOptions = NOTSET)) :
    ∃ p : Fin 9 × Fin 9, scanLoop O (LIN * COL) 0 0 = some (p.1.val, p.2.val) ∧
      2 ≤ digitsInCell (O.cell p.1 p.2) ∧
      (∀ q : Fin 9 × Fin 9, Before q p → digitsInCell (O.cell q.1 q.2) < 2) ∧
      solveSdk (fuel + 1) sdk st ≠ .error Fault.bounds ∧
      (UnsetOrFixed S → S.cell p.1 p.2 = 0 ∧
        ∀ q : Fin 9 × Fin 9, Before q p → digitsInCell (S.cell q.1 q.2) = 1) := by
  obtain ⟨p, h1, h2, h3, h4, h5⟩ := scan_default _ _ _ _ _ _ _ _ hloop hdef
  refine ⟨p, h1, h2, h3, solveSdk_no_bounds_fault _ _ _, ?_⟩
  intro hS
  constructor
  · rcases hS p.1 p.2 with e | e
    · exact e
    · exact absurd e h4
  · intro q hq
    rcases hS q.1 q.2 with e | e
    · exact absurd e (h5 q hq)
    · exact e

set_option maxRecDepth 100000 in
/-- The witness for C17: `branchSdk`, whose loop ends with the minimum 2. -/
theorem branch_cell_in_bounds_witness :
    propagate (LIN * COL + 1) branchSdk Grid.zero
      { State.init 2 with recLevel := (State.init 2).recLevel + 1,
                          numAttempts := wrapInt ((State.init 2).numAttempts + 1) }
      = some (2, (setOptions branchSdk Grid.zero).2, branchSdk,
          { State.init 2 with recLevel := (State.init 2).recLevel + 1,
                              numAttempts := wrapInt ((State.init 2).numAttempts + 1) }) ∧
    ¬ ((2 : Nat) = 0 ∨ (2 : Nat) = 1 ∨ 2 = NOTSET) ∧
    ∃ p : Fin 9 × Fin 9,
      scanLoop (setOptions branchSdk Grid.zero).2 (LIN * COL) 0 0 = some (p.1.val, p.2.val) ∧
      2 ≤ digitsInCell ((setOptions branchSdk Grid.zero).2.cell p.1 p.2) ∧
      (∀ q : Fin 9 × Fin 9, Before q p →
        digitsInCell ((setOptions branchSdk Grid.zero).2.cell q.1 q.2) < 2) ∧
      solveSdk (81 + 1) branchSdk (State.init 2) ≠ .error Fault.bounds ∧
      (UnsetOrFixed branchSdk → branchSdk.cell p.1 p.2 = 0 ∧
        ∀ q : Fin 9 × Fin 9, Before q p → digitsInCell (branchSdk.cell q.1 q.2) = 1) :=
  ⟨by decide!, by decide,
    branch_cell_in_bounds 81 branchSdk (State.init 2) 2 (setOptions branchSdk Grid.zero).2
      branchSdk
      { State.init 2 with recLevel := (State.init 2).recLevel + 1,
                          numAttempts := wrapInt ((State.init 2).numAttempts + 1) }
      (by decide!) (by decide)⟩

/-- C18. For a matrix of unset cells and single-digit masks, the solutions that `solveSdk`
writes come in strictly increasing lexicographic order of their digits read in row-major
order, so none is written twice; and for a compliant matrix with a completion, with one
solution requested, the one solution written is the least completion in that order. -/
theorem solutions_in_lexicographic_order (g : Grid) (st : State) (hg : Cells01 g) :
    ∃ (r : Int) (st1 : State) (out : List Event),
      solveSdk (LIN * COL + 1) g st = .ok (r, st1, out) ∧
      (solutions out).Pairwise LexBefore ∧ (solutions out).Nodup ∧
      ((isCompliant g st).1 = true → st.numCurrentSol = 1 → st.numSolRequested = 1 →
        (∃ x, Completion g x) →
        ∃ s, solutions out = [s] ∧ Completion g s ∧
          ∀ x, Completion g x → x = s ∨ LexBefore s x) := by
  obtain ⟨⟨r, st1, out⟩, hrun⟩ := solveSdk_total (LIN * COL + 1) g st
    (by have := nonFixed_le g; simp only [LIN, COL]; omega)
  have hsorted := solveSdk_sorted _ _ _ _ hrun hg
  simp only at hsorted
  refine ⟨r, st1, out, hrun, hsorted, ?_, ?_⟩
  · have hne : ∀ a b : Grid, LexBefore a b → a ≠ b := by
      intro a b hab e
      rw [e] at hab
      exact LexBefore.irrefl b hab
    exact List.Pairwise.imp (fun {a b} hab => hne a b hab) hsorted
  · intro hcomp hcur hreq ⟨x0, hx0⟩
    rw [isCompliant_iff_noClash] at hcomp
    obtain ⟨_, h2, h3⟩ := solveSdk_complete _ _ _ _ hrun hg hcomp
    obtain ⟨_, _, _, c4⟩ := solveSdk_counters _ _ _ _ hrun
    obtain ⟨c2, c4⟩ := c4 (by omega) (by omega) (by omega)
    have hleast := solveSdk_least _ _ _ _ hrun hg hcomp
    simp only at h2 h3 c2 c4 hleast
    have hlen : (solutions out).length = 1 := by
      have hle : (solutions out).length ≤ 1 := by
        rcases c4 with c4 | c4
        · exact c4
        · omega
      have hne : (solutions out).length ≠ 0 := by
        intro e
        have hmem := h3 (by omega) x0 hx0
        rw [List.length_eq_zero.1 e] at hmem
        exact absurd hmem (List.not_mem_nil _)
      omega
    obtain ⟨s, hs⟩ := List.length_eq_one.1 hlen
    refine ⟨s, hs, h2 s (by rw [hs]; exact List.mem_singleton_self s), ?_⟩
    intro x hx
    rcases hleast x hx with hin | hall
    · left
      rw [hs] at hin
      exact List.mem_singleton.1 hin
    · right
      exact hall s (by rw [hs]; exact List.mem_singleton_self s)

/-- The witness for C18: the Sudoku of the usage message with one solution requested. -/
theorem solutions_in_lexicographic_order_witness :
    Cells01 usageSdk ∧
    ∃ (r : Int) (st1 : State) (out : List Event),
      solveSdk (LIN * COL + 1) usageSdk (State.init 1) = .ok (r, st1, out) ∧
      (solutions out).Pairwise LexBefore ∧ (solutions out).Nodup ∧
      ((isCompliant usageSdk (State.init 1)).1 = true → (State.init 1).numCurrentSol = 1 →
        (State.init 1).numSolRequested = 1 → (∃ x, Completion usageSdk x) →
        ∃ s, solutions out = [s] ∧ Completion usageSdk s ∧
          ∀ x, Completion usageSdk x → x = s ∨ LexBefore s x) :=
  ⟨by decide, solutions_in_lexicographic_order usageSdk (State.init 1) (by decide)⟩

/-- C19. For every matrix and any globals `solveSdk` ends: a recursion budget of one plus the
number of cells that are not fixed, at most 82, is enough; every recursive call, made at
recurrence level `recLevel`, gets a matrix with at least that many fewer cells that are not
fixed than the matrix of the first call, so with strictly fewer than its caller; every pass
of the loop that goes on fixes a cell; and the loop ends within one pass more than there are
unset cells. -/
theorem solveSdk_terminates (g : Grid) (st : State) :
    (∃ res, solveSdk (nonFixed g + 1) g st = .ok res) ∧ nonFixed g + 1 ≤ 82 ∧
    (∃ res, solveSdk (LIN * COL + 1) g st = .ok res ∧
      ∀ x ∈ trialCalls res.2.2, nonFixed x.2 < nonFixed g ∧
        st.recLevel + 1 ≤ x.1.recLevel ∧
        (nonFixed x.2 : Int) + (x.1.recLevel - st.recLevel) ≤ nonFixed g ∧
        x.1.recLevel + 1 - st.recLevel ≤ (nonFixed g : Int) + 1) ∧
    (∀ (S O0 : Grid) (s : State), (consolidateOpt (setOptions S O0).2 S s).1 ≠ 0 →
      nonFixed (consolidateOpt (setOptions S O0).2 S s).2.1 < nonFixed S) ∧
    (∀ (fuel : Nat) (O0 : Grid) (s : State), unsetCount g < fuel →
      ∃ r, propagate fuel g O0 s = some r) := by
  refine ⟨solveSdk_total _ g st (by omega), by have := nonFixed_le g; omega, ?_,
    consolidate_fixes, fun fuel O0 s h => propagate_total fuel g O0 s h⟩
  obtain ⟨res, hrun⟩ := solveSdk_total (LIN * COL + 1) g st
    (by have := nonFixed_le g; simp only [LIN, COL]; omega)
  refine ⟨res, hrun, ?_⟩
  intro x hx
  obtain ⟨h1, h2⟩ := (solveSdk_depth _ _ _ _ hrun).2 x hx
  refine ⟨by omega, h1, h2, by omega⟩

/-- C20. For a compliant matrix `g` of unset cells and single-digit masks: a call of
`consolidateOpt` on a working matrix of that kind that keeps the fixed cells of `g` leaves
one again; so does the loop; and the matrix passed to every recursive call (the working
matrix after a trial assignment) is a compliant matrix of unset cells and single-digit masks
that agrees with `g` on every cell fixed there.  The statement holds for the matrix of every
call, so for each caller. -/
theorem working_grid_invariant (g : Grid) (st : State) (hg : Cells01 g)
    (hc : (isCompliant g st).1 = true) :
    (∀ (S O0 : Grid) (s : State), Cells01 S → (isCompliant S s).1 = true → Keeps g S →
      Cells01 (consolidateOpt (setOptions S O0).2 S s).2.1 ∧
      (isCompliant (consolidateOpt (setOptions S O0).2 S s).2.1 s).1 = true ∧
      Keeps S (consolidateOpt (setOptions S O0).2 S s).2.1 ∧
      Keeps g (consolidateOpt (setOptions S O0).2 S s).2.1) ∧
    (∀ (fuel : Nat) (O0 : Grid) (s : State) (n : Nat) (O S : Grid) (s1 : State),
      propagate fuel g O0 s = some (n, O, S, s1) →
      Cells01 S ∧ (isCompliant S s1).1 = true ∧ Keeps g S) ∧
    ∃ res, solveSdk (LIN * COL + 1) g st = .ok res ∧
      ∀ x ∈ trialCalls res.2.2,
        Cells01 x.2 ∧ (isCompliant x.2 x.1).1 = true ∧ Keeps g x.2 := by
  rw [isCompliant_iff_noClash] at hc
  refine ⟨?_, ?_, ?_⟩
  · intro S O0 s hS hcS hkS
    rw [isCompliant_iff_noClash] at hcS
    obtain ⟨h1, h2, _⟩ := consolidate_inv S O0 s hS hcS
    have hk : Keeps S (consolidateOpt (setOptions S O0).2 S s).2.1 := by
      intro i j hfix
      rcases consolidateOpt_cell (setOptions S O0).2 S s i j with e | ⟨e, _⟩
      · exact e
      · exact absurd e (digitsInCell_ne_zero_of_one hfix)
    exact ⟨h1, (isCompliant_iff_noClash _ _).2 h2, hk, hkS.trans_of_fixed hk⟩
  · intro fuel O0 s n O S s1 hp
    obtain ⟨h1, h2, _⟩ := propagate_inv _ _ _ _ _ _ _ _ hg hc hp
    exact ⟨h1, (isCompliant_iff_noClash _ _).2 h2, keeps_propagate _ _ _ _ _ _ _ _ hp⟩
  · obtain ⟨res, hrun⟩ := solveSdk_total (LIN * COL + 1) g st
      (by have := nonFixed_le g; simp only [LIN, COL]; omega)
    refine ⟨res, hrun, ?_⟩
    intro x hx
    obtain ⟨h1, h2, h3⟩ := solveSdk_calls_inv _ _ _ _ hrun hg hc x hx
    exact ⟨h1, (isCompliant_iff_noClash _ _).2 h2, h3⟩

/-- The witness for C20: the Sudoku of the usage message with three solutions requested. -/
theorem working_grid_invariant_witness :
    Cells01 usageSdk ∧ (isCompliant usageSdk (State.init 3)).1 = true ∧
    ((∀ (S O0 : Grid) (s : State), Cells01 S → (isCompliant S s).1 = true → Keeps usageSdk S →
      Cells01 (consolidateOpt (setOptions S O0).2 S s).2.1 ∧
      (isCompliant (consolidateOpt (setOptions S O0).2 S s).2.1 s).1 = true ∧
      Keeps S (consolidateOpt (setOptions S O0).2 S s).2.1 ∧
      Keeps usageSdk (consolidateOpt (setOptions S O0).2 S s).2.1) ∧
    (∀ (fuel : Nat) (O0 : Grid) (s : State) (n : Nat) (O S : Grid) (s1 : State),
      propagate fuel usageSdk O0 s = some (n, O, S, s1) →
      Cells01 S ∧ (isCompliant S s1).1 = true ∧ Keeps usageSdk S) ∧
    ∃ res, solveSdk (LIN * COL + 1) usageSdk (State.init 3) = .ok res ∧
      ∀ x ∈ trialCalls res.2.2,
        Cells01 x.2 ∧ (isCompliant x.2 x.1).1 = true ∧ Keeps usageSdk x.2) :=
  ⟨by decide, by decide, working_grid_invariant usageSdk (State.init 3) (by decide) (by decide)⟩

end Sudoku
